import Mathlib

/-!
# react-d3-tree: tree state and layout engine

A shallow embedding of `src/Tree/index.js`.

Conventions of the embedding.

* A JavaScript node object is a value of `Node` (or `RawNode` before
  `assignInternalProperties` has run).  The array stored in `_children` is a
  `List Node`.  Every reader of `_children` in the source guards it with
  `x && x.length`, so an absent `_children` and an empty one are the same thing
  to the program; both are the empty list here.  The same holds for the raw
  `children` field.
* After `assignInternalProperties`, `node.children` and `node._children` are
  one and the same array object.  The embedding stores that array once, in
  `_children`, and `Fields.children` records whether the `children` field
  points at it.
* Object identity is position: a reference to a node of the array `data` is a
  `Path`, the index into `data` followed by the child indices through
  `_children`.  Mutating the object behind a reference is `modifyAt`.
* `clone` (a deep copy) is the identity on values.
* The zoom and its bounds, which the code only compares, are rationals. The
  coordinates that `restrictNodeHeightGrowth` computes are doubles (`Num`).
-/

namespace Rd3t

/-! ## Data model -/

/-- The state of the `children` field of a live node object. -/
inductive ChildrenField where
  /-- The field is absent, or an empty array of its own. -/
  | own
  /-- The field holds the very array that `_children` holds. -/
  | shared
deriving DecidableEq, Repr

/-- The scalar fields of a raw node, as the host supplies it. `ext` holds the
host's own boolean fields (the ones an external collapse or active binding
names). -/
structure RawFields where
  name : String
  attributes : Option (List (String × String))
  styles : Option String
  ext : List (String × Bool)
deriving DecidableEq, Repr

/-- A raw node: host fields and the `children` array. -/
inductive RawNode where
  | mk (fields : RawFields) (children : List RawNode)
deriving Repr

/-- The scalar fields of a live node: the raw ones plus the internal
properties. `_active` and `depth` are absent until something writes them. -/
structure Fields where
  name : String
  attributes : Option (List (String × String))
  styles : Option String
  ext : List (String × Bool)
  id : String
  _collapsed : Bool
  _active : Option Bool
  depth : Option Nat
  children : ChildrenField
deriving DecidableEq, Repr

/-- A live node: its scalar fields and the `_children` array. -/
inductive Node where
  | mk (fields : Fields) (_children : List Node)
deriving Repr

mutual
/-- Equality of live nodes is decidable. -/
def Node.decEq : (a b : Node) → Decidable (a = b)
  | .mk f cs, .mk g ds =>
    if h : f = g then
      match Node.decEqEach cs ds with
      | isTrue h2 => isTrue (by rw [h, h2])
      | isFalse h2 => isFalse (fun h3 => h2 (Node.mk.inj h3).2)
    else isFalse (fun h3 => h (Node.mk.inj h3).1)
/-- Equality of arrays of live nodes is decidable. -/
def Node.decEqEach : (as bs : List Node) → Decidable (as = bs)
  | [], [] => isTrue rfl
  | [], _ :: _ => isFalse (fun h => List.noConfusion h)
  | _ :: _, [] => isFalse (fun h => List.noConfusion h)
  | a :: as, b :: bs =>
    match Node.decEq a b with
    | isTrue h1 =>
      match Node.decEqEach as bs with
      | isTrue h2 => isTrue (by rw [h1, h2])
      | isFalse h2 => isFalse (fun h3 => h2 (List.cons.inj h3).2)
    | isFalse h1 => isFalse (fun h3 => h1 (List.cons.inj h3).1)
end

instance : DecidableEq Node := Node.decEq

/-- A reference to a node object: its position in the `data` array. -/
abbrev Path := List Nat

namespace RawNode

/-- The scalar fields of a raw node. -/
def fields : RawNode → RawFields
  | .mk f _ => f

/-- The `children` array of a raw node. -/
def children : RawNode → List RawNode
  | .mk _ cs => cs

end RawNode

namespace Node

/-- The scalar fields of a live node. -/
def fields : Node → Fields
  | .mk f _ => f

/-- The `_children` array of a live node. -/
def _children : Node → List Node
  | .mk _ cs => cs

/-- The value read from the `children` field of a live node. -/
def children (n : Node) : List Node :=
  match n.fields.children with
  | .shared => n._children
  | .own => []

/-- The node reached from `n` by following child indices through `_children`. -/
def sub? : Node → Path → Option Node
  | n, [] => some n
  | .mk _ cs, i :: rest =>
    match cs[i]? with
    | some c => c.sub? rest
    | none => none

/-- Apply `f` to the node reached from `n` along the path (an in-place
mutation of that object); a path that leads nowhere changes nothing. -/
def modifyAt (f : Node → Node) : Path → Node → Node
  | [], n => f n
  | i :: rest, .mk fl cs => .mk fl (cs.modify (modifyAt f rest) i)

end Node

/-- Dereference: the node of the array `data` at a reference. -/
def get? (data : List Node) : Path → Option Node
  | [] => none
  | i :: rest =>
    match data[i]? with
    | some n => n.sub? rest
    | none => none

/-- Mutate in place the object behind a reference into `data`. -/
def modifyAt (f : Node → Node) : Path → List Node → List Node
  | [], data => data
  | i :: rest, data => data.modify (Node.modifyAt f rest) i

mutual
/-- The ids of a node and of everything below it, in pre-order. -/
def Node.ids : Node → List String
  | .mk f cs => f.id :: idsEach cs
/-- The ids of all nodes of an array of trees, in pre-order. -/
def idsEach : List Node → List String
  | [] => []
  | c :: cs => c.ids ++ idsEach cs
end

mutual
/-- The number of nodes of a live tree. -/
def Node.size : Node → Nat
  | .mk _ cs => 1 + sizeEach cs
/-- The number of nodes of an array of live trees. -/
def sizeEach : List Node → Nat
  | [] => 0
  | c :: cs => c.size + sizeEach cs
end

mutual
/-- The number of nodes of a raw tree. -/
def RawNode.size : RawNode → Nat
  | .mk _ cs => 1 + rawSizeEach cs
/-- The number of nodes of an array of raw trees. -/
def rawSizeEach : List RawNode → Nat
  | [] => 0
  | c :: cs => c.size + rawSizeEach cs
end

mutual
/-- Forget the internal properties of a live node: the raw node with the same
host fields and, as children, the raw nodes of `_children`. -/
def Node.toRaw : Node → RawNode
  | .mk f cs => .mk ⟨f.name, f.attributes, f.styles, f.ext⟩ (toRawEach cs)
/-- Forget the internal properties of every tree of an array. -/
def toRawEach : List Node → List RawNode
  | [] => []
  | c :: cs => c.toRaw :: toRawEach cs
end

/-! ## Props and state -/

/-- A point `{x, y}`. -/
structure Point where
  x : ℚ
  y : ℚ
deriving DecidableEq

/-- The zoom bounds `{min, max}`. -/
structure ScaleExtent where
  min : ℚ
  max : ℚ
deriving DecidableEq

/-- The props of the component that the embedded methods read.
`shouldAutoExpandChildren` is the host's selector: it is handed a node object
and returns one of the objects below it (as the child indices leading to it
from that node) or nothing. `onClick` says whether the host registered a click
callback. -/
structure Props where
  zoom : ℚ
  scaleExtent : ScaleExtent
  translate : Point
  collapsible : Bool
  shouldAutoExpandChildren : Option (Node → Option Path)
  shouldCollapseNeighborNodes : Bool
  externalCollapse : Option String
  externalActive : Option String
  externalNodeStyles : Bool
  initialDepth : Option Nat
  transitionDuration : Nat
  onClick : Bool

/-- The defaults of `Tree.defaultProps`. -/
def defaultProps : Props where
  zoom := 1
  scaleExtent := ⟨1 / 10, 1⟩
  translate := ⟨0, 0⟩
  collapsible := true
  shouldAutoExpandChildren := none
  shouldCollapseNeighborNodes := false
  externalCollapse := none
  externalActive := none
  externalNodeStyles := false
  initialDepth := none
  transitionDuration := 500
  onClick := false

/-- The value `{translate, scale}` kept in `internalState.d3`. -/
structure D3Geometry where
  translate : Point
  scale : ℚ
deriving DecidableEq

/-- The React state of the component: `data` and `isTransitioning` (absent,
hence falsy, until the first toggle). -/
structure State where
  data : List Node
  isTransitioning : Bool

/-! ## Geometry -/

/-- The method `calculateD3Geometry`: limit the zoom level to `scaleExtent`. -/
def calculateD3Geometry (nextProps : Props) : D3Geometry :=
  let scale :=
    if nextProps.zoom > nextProps.scaleExtent.max then nextProps.scaleExtent.max
    else if nextProps.zoom < nextProps.scaleExtent.min then nextProps.scaleExtent.min
    else nextProps.zoom
  { translate := nextProps.translate, scale := scale }

/-! ## Identity assignment -/

mutual
/-- The callback of the `map` in `assignInternalProperties`, for one node.
`uuid k` is what the `k`-th call of `uuid.v4()` returns; the counter of calls
made so far is threaded through. -/
def assignNode (uuid : Nat → String) : RawNode → Nat → Node × Nat
  | .mk f children, k =>
    -- node.id = uuid.v4(); node._collapsed = false;
    let fl : Fields :=
      { name := f.name, attributes := f.attributes, styles := f.styles, ext := f.ext,
        id := uuid k, _collapsed := false, _active := none, depth := none, children := .own }
    -- if (node.children && node.children.length > 0)
    if children.length > 0 then
      let r := assignInternalProperties uuid children (k + 1)
      (.mk { fl with children := .shared } r.1, r.2)
    else
      (.mk fl [], k + 1)
/-- The method `assignInternalProperties`, on an array of raw nodes. -/
def assignInternalProperties (uuid : Nat → String) : List RawNode → Nat → List Node × Nat
  | [], k => ([], k)
  | n :: ns, k =>
    let r := assignNode uuid n k
    let rs := assignInternalProperties uuid ns r.2
    (r.1 :: rs.1, rs.2)
end

/-! ## Tree search -/

/-- The references to the nodes of the array `nodeSet` that satisfy `pred`, in
array order: what `nodeSet.filter(pred)` returns. `base` is the reference of
the object whose `_children` the array is (empty for `data` itself) and `i`
the index of the first element. -/
def filterRefs (pred : Node → Bool) (base : Path) : List Node → Nat → List Path
  | [], _ => []
  | n :: ns, i =>
    if pred n then (base ++ [i]) :: filterRefs pred base ns (i + 1)
    else filterRefs pred base ns (i + 1)

mutual
/-- The `forEach` of `findNodesById` over the rest of `nodeSet`, from index `i`
on, threading `hits`. -/
def findNodesById.forEach (nodeId : String) : List Node → Path → Nat → List Path → List Path
  | [], _, _, hits => hits
  | node :: rest, base, i, hits =>
    findNodesById.forEach nodeId rest base (i + 1)
      (findNodesById.visit nodeId node (base ++ [i]) hits)
/-- The callback of that `forEach`: search `node._children` when it is not
empty. The recursive call of `findNodesById` is unfolded in place. -/
def findNodesById.visit (nodeId : String) : Node → Path → List Path → List Path
  | .mk _ cs, ref, hits =>
    -- if (node._children && node._children.length > 0)
    if cs.length > 0 then
      -- hits = this.findNodesById(nodeId, node._children, hits)
      if hits.length > 0 then hits
      else
        findNodesById.forEach nodeId cs ref 0
          (hits ++ filterRefs (fun node => node.fields.id == nodeId) ref cs 0)
    else hits
end

/-- The method `findNodesById`. `base` is the reference of the object whose
`_children` is `nodeSet` (empty for the `data` array). -/
def findNodesById (nodeId : String) (nodeSet : List Node) (base : Path) (hits : List Path) :
    List Path :=
  if hits.length > 0 then hits
  else
    findNodesById.forEach nodeId nodeSet base 0
      (hits ++ filterRefs (fun node => node.fields.id == nodeId) base nodeSet 0)

mutual
/-- The `forEach` of `findNodesAtDepth` over the rest of `nodeSet`. -/
def findNodesAtDepth.forEach (depth : Option Nat) :
    List Node → Path → Nat → List Path → List Path
  | [], _, _, accumulator => accumulator
  | node :: rest, base, i, accumulator =>
    findNodesAtDepth.forEach depth rest base (i + 1)
      (findNodesAtDepth.visit depth node (base ++ [i]) accumulator)
/-- The callback of that `forEach`, with the recursive call unfolded in place. -/
def findNodesAtDepth.visit (depth : Option Nat) : Node → Path → List Path → List Path
  | .mk _ cs, ref, accumulator =>
    if cs.length > 0 then
      findNodesAtDepth.forEach depth cs ref 0
        (accumulator ++ filterRefs (fun node => node.fields.depth == depth) ref cs 0)
    else accumulator
end

/-- The method `findNodesAtDepth`. -/
def findNodesAtDepth (depth : Option Nat) (nodeSet : List Node) (base : Path)
    (accumulator : List Path) : List Path :=
  findNodesAtDepth.forEach depth nodeSet base 0
    (accumulator ++ filterRefs (fun node => node.fields.depth == depth) base nodeSet 0)

/-! ## Visibility state machine -/

/-- The method `unmarkNodeActive`. -/
def unmarkNodeActive (node : Node) : Node :=
  .mk { node.fields with _active := some false } node._children

/-- The method `markNodeActive`. -/
def markNodeActive (node : Node) : Node :=
  .mk { node.fields with _active := some true } node._children

/-- The method `expandNode`. -/
def expandNode (node : Node) : Node :=
  .mk { node.fields with _collapsed := false } node._children

mutual
/-- The method `collapseNode`: the node object and everything reached through
`_children` after the mutation. -/
def collapseNode : Node → Node
  | .mk f cs =>
    -- node._collapsed = true; this.unmarkNodeActive(node);
    .mk { f with _collapsed := true, _active := some false } (collapseNode.forEach cs)
/-- The `forEach` of `collapseNode` over `node._children`. -/
def collapseNode.forEach : List Node → List Node
  | [] => []
  | child :: rest => collapseNode child :: collapseNode.forEach rest
end

/-- The method `getNodeCollapsedState`, read for its truthiness. An empty
binding name is falsy like an absent one; a field the node lacks reads
`undefined`, which is falsy. -/
def getNodeCollapsedState (props : Props) (node : Node) : Bool :=
  match props.externalCollapse with
  | some key =>
    if key = "" then node.fields._collapsed else (node.fields.ext.lookup key).getD false
  | none => node.fields._collapsed

/-- The method `collapseNeighborNodes`. -/
def collapseNeighborNodes (targetNode : Path) (nodeSet : List Node) : List Node :=
  match get? nodeSet targetNode with
  | none => nodeSet
  | some target =>
    let neighbors :=
      (findNodesAtDepth target.fields.depth nodeSet [] []).filter fun ref =>
        match get? nodeSet ref with
        | some node => node.fields.id != target.fields.id
        | none => false
    neighbors.foldl (fun data neighbor => modifyAt collapseNode neighbor data) nodeSet

/-- How a method can fail to return. -/
inductive Failure where
  /-- A property of `undefined` was read or written. -/
  | typeError
  /-- The loop did not finish within the steps allowed. -/
  | outOfFuel
deriving DecidableEq, Repr

/-- The object the selector hands back for the node at `ref`, as a reference
into `data`; nothing when the selector returns nothing or no object of `data`. -/
def selectChild (selector : Node → Option Path) (data : List Node) (ref : Path) : Option Path :=
  match get? data ref with
  | none => none
  | some node =>
    match selector node with
    | none => none
    | some rel => if (get? data (ref ++ rel)).isSome then some (ref ++ rel) else none

/-- The `while (selectedChild)` loop of `autoExpand`, entered with a defined
`selectedChild`; `fuel` bounds the number of iterations. `selectChild` returns
references into `data` only, so the dereference at the top always succeeds. -/
def autoExpand.loop (selector : Node → Option Path) :
    Nat → List Node → Path → Except Failure (List Node)
  | 0, _, _ => .error .outOfFuel
  | fuel + 1, data, selectedChild =>
    match get? data selectedChild with
    | none => .error .typeError
    | some node =>
      if node._children.length > 0 then
        let data := modifyAt expandNode selectedChild data
        match selectChild selector data selectedChild with
        -- this.markNodeActive(undefined)
        | none => .error .typeError
        | some next => autoExpand.loop selector fuel (modifyAt markNodeActive next data) next
      else .ok data

/-- The method `autoExpand`, on the node at `node` of `data`. -/
def autoExpand (selector : Node → Option Path) (fuel : Nat) (data : List Node) (node : Path) :
    Except Failure (List Node) :=
  match get? data node with
  | none => .error .typeError
  | some startingNode =>
    if startingNode._children.length = 0 then .ok data
    else
      let data := modifyAt markNodeActive node (modifyAt expandNode node data)
      match selectChild selector data node with
      | none => .error .typeError
      | some selectedChild =>
        autoExpand.loop selector fuel (modifyAt markNodeActive selectedChild data) selectedChild

/-- The method `handleOnClickCb`: the argument the host's `onClick` is called
with (`none` inside for `undefined`), or nothing when no callback is registered. -/
def handleOnClickCb (props : Props) (targetNode : Option Node) : Option (Option Node) :=
  if props.onClick then some targetNode else none

/-- What a call of `handleNodeToggle` leaves behind. -/
structure ToggleResult where
  /-- The React state after the call. -/
  state : State
  /-- The call of the host's click callback, see `handleOnClickCb`. -/
  clicked : Option (Option Node)
  /-- The delay in milliseconds of the scheduled unlock, when one was scheduled. -/
  unlockAfter : Option Nat
  /-- The value written to `internalState.targetNode`, when it was written. -/
  targetNode : Option Node

/-- The method `handleNodeToggle`. `fuel` bounds the loop of `autoExpand`.
`matches[0]` is `undefined` when there is no hit; a hit is a reference into
`data`, so dereferencing it succeeds. `setState` takes effect at once. -/
def handleNodeToggle (props : Props) (fuel : Nat) (state : State) (nodeId : String) :
    Except Failure ToggleResult :=
  let data := state.data
  let hits := findNodesById nodeId data [] []
  let targetNode := hits.head?
  if props.collapsible && !state.isTransitioning then
    match targetNode with
    -- targetNode._collapsed with targetNode undefined
    | none => .error .typeError
    | some ref =>
      match get? data ref with
      | none => .error .typeError
      | some node =>
        let mutated : Except Failure (List Node) :=
          if node.fields._collapsed then
            let expanded : Except Failure (List Node) :=
              match props.shouldAutoExpandChildren with
              | some selector => autoExpand selector fuel data ref
              | none => .ok (modifyAt expandNode ref data)
            match expanded with
            | .error e => .error e
            | .ok data =>
              .ok (if props.shouldCollapseNeighborNodes then collapseNeighborNodes ref data
                   else data)
          else .ok (modifyAt collapseNode ref data)
        match mutated with
        | .error e => .error e
        | .ok data =>
          .ok { state := { data := data, isTransitioning := true }
                clicked := handleOnClickCb props (get? data ref)
                unlockAfter := some (props.transitionDuration + 10)
                targetNode := get? data ref }
  else
    .ok { state := state
          clicked := handleOnClickCb props (targetNode.bind (get? data))
          unlockAfter := none
          targetNode := none }

/-! ## Layout: the visible node list -/

mutual
/-- The node list of d3's `tree.nodes(rootNode)` with the children accessor
that `generateTree` installs, `d => getNodeCollapsedState(d) ? null : d._children`:
the pre-order walk from `rootNode`, each node given as its reference relative
to `rootNode`. -/
def treeNodes (props : Props) : Node → List Path
  | .mk f cs =>
    [] :: (if getNodeCollapsedState props (.mk f cs) then [] else treeNodes.children props cs 0)
/-- The walk over the children that the accessor returned, from index `i` on. -/
def treeNodes.children (props : Props) : List Node → Nat → List Path
  | [], _ => []
  | c :: cs, i => (treeNodes props c).map (i :: ·) ++ treeNodes.children props cs (i + 1)
end

/-! ## Layout: the first pass and the initial depth -/

mutual
/-- What d3's `tree.nodes(rootNode)` writes on the objects it visits, with the
children accessor of `generateTree`: every visited node gets its `depth` (0 at
the root, one more for each child), and its `children` field is set to the
array the accessor returned, or deleted when the accessor returned nothing or
an empty array. The nodes below a collapsed node are not visited. -/
def hierarchy (props : Props) : Nat → Node → Node
  | depth, .mk f cs =>
    if getNodeCollapsedState props (.mk f cs) || cs.length == 0 then
      .mk { f with depth := some depth, children := .own } cs
    else
      .mk { f with depth := some depth, children := .shared }
        (hierarchy.children props (depth + 1) cs)
/-- The visit of the children that the accessor returned. -/
def hierarchy.children (props : Props) : Nat → List Node → List Node
  | _, [] => []
  | depth, c :: cs => hierarchy props depth c :: hierarchy.children props depth cs
end

/-- The fields of a node after `n._collapsed = n.depth >= initialDepth`; a
`depth` that is absent compares false. -/
def capFields (initialDepth : Nat) (f : Fields) : Fields :=
  { f with
    _collapsed := match f.depth with
      | some depth => decide (depth ≥ initialDepth)
      | none => false }

/-- The assignment `n._collapsed = n.depth >= initialDepth` of
`setInitialTreeDepth`. -/
def setCollapsedByDepth (initialDepth : Nat) (n : Node) : Node :=
  .mk (capFields initialDepth n.fields) n._children

/-- The method `setInitialTreeDepth`: `nodeSet` holds references relative to
`rootNode`, and the result is `rootNode` after the `forEach`. -/
def setInitialTreeDepth (nodeSet : List Path) (initialDepth : Nat) (rootNode : Node) : Node :=
  nodeSet.foldl (fun root n => root.modifyAt (setCollapsedByDepth initialDepth) n) rootNode

/-- The part of `internalState` that the embedded methods read or write.
`isRerendered` is true for the one render that follows a full replacement. -/
structure InternalState where
  initialRender : Bool
  isRerendered : Bool
  d3 : D3Geometry

/-- The method `generateTree` up to the node list: the `data` array as the
layout leaves it and the references of `nodes`, relative to `rootNode`. The
coordinates and the links are not part of this value. With an empty `data`
there is no `rootNode` and d3 fails on it. -/
def generateTree (props : Props) (fuel : Nat) (internalState : InternalState)
    (data : List Node) : Except Failure (List Node × List Path) :=
  match data with
  | [] => .error .typeError
  | rootNode :: rest =>
    -- let nodes = tree.nodes(rootNode)
    let laidOut := hierarchy props 0 rootNode
    let nodes := treeNodes props laidOut
    match props.initialDepth with
    | some initialDepth =>
      if internalState.initialRender || internalState.isRerendered then
        -- this.setInitialTreeDepth(nodes, initialDepth); nodes = tree.nodes(rootNode)
        let capped := hierarchy props 0 (setInitialTreeDepth nodes initialDepth laidOut)
        let nodes := treeNodes props capped
        match props.shouldAutoExpandChildren with
        | some selector =>
          -- this.autoExpand(nodes[0])
          match autoExpand selector fuel (capped :: rest) [0] with
          | .error e => .error e
          | .ok data => .ok (data, nodes)
        | none => .ok (capped :: rest, nodes)
      else .ok (laidOut :: rest, nodes)
    | none => .ok (laidOut :: rest, nodes)

/-! ## Reconciliation -/

/-- The two property names that `flatTreeStructure` is called with. -/
inductive ChildrenKey where
  | children
  | _children
deriving DecidableEq, Repr

/-- What `flatTreeStructure` reads of a node object under a children key: its
`name` and the array `node[childrenKey]`. -/
inductive NameTree where
  | mk (name : String) (kids : List NameTree)
deriving Repr

/-- The name at the root of a name tree. -/
def NameTree.name : NameTree → String
  | .mk name _ => name

/-- The children of the root of a name tree. -/
def NameTree.kids : NameTree → List NameTree
  | .mk _ kids => kids

mutual
/-- A live node as `flatTreeStructure` reads it under a children key. -/
def Node.keyed (childrenKey : ChildrenKey) : Node → NameTree
  | .mk f cs =>
    .mk f.name
      (if childrenKey = ChildrenKey._children ∨ f.children = ChildrenField.shared then
        keyedEach childrenKey cs
      else [])
/-- The elements of an array of live nodes as `flatTreeStructure` reads them. -/
def keyedEach (childrenKey : ChildrenKey) : List Node → List NameTree
  | [] => []
  | c :: cs => c.keyed childrenKey :: keyedEach childrenKey cs
end

mutual
/-- A raw node as `flatTreeStructure` reads it under a children key; a raw node
has no `_children`. -/
def RawNode.keyed (childrenKey : ChildrenKey) : RawNode → NameTree
  | .mk f cs =>
    .mk f.name
      (if childrenKey = ChildrenKey.children then rawKeyedEach childrenKey cs else [])
/-- The elements of an array of raw nodes as `flatTreeStructure` reads them. -/
def rawKeyedEach (childrenKey : ChildrenKey) : List RawNode → List NameTree
  | [] => []
  | c :: cs => c.keyed childrenKey :: rawKeyedEach childrenKey cs
end

/-- The node reached from a raw node by following child indices through
`children`. -/
def RawNode.sub? : RawNode → Path → Option RawNode
  | n, [] => some n
  | .mk _ cs, i :: rest =>
    match cs[i]? with
    | some c => c.sub? rest
    | none => none

/-- Dereference into an array of raw nodes. -/
def rawGet? (data : List RawNode) : Path → Option RawNode
  | [] => none
  | i :: rest =>
    match data[i]? with
    | some n => n.sub? rest
    | none => none

/-- The plain object that `flatTreeStructure` fills: its own properties, each
holding a reference to a node object, in the order of their first assignment.
(`Object.keys` lists integer-like names first; nothing embedded here depends
on the order.) -/
abbrev NameMap := List (String × Path)

/-- The definition of an own property `name` with the value `node`: an existing
property gets the new value and keeps its place, a new one is added at the
end. -/
def NameMap.put (map : NameMap) (name : String) (node : Path) : NameMap :=
  if map.any (fun e => e.1 == name) then
    map.map (fun e => if e.1 == name then (name, node) else e)
  else map ++ [(name, node)]

/-- The assignment `map[name] = node` on the plain object. The name
`__proto__` is the accessor that `Object.prototype` hands down: assigning a
node object to it replaces the prototype of `map` and gives `map` no own
property (the prototype is not part of the value kept here). Every other name
becomes, or stays, an own property. -/
def NameMap.set (map : NameMap) (name : String) (node : Path) : NameMap :=
  if name = "__proto__" then map else map.put name node

mutual
/-- The method `flatTreeStructure` on a node as read under `childrenKey`; `ref`
is the reference of that node. -/
def flatTreeStructure : NameTree → Path → NameMap → NameMap
  | .mk name kids, ref, map =>
    -- map[node.name] = node
    flatTreeStructure.forEach kids ref 0 (map.set name ref)
/-- The `forEach` of `flatTreeStructure` over `node[childrenKey]`. -/
def flatTreeStructure.forEach : List NameTree → Path → Nat → NameMap → NameMap
  | [], _, _, map => map
  | child :: rest, ref, i, map =>
    flatTreeStructure.forEach rest ref (i + 1) (flatTreeStructure child (ref ++ [i]) map)
end

/-- The assignment `node[key] = value` on the host's fields, where an absent
value (`undefined`) leaves the field reading `undefined`. -/
def setExt (key : String) (value : Option Bool) (ext : List (String × Bool)) :
    List (String × Bool) :=
  match value with
  | some b => (key, b) :: ext.filter (fun e => e.1 != key)
  | none => ext.filter (fun e => e.1 != key)

/-- The body of the `forEach` of `componentWillReceiveProps` for an old node
whose name the new mapping has: the assignments from the new node `found`
(only its scalar fields are read). -/
def mergeNode (nextProps : Props) (externalCollapse : String) (found : RawFields)
    (node : Node) : Node :=
  -- node[nextProps.externalCollapse] = ...; node.attributes = { ...attributes }
  let f : Fields :=
    { node.fields with
      ext := setExt externalCollapse (found.ext.lookup externalCollapse) node.fields.ext
      attributes := some (found.attributes.getD []) }
  let f : Fields :=
    match nextProps.externalActive with
    | some externalActive =>
      if externalActive = "" then f
      else { f with ext := setExt externalActive (found.ext.lookup externalActive) f.ext }
    | none => f
  let f : Fields := if nextProps.externalNodeStyles then { f with styles := found.styles } else f
  .mk f node._children

/-- The method `componentWillReceiveProps`. `dataChanged` is the outcome of
`this.props.data !== nextProps.data`, `nextData` is `nextProps.data`, and `k`
counts the calls of `uuid.v4()` made so far. The two flattened mappings are
plain objects, so `.length` reads the property of that name: it is there only
when a node is named `"length"`, and then the two values are two different
objects. -/
def componentWillReceiveProps (uuid : Nat → String) (nextProps : Props) (dataChanged : Bool)
    (nextData : List RawNode) (k : Nat) (state : State) (internalState : InternalState) :
    Except Failure (State × InternalState × Nat) :=
  let newPropsData := nextData
  let binding : Option String := nextProps.externalCollapse.filter (fun key => key != "")
  match dataChanged, binding with
  | true, some externalCollapse =>
    let currentState := state.data
    match currentState, newPropsData with
    | rootNode :: _, newRoot :: _ =>
      let oldStateNodes := flatTreeStructure (rootNode.keyed ChildrenKey._children) [0] []
      let newPropsNodes := flatTreeStructure (newRoot.keyed ChildrenKey.children) [0] []
      -- if (oldStateNodes.length !== newPropsNodes.length)
      if (oldStateNodes.lookup "length").isSome || (newPropsNodes.lookup "length").isSome then
        let r := assignInternalProperties uuid newPropsData k
        -- return, before the geometry is recomputed
        .ok ({ state with data := r.1 }, { internalState with isRerendered := true }, r.2)
      else
        let merged := oldStateNodes.foldl
          (fun data entry =>
            match (newPropsNodes.lookup entry.1).bind (rawGet? newPropsData) with
            | some found => modifyAt (mergeNode nextProps externalCollapse found.fields) entry.2 data
            | none => data)
          currentState
        .ok ({ state with data := merged },
             { internalState with d3 := calculateD3Geometry nextProps }, k)
    -- flatTreeStructure reads `name` of `undefined`
    | _, _ => .error .typeError
  | true, none =>
    let r := assignInternalProperties uuid newPropsData k
    .ok ({ state with data := r.1 },
         { internalState with d3 := calculateD3Geometry nextProps }, r.2)
  | false, _ =>
    .ok (state, { internalState with d3 := calculateD3Geometry nextProps }, k)

/-! ## The path that `autoExpand` follows -/

mutual
/-- The height of a tree: the number of steps to its deepest node. -/
def Node.height : Node → Nat
  | .mk _ cs => heightEach cs
/-- One more than the height of the highest tree of an array; 0 for none. -/
def heightEach : List Node → Nat
  | [] => 0
  | c :: cs => max (c.height + 1) (heightEach cs)
end

mutual
/-- The child indices that `autoExpand` follows below a node: the selector is
handed the node as it is when the call is made, expanded and marked active,
and the path goes on from the child it names until a node without children,
or until the selector names no child. -/
def Node.selectedPath (selector : Node → Option Path) : Node → Path
  | .mk f cs =>
    if cs.length > 0 then
      match selector (expandNode (markNodeActive (.mk f cs))) with
      | some [j] => j :: selectedPath.from selector cs j
      | _ => []
    else []
/-- The path below the `j`-th element of an array of children. -/
def selectedPath.from (selector : Node → Option Path) : List Node → Nat → Path
  | [], _ => []
  | c :: _, 0 => c.selectedPath selector
  | _ :: cs, j + 1 => selectedPath.from selector cs j
end

/-- The node that `autoExpand` is expected to leave behind when it follows the
child indices `path` from it: the node is marked active, and when the path
goes on it is expanded and the same is done from the child the path names. -/
def markAlong : Path → Node → Node
  | [], n => markNodeActive n
  | j :: rest, n => Node.modifyAt (markAlong rest) [j] (expandNode (markNodeActive n))

mutual
/-- The nodes of a name tree in pre-order, each as its name and its reference;
`ref` is the reference of the root. -/
def NameTree.preorder : NameTree → Path → List (String × Path)
  | .mk name kids, ref => (name, ref) :: preorderEach kids ref 0
/-- The nodes of the trees of an array in pre-order, tree after tree. -/
def preorderEach : List NameTree → Path → Nat → List (String × Path)
  | [], _, _ => []
  | c :: cs, ref, i => c.preorder (ref ++ [i]) ++ preorderEach cs ref (i + 1)
end

/-! ## Numbers -/

/-- A JavaScript number, that is an IEEE 754 double: not-a-number, an
infinity, or a finite value. The sign of a zero is not kept: the operations
used here (`+`, `-`, `*`, a division by 2 or -2, `===`) give the same value
for either zero. The operations below deliver doubles; a `fin` whose value is
not a double stands for no number of the program. -/
inductive Num where
  | nan
  | inf (negative : Bool)
  | fin (value : ℚ)
deriving DecidableEq

/-- Round to the nearest integer, a tie to the even one. -/
def roundHalfEven (t : ℚ) : ℤ :=
  let f := ⌊t⌋
  if t - f < 1 / 2 then f
  else if 1 / 2 < t - f then f + 1
  else if f % 2 = 0 then f
  else f + 1

/-- The double that an exact result is rounded to (binary64, round to nearest,
ties to even). With `2 ^ e ≤ |q| < 2 ^ (e + 1)` the doubles near `q` are the
multiples of `2 ^ (e - 52)`; below `2 ^ (-1022)` they are the multiples of
`2 ^ (-1074)`; and a result that rounds to `2 ^ 1024` or beyond is an
infinity. -/
def Num.round (q : ℚ) : Num :=
  if q = 0 then .fin 0
  else
    let e : ℤ := max (Int.log 2 |q|) (-1022)
    let ulp : ℚ := 2 ^ (e - 52)
    let r : ℚ := roundHalfEven (q / ulp) * ulp
    if 2 ^ 1024 ≤ |r| then .inf (decide (q < 0)) else .fin r

/-- The unary minus `-a`. -/
def Num.neg : Num → Num
  | .nan => .nan
  | .inf negative => .inf (!negative)
  | .fin a => .fin (-a)

/-- The sum `a + b`. -/
def Num.add : Num → Num → Num
  | .nan, _ => .nan
  | _, .nan => .nan
  | .inf s, .inf t => if s = t then .inf s else .nan
  | .inf s, .fin _ => .inf s
  | .fin _, .inf t => .inf t
  | .fin a, .fin b => Num.round (a + b)

/-- The difference `a - b`. -/
def Num.sub (a b : Num) : Num :=
  a.add b.neg

/-- The product `a * b`. -/
def Num.mul : Num → Num → Num
  | .nan, _ => .nan
  | _, .nan => .nan
  | .inf s, .inf t => .inf (s != t)
  | .inf s, .fin b => if b = 0 then .nan else .inf (s != decide (b < 0))
  | .fin a, .inf t => if a = 0 then .nan else .inf (decide (a < 0) != t)
  | .fin a, .fin b => Num.round (a * b)

/-- The quotient `a / d` by a finite double `d` other than zero; the divisors
of `restrictNodeHeightGrowth` are 2 and -2. -/
def Num.div (a : Num) (d : ℚ) : Num :=
  match a with
  | .nan => .nan
  | .inf s => .inf (s != decide (d < 0))
  | .fin q => Num.round (q / d)

/-- The comparison `a === b` of two numbers: not-a-number equals nothing, not
even itself. -/
def Num.strictEq : Num → Num → Bool
  | .fin a, .fin b => decide (a = b)
  | .inf s, .inf t => s == t
  | _, _ => false

/-- The prop `nodeSize`, two numbers. -/
structure NodeSize where
  x : Num
  y : Num

/-! ## Height restriction -/

/-- The properties that the layout and `restrictNodeHeightGrowth` keep on a
node object besides those of `Fields`: the coordinates `x` and `y` that d3
assigns, and `childrenCount`, absent until `restrictNodeHeightGrowth` writes
it. The source keeps them on the node objects themselves; here they are kept
in a table `Path → Placement`, by the reference of the object. -/
structure Placement where
  x : Num
  y : Num
  childrenCount : Option Nat
deriving DecidableEq

/-- `children.findIndex(elem => elem.id === id)`, counting from `i`: the index
of the first element that has the id, -1 when there is none. -/
def findIndex (id : String) : List Node → Nat → ℤ
  | [], _ => -1
  | elem :: rest, i => if elem.fields.id = id then i else findIndex id rest (i + 1)

/-- The value that the `if` chain of `restrictNodeHeightGrowth` leaves in
`node.x`, for a node of depth `depth` whose `x` is `x` before, from the
parent's `childrenCount` and `x`. Every operation is the one on doubles, in
the order of the source; `childIndex` is an integer, hence a double as it
is. -/
def restrictedX (nodeSize : NodeSize) (depth : Option Nat) (x : Num) (parent : Placement)
    (childIndex : ℤ) : Num :=
  if parent.childrenCount = some 1 ∧ depth = some 1 then nodeSize.y.div (-2)
  else if parent.childrenCount = some 1 then parent.x
  else if parent.childrenCount = some 2 then
    let x := ((Num.fin childIndex).mul nodeSize.y).sub (nodeSize.y.div 2)
    if parent.x.strictEq (nodeSize.y.mul (.fin (-1.5))) then x.sub nodeSize.y
    else if parent.x.strictEq (nodeSize.y.mul (.fin 1.5)) then x.add nodeSize.y
    else x
  else if parent.childrenCount = some 3 then
    let x := ((Num.fin childIndex).mul nodeSize.y).sub (nodeSize.y.mul (.fin 1.5))
    if parent.x.strictEq (nodeSize.y.div 2) then x.add nodeSize.y
    else if parent.x.strictEq (nodeSize.y.mul (.fin 1.5)) then x.add nodeSize.y
    else x
  else if parent.childrenCount = some 4 then
    ((Num.fin childIndex).mul nodeSize.y).sub ((Num.fin 1.5).mul nodeSize.y)
  else x

/-- One turn of the `forEach` of `restrictNodeHeightGrowth`, on the node behind
`ref`. References are relative to `rootNode`, and `placed` holds the placement
of every object by its reference. `node.parent`, which d3 sets on every node
it visits below the root, is the node one step up; the root has none, and
reading `node.parent.children` there is a type error, as is calling
`findIndex` on a parent that has no `children` array. A reference that leads
to no node stands for no element of `nodes`, and its turn does nothing. -/
def restrictNodeHeightGrowth.visit (nodeSize : NodeSize) (rootNode : Node)
    (placed : Path → Placement) (ref : Path) : Except Failure (Path → Placement) :=
  match rootNode.sub? ref with
  | none => .ok placed
  | some node =>
    -- node.childrenCount = node.children ? node.children.length : 0
    let placed := Function.update placed ref
      { placed ref with childrenCount := some node.children.length }
    if node.fields.depth = some 0 then .ok placed
    else
      match ref.getLast?, rootNode.sub? ref.dropLast with
      | some _, some parent =>
        match parent.fields.children with
        | .own => .error .typeError
        | .shared =>
          let childIndex := findIndex node.fields.id parent.children 0
          .ok (Function.update placed ref
            { placed ref with
              x := restrictedX nodeSize node.fields.depth (placed ref).x
                (placed ref.dropLast) childIndex })
      | _, _ => .error .typeError

/-- The method `restrictNodeHeightGrowth`: `nodes` holds references relative to
`rootNode`, and the result is the placements after the `forEach`. -/
def restrictNodeHeightGrowth (nodes : List Path) (nodeSize : NodeSize) (rootNode : Node)
    (placed : Path → Placement) : Except Failure (Path → Placement) :=
  match nodes with
  | [] => .ok placed
  | node :: rest =>
    match restrictNodeHeightGrowth.visit nodeSize rootNode placed node with
    | .error e => .error e
    | .ok placed => restrictNodeHeightGrowth rest nodeSize rootNode placed


/-! ## Example data -/

/-- A generator for the examples: the `k`-th id is `k + 1` letters long. -/
def exampleUuid (k : Nat) : String :=
  String.mk (List.replicate (k + 1) 'u')

/-- The raw fields of a node that has only a name. -/
def rawNamed (name : String) : RawFields :=
  { name := name, attributes := none, styles := none, ext := [] }

/-- The raw tree A(B(D), C). -/
def exampleRaw : RawNode :=
  .mk (rawNamed "A") [.mk (rawNamed "B") [.mk (rawNamed "D") []], .mk (rawNamed "C") []]

/-- The live tree A(B(D), C) as `assignInternalProperties` delivers it: the
ids are `"u"`, `"uu"`, `"uuu"` and `"uuuu"` in pre-order. -/
def exampleData : List Node :=
  (assignInternalProperties exampleUuid [exampleRaw] 0).1

/-- The root A of `exampleData`, handed to the layout as `rootNode`. -/
def exampleRoot : Node :=
  (assignNode exampleUuid exampleRaw 0).1

/-- The tree `exampleData` after a layout pass with the default props: A has
depth 0, B and C depth 1, D depth 2. -/
def exampleLaidOut : List Node :=
  [hierarchy defaultProps 0 exampleRoot]

/-- The props of the examples with an initial-depth cap of 1. -/
def examplePropsCapped : Props :=
  { defaultProps with initialDepth := some 1 }

/-- The internal state at the first render. -/
def exampleFirstRender : InternalState :=
  { initialRender := true, isRerendered := false, d3 := calculateD3Geometry defaultProps }

/-- A selector for the examples: the first child of a node that has children. -/
def exampleSelector (node : Node) : Option Path :=
  if node._children.length > 0 then some [0] else none

/-- The props of the examples with the external collapse binding `"collapsed"`. -/
def examplePropsBound : Props :=
  { defaultProps with externalCollapse := some "collapsed" }

/-- The internal state after the first render. -/
def exampleLater : InternalState :=
  { initialRender := false, isRerendered := false, d3 := calculateD3Geometry defaultProps }

/-- The raw tree A(B), two nodes. -/
def exampleRawSmall : RawNode :=
  .mk (rawNamed "A") [.mk (rawNamed "B") []]

/-- The raw tree Box(length, width), with the host field `collapsed` of the
root as given. -/
def exampleRawBox (collapsed : Bool) : RawNode :=
  .mk { name := "Box", attributes := none, styles := none, ext := [("collapsed", collapsed)] }
    [.mk (rawNamed "length") [], .mk (rawNamed "width") []]

/-- The live tree of `exampleRawBox false`: the ids are `"u"`, `"uu"`, `"uuu"`. -/
def exampleBoxData : List Node :=
  (assignInternalProperties exampleUuid [exampleRawBox false] 0).1

/-- The raw tree R(`__proto__`, b): the first child bears the name of the
accessor of `Object.prototype`. -/
def exampleRawProto : RawNode :=
  .mk (rawNamed "R") [.mk (rawNamed "__proto__") [], .mk (rawNamed "b") []]

/-- The raw tree R(P(a, b, c), Q(d, e, f)). -/
def exampleRawWide : RawNode :=
  .mk (rawNamed "R")
    [.mk (rawNamed "P") [.mk (rawNamed "a") [], .mk (rawNamed "b") [], .mk (rawNamed "c") []],
     .mk (rawNamed "Q") [.mk (rawNamed "d") [], .mk (rawNamed "e") [], .mk (rawNamed "f") []]]

/-- The live tree of `exampleRawWide` after a layout pass with the default
props. -/
def exampleWide : Node :=
  hierarchy defaultProps 0 (assignNode exampleUuid exampleRawWide 0).1

/-- The raw tree R(a, b, c, d). -/
def exampleRawFour : RawNode :=
  .mk (rawNamed "R")
    [.mk (rawNamed "a") [], .mk (rawNamed "b") [], .mk (rawNamed "c") [], .mk (rawNamed "d") []]

/-- The live tree of `exampleRawFour` after a layout pass with the default
props. -/
def exampleFour : Node :=
  hierarchy defaultProps 0 (assignNode exampleUuid exampleRawFour 0).1

/-- Placements before the height restriction: every node at the origin. -/
def exampleOrigin : Path → Placement :=
  fun _ => { x := .fin 0, y := .fin 0, childrenCount := none }

/-- The default `nodeSize`, `{x: 140, y: 140}`. -/
def exampleNodeSize : NodeSize :=
  { x := .fin 140, y := .fin 140 }

/-- The double that the literal `100.1` denotes: `3521955646092083 / 2 ^ 45`. -/
def exampleInexact : ℚ :=
  3521955646092083 / 35184372088832


/-! ## Geometry: the zoom is clamped into the scale extent -/

/-- C1: for rational zoom, min and max with min ≤ max, `calculateD3Geometry`
returns the scale min when zoom < min, max when zoom > max and zoom otherwise,
so that min ≤ scale ≤ max, and it returns the input translate unchanged. -/
theorem calculateD3Geometry_clamps (nextProps : Props)
    (h : nextProps.scaleExtent.min ≤ nextProps.scaleExtent.max) :
    (nextProps.zoom < nextProps.scaleExtent.min →
        (calculateD3Geometry nextProps).scale = nextProps.scaleExtent.min) ∧
    (nextProps.zoom > nextProps.scaleExtent.max →
        (calculateD3Geometry nextProps).scale = nextProps.scaleExtent.max) ∧
    (nextProps.scaleExtent.min ≤ nextProps.zoom → nextProps.zoom ≤ nextProps.scaleExtent.max →
        (calculateD3Geometry nextProps).scale = nextProps.zoom) ∧
    nextProps.scaleExtent.min ≤ (calculateD3Geometry nextProps).scale ∧
    (calculateD3Geometry nextProps).scale ≤ nextProps.scaleExtent.max ∧
    (calculateD3Geometry nextProps).translate = nextProps.translate := by
  simp only [calculateD3Geometry]
  refine ⟨?_, ?_, ?_, ?_, ?_, trivial⟩
  · intro hlt
    rw [if_neg (not_lt.mpr (le_trans (le_of_lt hlt) h)), if_pos hlt]
  · intro hgt
    rw [if_pos hgt]
  · intro h1 h2
    rw [if_neg (not_lt.mpr h2), if_neg (not_lt.mpr h1)]
  · split_ifs with h1 h2
    · exact h
    · exact le_refl _
    · exact not_lt.mp h2
  · split_ifs with h1 h2
    · exact le_refl _
    · exact h
    · exact not_lt.mp h1

/-- The scenario of the specification: with the scale extent 0.5 to 2, the zoom
5 is clamped to 2 and the zoom 0.1 to 0.5. -/
theorem calculateD3Geometry_clamps_witness :
    ((1 / 2 : ℚ) ≤ 2) ∧
    (calculateD3Geometry { defaultProps with zoom := 5, scaleExtent := ⟨1 / 2, 2⟩ }).scale = 2 ∧
    (calculateD3Geometry { defaultProps with zoom := 1 / 10, scaleExtent := ⟨1 / 2, 2⟩ }).scale
      = 1 / 2 :=
  ⟨by norm_num,
   (calculateD3Geometry_clamps { defaultProps with zoom := 5, scaleExtent := ⟨1 / 2, 2⟩ }
      (by norm_num)).2.1 (by norm_num),
   (calculateD3Geometry_clamps { defaultProps with zoom := 1 / 10, scaleExtent := ⟨1 / 2, 2⟩ }
      (by norm_num)).1 (by norm_num)⟩

/-! ## Identity assignment: shape, flags and ids -/

theorem assignNode_mk (uuid : Nat → String) (f : RawFields) (children : List RawNode) (k : Nat) :
    assignNode uuid (.mk f children) k =
      if children.length > 0 then
        (.mk { name := f.name, attributes := f.attributes, styles := f.styles, ext := f.ext,
               id := uuid k, _collapsed := false, _active := none, depth := none,
               children := .shared } (assignInternalProperties uuid children (k + 1)).1,
         (assignInternalProperties uuid children (k + 1)).2)
      else
        (.mk { name := f.name, attributes := f.attributes, styles := f.styles, ext := f.ext,
               id := uuid k, _collapsed := false, _active := none, depth := none,
               children := .own } [], k + 1) := by
  rw [assignNode]

theorem assignInternalProperties_cons (uuid : Nat → String) (n : RawNode) (ns : List RawNode)
    (k : Nat) :
    assignInternalProperties uuid (n :: ns) k =
      ((assignNode uuid n k).1 :: (assignInternalProperties uuid ns (assignNode uuid n k).2).1,
       (assignInternalProperties uuid ns (assignNode uuid n k).2).2) := by
  rw [assignInternalProperties]

mutual
theorem assignNode_toRaw (uuid : Nat → String) :
    ∀ (r : RawNode) (k : Nat), (assignNode uuid r k).1.toRaw = r
  | .mk f children, k => by
    rw [assignNode_mk]
    split
    · rename_i h
      simp only [Node.toRaw]
      rw [assignInternalProperties_toRaw uuid children (k + 1)]
    · rename_i h
      have : children = [] := by
        cases children with
        | nil => rfl
        | cons a as => simp at h
      subst this
      simp [Node.toRaw, toRawEach]
theorem assignInternalProperties_toRaw (uuid : Nat → String) :
    ∀ (rs : List RawNode) (k : Nat), toRawEach (assignInternalProperties uuid rs k).1 = rs
  | [], k => by simp [assignInternalProperties, toRawEach]
  | r :: rs, k => by
    rw [assignInternalProperties_cons]
    simp only [toRawEach]
    rw [assignNode_toRaw uuid r k, assignInternalProperties_toRaw uuid rs _]
end

mutual
theorem assignNode_ids (uuid : Nat → String) :
    ∀ (r : RawNode) (k : Nat),
      (assignNode uuid r k).1.ids = (List.range' k r.size).map uuid ∧
      (assignNode uuid r k).1.size = r.size ∧
      (assignNode uuid r k).2 = k + r.size
  | .mk f children, k => by
    rw [assignNode_mk]
    split
    · obtain ⟨h1, h2, h3⟩ := assignInternalProperties_ids uuid children (k + 1)
      simp only [Node.ids, Node.size, RawNode.size, h1, h2, h3]
      refine ⟨?_, trivial, by omega⟩
      rw [Nat.add_comm 1, List.range'_succ, List.map_cons]
    · rename_i h
      have : children = [] := by
        cases children with
        | nil => rfl
        | cons a as => simp at h
      subst this
      simp [Node.ids, Node.size, RawNode.size, idsEach, sizeEach, rawSizeEach]
theorem assignInternalProperties_ids (uuid : Nat → String) :
    ∀ (rs : List RawNode) (k : Nat),
      idsEach (assignInternalProperties uuid rs k).1 = (List.range' k (rawSizeEach rs)).map uuid ∧
      sizeEach (assignInternalProperties uuid rs k).1 = rawSizeEach rs ∧
      (assignInternalProperties uuid rs k).2 = k + rawSizeEach rs
  | [], k => by simp [assignInternalProperties, idsEach, sizeEach, rawSizeEach]
  | r :: rs, k => by
    rw [assignInternalProperties_cons]
    obtain ⟨h1, h2, h3⟩ := assignNode_ids uuid r k
    obtain ⟨g1, g2, g3⟩ := assignInternalProperties_ids uuid rs (assignNode uuid r k).2
    rw [h3] at g1 g2 g3
    simp only [idsEach, sizeEach, rawSizeEach, h1, h2, g1, g2, g3, h3]
    refine ⟨?_, trivial, by omega⟩
    rw [← List.map_append, List.range'_append_1, Nat.add_comm]
end

/-- Every element of an assigned array is an assigned node. -/
theorem assignInternalProperties_elem (uuid : Nat → String) :
    ∀ (rs : List RawNode) (k : Nat) (c : Node), c ∈ (assignInternalProperties uuid rs k).1 →
      ∃ r k', c = (assignNode uuid r k').1
  | [], k, c, h => by simp [assignInternalProperties] at h
  | r :: rs, k, c, h => by
    rw [assignInternalProperties_cons] at h
    rcases List.mem_cons.mp h with h | h
    · exact ⟨r, k, h⟩
    · exact assignInternalProperties_elem uuid rs _ c h

/-- Every node below an assigned node is an assigned node. -/
theorem assignNode_sub (uuid : Nat → String) :
    ∀ (p : Path) (r : RawNode) (k : Nat) (m : Node), (assignNode uuid r k).1.sub? p = some m →
      ∃ r' k', m = (assignNode uuid r' k').1
  | [], r, k, m, h => by
    simp only [Node.sub?, Option.some.injEq] at h
    exact ⟨r, k, h.symm⟩
  | i :: rest, .mk f children, k, m, h => by
    rw [assignNode_mk] at h
    split at h
    · simp only [Node.sub?] at h
      split at h
      · rename_i c hc
        obtain ⟨r', k', hr⟩ :=
          assignInternalProperties_elem uuid children (k + 1) c (List.getElem?_mem hc)
        rw [hr] at h
        exact assignNode_sub uuid rest r' k' m h
      · exact absurd h (by simp)
    · simp [Node.sub?] at h

/-- The fields an assigned node starts with. -/
theorem assignNode_fields (uuid : Nat → String) (r : RawNode) (k : Nat) :
    (assignNode uuid r k).1.fields._collapsed = false ∧
    (assignNode uuid r k).1.fields.id = uuid k ∧
    (assignNode uuid r k).1.fields.name = r.fields.name ∧
    ((assignNode uuid r k).1._children.length > 0 →
      (assignNode uuid r k).1.fields.children = ChildrenField.shared ∧
      (assignNode uuid r k).1._children = (assignNode uuid r k).1.children) := by
  cases r with
  | mk f children =>
    rw [assignNode_mk]
    split <;> simp [Node.fields, Node.children, Node._children, RawNode.fields]

/-- The example generator never returns a value twice. -/
theorem exampleUuid_injective : Function.Injective exampleUuid := by
  intro a b h
  have := congrArg String.length h
  simpa [exampleUuid] using this

/-- C2: `assignInternalProperties` returns trees of the same shape as the raw
ones (forgetting the internal properties of the tree held in `_children` gives
the raw trees back, so names and child order are kept, and the number of nodes
is the same); every node has `_collapsed = false`; every node with at least
one child has `_children` equal to its `children` list (they are one array);
and with an id generator that never returns a value twice the ids of all nodes
are pairwise distinct. -/
theorem assignInternalProperties_spec (uuid : Nat → String) (huuid : Function.Injective uuid)
    (data : List RawNode) (k : Nat) :
    toRawEach (assignInternalProperties uuid data k).1 = data ∧
    sizeEach (assignInternalProperties uuid data k).1 = rawSizeEach data ∧
    (∀ (p : Path) (n : Node), get? (assignInternalProperties uuid data k).1 p = some n →
      n.fields._collapsed = false ∧
      (n._children.length > 0 →
        n.fields.children = ChildrenField.shared ∧ n._children = n.children)) ∧
    (idsEach (assignInternalProperties uuid data k).1).Nodup := by
  refine ⟨assignInternalProperties_toRaw uuid data k,
    (assignInternalProperties_ids uuid data k).2.1, ?_, ?_⟩
  · intro p n h
    cases p with
    | nil => simp [get?] at h
    | cons i rest =>
      simp only [get?] at h
      split at h
      · rename_i c hc
        obtain ⟨r, k1, hr⟩ :=
          assignInternalProperties_elem uuid data k c (List.getElem?_mem hc)
        rw [hr] at h
        obtain ⟨r', k', hn⟩ := assignNode_sub uuid rest r k1 n h
        rw [hn]
        exact ⟨(assignNode_fields uuid r' k').1, (assignNode_fields uuid r' k').2.2.2⟩
      · exact absurd h (by simp)
  · rw [(assignInternalProperties_ids uuid data k).1]
    exact (List.nodup_range' k (rawSizeEach data)).map huuid

/-- The raw tree A(B(D), C) gets four pairwise distinct ids. -/
theorem assignInternalProperties_spec_witness :
    Function.Injective exampleUuid ∧
    (idsEach (assignInternalProperties exampleUuid [exampleRaw] 0).1).Nodup ∧
    sizeEach (assignInternalProperties exampleUuid [exampleRaw] 0).1 = 4 :=
  ⟨exampleUuid_injective,
   (assignInternalProperties_spec exampleUuid exampleUuid_injective [exampleRaw] 0).2.2.2,
   (assignInternalProperties_spec exampleUuid exampleUuid_injective [exampleRaw] 0).2.1⟩

/-! ## References: reading and mutating along a path -/

theorem Node.sub?_cons (fl : Fields) (cs : List Node) (i : Nat) (rest : Path) :
    (Node.mk fl cs).sub? (i :: rest) = get? cs (i :: rest) := by
  simp only [Node.sub?, get?]

theorem get?_cons (data : List Node) (i : Nat) (rest : Path) :
    get? data (i :: rest) = (data[i]?).bind (fun n => n.sub? rest) := by
  simp only [get?]
  cases data[i]? <;> rfl

theorem Node.sub?_append : ∀ (p q : Path) (n : Node),
    n.sub? (p ++ q) = (n.sub? p).bind (fun m => m.sub? q)
  | [], q, n => by simp [Node.sub?]
  | i :: rest, q, .mk fl cs => by
    simp only [List.cons_append, Node.sub?]
    cases cs[i]? with
    | none => rfl
    | some c => exact Node.sub?_append rest q c

theorem get?_append (data : List Node) (p q : Path) (hp : p ≠ []) :
    get? data (p ++ q) = (get? data p).bind (fun m => m.sub? q) := by
  cases p with
  | nil => exact absurd rfl hp
  | cons i rest =>
    simp only [List.cons_append, get?_cons]
    cases data[i]? with
    | none => rfl
    | some c => exact Node.sub?_append rest q c

/-- Reading at or below the mutated position sees the mutated object. -/
theorem Node.sub?_modifyAt_append (f : Node → Node) : ∀ (p q : Path) (n : Node),
    (n.modifyAt f p).sub? (p ++ q) = (n.sub? p).bind (fun m => (f m).sub? q)
  | [], q, n => by simp [Node.sub?, Node.modifyAt]
  | i :: rest, q, .mk fl cs => by
    simp only [List.cons_append, Node.sub?, Node.modifyAt, List.getElem?_modify_eq]
    cases cs[i]? with
    | none => rfl
    | some c => exact Node.sub?_modifyAt_append f rest q c

theorem get?_modifyAt_append (f : Node → Node) (data : List Node) (p q : Path) (hp : p ≠ []) :
    get? (modifyAt f p data) (p ++ q) = (get? data p).bind (fun m => (f m).sub? q) := by
  cases p with
  | nil => exact absurd rfl hp
  | cons i rest =>
    simp only [List.cons_append, get?_cons, modifyAt, List.getElem?_modify_eq]
    cases data[i]? with
    | none => rfl
    | some c => exact Node.sub?_modifyAt_append f rest q c

/-- A mutation below `p` leaves the fields of every object that is not at or
below `p` as they were. -/
theorem Node.sub?_modifyAt_fields (f : Node → Node) : ∀ (p q : Path) (n : Node),
    ¬ p <+: q → ((n.modifyAt f p).sub? q).map Node.fields = (n.sub? q).map Node.fields
  | [], q, n, h => absurd (List.nil_prefix) h
  | i :: rest, [], .mk fl cs, _ => by simp [Node.sub?, Node.modifyAt, Node.fields]
  | i :: rest, j :: qr, .mk fl cs, h => by
    simp only [Node.sub?, Node.modifyAt]
    by_cases hij : i = j
    · subst hij
      rw [List.getElem?_modify_eq]
      cases cs[i]? with
      | none => rfl
      | some c =>
        have h2 : ¬ rest <+: qr := fun hp => h ((List.prefix_cons_inj i).mpr hp)
        exact Node.sub?_modifyAt_fields f rest qr c h2
    · rw [List.getElem?_modify_ne _ _ hij]

theorem get?_modifyAt_fields (f : Node → Node) (data : List Node) (p q : Path)
    (h : ¬ p <+: q) :
    (get? (modifyAt f p data) q).map Node.fields = (get? data q).map Node.fields := by
  cases p with
  | nil => exact absurd List.nil_prefix h
  | cons i rest =>
    cases q with
    | nil => rfl
    | cons j qr =>
      simp only [get?_cons, modifyAt]
      by_cases hij : i = j
      · subst hij
        rw [List.getElem?_modify_eq]
        cases data[i]? with
        | none => rfl
        | some c =>
          have h2 : ¬ rest <+: qr := fun hp => h ((List.prefix_cons_inj i).mpr hp)
          exact Node.sub?_modifyAt_fields f rest qr c h2
      · rw [List.getElem?_modify_ne _ _ hij]

/-- A mutation that keeps the number of children at every position below the
mutated object keeps it at every position of the tree. -/
theorem Node.sub?_modifyAt_shape (f : Node → Node)
    (hf : ∀ (m : Node) (q : Path),
      ((f m).sub? q).map (fun x => x._children.length) =
        (m.sub? q).map (fun x => x._children.length)) :
    ∀ (p q : Path) (n : Node),
      ((n.modifyAt f p).sub? q).map (fun x => x._children.length) =
        (n.sub? q).map (fun x => x._children.length)
  | [], q, n => by simpa [Node.modifyAt] using hf n q
  | i :: rest, [], .mk fl cs => by simp [Node.sub?, Node.modifyAt, Node._children]
  | i :: rest, j :: qr, .mk fl cs => by
    simp only [Node.sub?, Node.modifyAt]
    by_cases hij : i = j
    · subst hij
      rw [List.getElem?_modify_eq]
      cases cs[i]? with
      | none => rfl
      | some c => exact Node.sub?_modifyAt_shape f hf rest qr c
    · rw [List.getElem?_modify_ne _ _ hij]

theorem get?_modifyAt_shape (f : Node → Node)
    (hf : ∀ (m : Node) (q : Path),
      ((f m).sub? q).map (fun x => x._children.length) =
        (m.sub? q).map (fun x => x._children.length))
    (data : List Node) (p q : Path) :
    (get? (modifyAt f p data) q).map (fun x => x._children.length) =
      (get? data q).map (fun x => x._children.length) := by
  cases p with
  | nil => rfl
  | cons i rest =>
    cases q with
    | nil => rfl
    | cons j qr =>
      simp only [get?_cons, modifyAt]
      by_cases hij : i = j
      · subst hij
        rw [List.getElem?_modify_eq]
        cases data[i]? with
        | none => rfl
        | some c => exact Node.sub?_modifyAt_shape f hf rest qr c
      · rw [List.getElem?_modify_ne _ _ hij]

/-- A mutation that writes only scalar fields of the object it is given leaves
every object strictly below it as it was. -/
theorem get?_modifyAt_below (f : Node → Node) (hf : ∀ m : Node, (f m)._children = m._children)
    (data : List Node) (p : Path) (j : Nat) (r : Path) (hp : p ≠ []) :
    get? (modifyAt f p data) (p ++ j :: r) = get? data (p ++ j :: r) := by
  rw [get?_modifyAt_append f data p (j :: r) hp, get?_append data p (j :: r) hp]
  cases get? data p with
  | none => rfl
  | some m =>
    have h := hf m
    cases m with
    | mk fl cs =>
      cases hfm : f (Node.mk fl cs) with
      | mk fl2 cs2 =>
        rw [hfm] at h
        simp only [Node._children] at h
        subst h
        simp [Node.sub?, hfm]

/-! ## Collapse and expand -/

theorem collapseNode.forEach_eq_map : ∀ cs : List Node,
    collapseNode.forEach cs = cs.map collapseNode
  | [] => by simp [collapseNode.forEach]
  | c :: cs => by simp [collapseNode.forEach, collapseNode.forEach_eq_map cs]

theorem collapseNode_mk (f : Fields) (cs : List Node) :
    collapseNode (.mk f cs) =
      .mk { f with _collapsed := true, _active := some false } (cs.map collapseNode) := by
  rw [collapseNode, collapseNode.forEach_eq_map]

theorem collapseNode_fields (n : Node) :
    (collapseNode n).fields = { n.fields with _collapsed := true, _active := some false } := by
  cases n with
  | mk f cs => rw [collapseNode_mk]; rfl

theorem collapseNode_children (n : Node) :
    (collapseNode n)._children = n._children.map collapseNode := by
  cases n with
  | mk f cs => rw [collapseNode_mk]; rfl

/-- Below a collapsed node sit the collapsed versions of what sat there. -/
theorem sub?_collapseNode : ∀ (q : Path) (n : Node),
    (collapseNode n).sub? q = (n.sub? q).map collapseNode
  | [], n => by simp [Node.sub?]
  | i :: rest, .mk f cs => by
    rw [collapseNode_mk]
    simp only [Node.sub?, List.getElem?_map]
    cases cs[i]? with
    | none => rfl
    | some c => exact sub?_collapseNode rest c

theorem collapseNode_shape (m : Node) (q : Path) :
    ((collapseNode m).sub? q).map (fun x => x._children.length) =
      (m.sub? q).map (fun x => x._children.length) := by
  rw [sub?_collapseNode]
  cases m.sub? q with
  | none => rfl
  | some x => simp [collapseNode_children]

theorem expandNode_shape (m : Node) (q : Path) :
    ((expandNode m).sub? q).map (fun x => x._children.length) =
      (m.sub? q).map (fun x => x._children.length) := by
  cases m with
  | mk fl cs =>
    cases q with
    | nil => rfl
    | cons j r => rfl

theorem get?_ne_nil {data : List Node} {p : Path} {n : Node} (h : get? data p = some n) :
    p ≠ [] := by
  intro hp
  subst hp
  simp [get?] at h

/-- A path that extends `p` and differs from it is `p` followed by at least
one more index. -/
theorem exists_of_prefix_ne {p q : Path} (h : p <+: q) (hne : q ≠ p) :
    ∃ (j : Nat) (r : Path), q = p ++ j :: r := by
  obtain ⟨t, ht⟩ := h
  cases t with
  | nil => exact absurd (by simpa using ht.symm) hne
  | cons j r => exact ⟨j, r, ht.symm⟩

/-- The fields at and below a collapsed node: the old ones with the two flags
written. -/
theorem get?_modifyAt_collapseNode (data : List Node) (p : Path) (n : Node)
    (h : get? data p = some n) (q : Path) :
    (get? (modifyAt collapseNode p data) (p ++ q)).map Node.fields =
      (get? data (p ++ q)).map
        (fun m => { m.fields with _collapsed := true, _active := some false }) := by
  have hp : p ≠ [] := get?_ne_nil h
  rw [get?_modifyAt_append collapseNode data p q hp, get?_append data p q hp, h]
  simp only [Option.some_bind, sub?_collapseNode]
  cases n.sub? q with
  | none => rfl
  | some m => simp [collapseNode_fields]

/-- C3: after `collapseNode` on the node `n` at reference `p`, every node at
or below `p` (through `_children`, visible or not) has `_collapsed = true` and
`_active = false` and all its other fields (id, name, attributes, ...) as
before; the fields of every node that is not at or below `p` are untouched;
and every node has as many `_children` as before, so the `_children` lists
hold the same objects. -/
theorem collapseNode_spec (data : List Node) (p : Path) (n : Node)
    (h : get? data p = some n) :
    (∀ q : Path, (get? (modifyAt collapseNode p data) (p ++ q)).map Node.fields =
      (get? data (p ++ q)).map
        (fun m => { m.fields with _collapsed := true, _active := some false })) ∧
    (∀ q : Path, ¬ p <+: q →
      (get? (modifyAt collapseNode p data) q).map Node.fields = (get? data q).map Node.fields) ∧
    (∀ q : Path, (get? (modifyAt collapseNode p data) q).map (fun x => x._children.length) =
      (get? data q).map (fun x => x._children.length)) := by
  refine ⟨?_, ?_, ?_⟩
  · intro q
    exact get?_modifyAt_collapseNode data p n h q
  · intro q hq
    exact get?_modifyAt_fields collapseNode data p q hq
  · intro q
    exact get?_modifyAt_shape collapseNode collapseNode_shape data p q

/-- In A(B(D), C), collapsing B marks B and D collapsed and inactive and leaves
A and C as they were. -/
theorem collapseNode_spec_witness :
    ((get? (modifyAt collapseNode [0, 0] exampleData) [0, 0, 0]).map
        (fun m => (m.fields._collapsed, m.fields._active)) = some (true, some false)) ∧
    ((get? (modifyAt collapseNode [0, 0] exampleData) [0, 1]).map Node.fields =
        (get? exampleData [0, 1]).map Node.fields) := by
  have h := collapseNode_spec exampleData [0, 0] _ rfl
  refine ⟨?_, h.2.1 [0, 1] (by decide)⟩
  have h1 := congrArg (Option.map (fun f : Fields => (f._collapsed, f._active))) (h.1 [0])
  rw [Option.map_map, Option.map_map] at h1
  exact h1.trans (by decide)

theorem expandNode_children (m : Node) : (expandNode m)._children = m._children := by
  cases m with
  | mk fl cs => rfl

/-- C5: `collapseNode` on the node `n` at reference `p` followed by
`expandNode` on it is not the identity. Afterwards `n` has `_collapsed = false`
(and stays inactive), while every node strictly below `n` has
`_collapsed = true` and `_active = false` whatever its flags were; `expandNode`
itself writes the `_collapsed` flag of the node it is given and the fields of
no other node, and it keeps the number of `_children` of every node. There is
a tree that the two calls do not give back. -/
theorem collapse_then_expand (data : List Node) (p : Path) (n : Node)
    (h : get? data p = some n) :
    ((get? (modifyAt expandNode p (modifyAt collapseNode p data)) p).map Node.fields =
      some { n.fields with _collapsed := false, _active := some false }) ∧
    (∀ (j : Nat) (r : Path),
      (get? (modifyAt expandNode p (modifyAt collapseNode p data)) (p ++ j :: r)).map Node.fields =
        (get? data (p ++ j :: r)).map
          (fun m => { m.fields with _collapsed := true, _active := some false })) ∧
    ((get? (modifyAt expandNode p data) p).map Node.fields =
      some { n.fields with _collapsed := false }) ∧
    (∀ q : Path, q ≠ p →
      (get? (modifyAt expandNode p data) q).map Node.fields = (get? data q).map Node.fields) ∧
    (∀ q : Path, (get? (modifyAt expandNode p data) q).map (fun x => x._children.length) =
      (get? data q).map (fun x => x._children.length)) ∧
    (∃ (d : List Node) (r : Path), (get? d r).isSome = true ∧
      modifyAt expandNode r (modifyAt collapseNode r d) ≠ d) := by
  have hp : p ≠ [] := get?_ne_nil h
  have hc : get? (modifyAt collapseNode p data) p = some (collapseNode n) := by
    have := get?_modifyAt_append collapseNode data p [] hp
    simpa [h, Node.sub?] using this
  have hexp : ∀ (d : List Node) (m : Node), get? d p = some m →
      get? (modifyAt expandNode p d) p = some (expandNode m) := by
    intro d m hm
    have := get?_modifyAt_append expandNode d p [] hp
    simpa [hm, Node.sub?] using this
  refine ⟨?_, ?_, ?_, ?_, ?_, ?_⟩
  · rw [hexp _ _ hc]
    cases n with
    | mk fl cs => simp [collapseNode_mk, expandNode, Node.fields]
  · intro j r
    rw [get?_modifyAt_below expandNode expandNode_children _ p j r hp]
    exact get?_modifyAt_collapseNode data p n h (j :: r)
  · rw [hexp _ _ h]
    rfl
  · intro q hq
    by_cases hpre : p <+: q
    · obtain ⟨j, r, hjr⟩ := exists_of_prefix_ne hpre hq
      rw [hjr, get?_modifyAt_below expandNode expandNode_children data p j r hp]
    · exact get?_modifyAt_fields expandNode data p q hpre
  · intro q
    exact get?_modifyAt_shape expandNode expandNode_shape data p q
  · exact ⟨exampleData, [0], by decide, by decide⟩

/-- In A(B(D), C), collapsing and then expanding A leaves A expanded and B
collapsed and inactive, although B was expanded before. -/
theorem collapse_then_expand_witness :
    ((get? exampleData [0]).isSome = true) ∧
    ((get? (modifyAt expandNode [0] (modifyAt collapseNode [0] exampleData)) [0]).map
        (fun m => m.fields._collapsed) = some false) ∧
    ((get? (modifyAt expandNode [0] (modifyAt collapseNode [0] exampleData)) [0, 0]).map
        (fun m => (m.fields._collapsed, m.fields._active)) = some (true, some false)) ∧
    ((get? exampleData [0, 0]).map (fun m => (m.fields._collapsed, m.fields._active))
        = some (false, none)) := by
  have h := collapse_then_expand exampleData [0] _ rfl
  refine ⟨by decide, ?_, ?_, by decide⟩
  · have h1 := congrArg (Option.map (fun f : Fields => f._collapsed)) h.1
    rw [Option.map_map] at h1
    exact h1
  · have h1 := congrArg (Option.map (fun f : Fields => (f._collapsed, f._active))) (h.2.1 0 [])
    rw [Option.map_map, Option.map_map] at h1
    exact h1.trans (by decide)

/-! ## The visible node list under collapse and expand -/

theorem getNodeCollapsedState_mk (props : Props) (fl : Fields) (cs cs2 : List Node) :
    getNodeCollapsedState props (.mk fl cs) = getNodeCollapsedState props (.mk fl cs2) := by
  simp only [getNodeCollapsedState, Node.fields]

theorem mem_treeNodes_nil (props : Props) (n : Node) : [] ∈ treeNodes props n := by
  cases n with
  | mk f cs => simp [treeNodes]

theorem mem_treeNodes_children (props : Props) : ∀ (cs : List Node) (i : Nat) (q : Path),
    q ∈ treeNodes.children props cs i ↔
      ∃ (j : Nat) (c : Node) (r : Path), cs[j]? = some c ∧ q = (i + j) :: r ∧
        r ∈ treeNodes props c
  | [], i, q => by simp [treeNodes.children]
  | c :: cs, i, q => by
    rw [treeNodes.children, List.mem_append, mem_treeNodes_children props cs (i + 1) q]
    constructor
    · rintro (h | ⟨j, c2, r, h1, h2, h3⟩)
      · obtain ⟨r, hr, rfl⟩ := List.mem_map.mp h
        exact ⟨0, c, r, by simp, rfl, hr⟩
      · exact ⟨j + 1, c2, r, by simpa using h1, by rw [h2]; congr 1; omega, h3⟩
    · rintro ⟨j, c2, r, h1, h2, h3⟩
      cases j with
      | zero =>
        left
        simp only [List.getElem?_cons_zero, Option.some.injEq] at h1
        subst h1
        exact List.mem_map.mpr ⟨r, h3, h2.symm⟩
      | succ j =>
        right
        exact ⟨j, c2, r, by simpa using h1, by rw [h2]; congr 1; omega, h3⟩

/-- A child position is in the node list exactly when the node is not
collapsed, the child exists and the rest of the path is in the child's list. -/
theorem mem_treeNodes_cons (props : Props) (f : Fields) (cs : List Node) (j : Nat) (r : Path) :
    (j :: r) ∈ treeNodes props (.mk f cs) ↔
      getNodeCollapsedState props (.mk f cs) = false ∧
        ∃ c : Node, cs[j]? = some c ∧ r ∈ treeNodes props c := by
  rw [treeNodes, List.mem_cons]
  constructor
  · rintro (h | h)
    · exact absurd h (by simp)
    · split at h
      · simp at h
      · rename_i hc
        rw [mem_treeNodes_children] at h
        obtain ⟨j2, c, r2, h1, h2, h3⟩ := h
        simp only [Nat.zero_add, List.cons.injEq] at h2
        obtain ⟨rfl, rfl⟩ := h2
        exact ⟨by simpa using hc, c, h1, h3⟩
  · rintro ⟨hc, c, h1, h3⟩
    right
    rw [if_neg (by simp [hc]), mem_treeNodes_children]
    exact ⟨j, c, r, h1, by simp, h3⟩

/-- A position below `p` is listed exactly when `p` is listed and the rest of
the path is listed from the node at `p`. -/
theorem mem_treeNodes_append (props : Props) : ∀ (p q : Path) (n : Node),
    (p ++ q) ∈ treeNodes props n ↔
      p ∈ treeNodes props n ∧ ∃ m : Node, n.sub? p = some m ∧ q ∈ treeNodes props m
  | [], q, n => by simp [mem_treeNodes_nil, Node.sub?]
  | i :: rest, q, .mk f cs => by
    rw [List.cons_append, mem_treeNodes_cons, mem_treeNodes_cons]
    simp only [Node.sub?]
    constructor
    · rintro ⟨hc, c, h1, h2⟩
      obtain ⟨h3, m, h4, h5⟩ := (mem_treeNodes_append props rest q c).mp h2
      exact ⟨⟨hc, c, h1, h3⟩, m, by rw [h1]; exact h4, h5⟩
    · rintro ⟨⟨hc, c, h1, h3⟩, m, h4, h5⟩
      rw [h1] at h4
      exact ⟨hc, c, h1, (mem_treeNodes_append props rest q c).mpr ⟨h3, m, h4, h5⟩⟩

/-- A mutation at `p` changes the listing of no position that is not strictly
below `p`. -/
theorem mem_treeNodes_modifyAt (props : Props) (f : Node → Node) : ∀ (p q : Path) (n : Node),
    ¬ (p <+: q ∧ q ≠ p) →
      (q ∈ treeNodes props (n.modifyAt f p) ↔ q ∈ treeNodes props n)
  | [], q, n, h => by
    have hq : q = [] := by
      by_contra hne
      exact h ⟨List.nil_prefix, hne⟩
    subst hq
    simp [mem_treeNodes_nil]
  | i :: rest, [], n, _ => by simp [mem_treeNodes_nil]
  | i :: rest, j :: qr, .mk fl cs, h => by
    simp only [Node.modifyAt]
    rw [mem_treeNodes_cons, mem_treeNodes_cons, getNodeCollapsedState_mk props fl _ cs]
    by_cases hij : i = j
    · subst hij
      rw [List.getElem?_modify_eq]
      have h2 : ¬ (rest <+: qr ∧ qr ≠ rest) := by
        rintro ⟨h3, h4⟩
        exact h ⟨(List.prefix_cons_inj i).mpr h3, by simpa using h4⟩
      cases hci : cs[i]? with
      | none => simp
      | some c =>
        simp only [Option.map_eq_map, Option.map_some', Option.some.injEq, exists_eq_left']
        rw [mem_treeNodes_modifyAt props f rest qr c h2]
    · rw [List.getElem?_modify_ne _ _ hij]

/-- With no external binding a node that was just collapsed lists itself only. -/
theorem mem_treeNodes_collapseNode (props : Props) (hext : props.externalCollapse = none)
    (n : Node) (q : Path) : q ∈ treeNodes props (collapseNode n) ↔ q = [] := by
  cases n with
  | mk f cs =>
    cases q with
    | nil => simp [mem_treeNodes_nil]
    | cons j r =>
      rw [collapseNode_mk, mem_treeNodes_cons]
      simp [getNodeCollapsedState, hext, Node.fields]

/-- C4: with no external collapse binding, after `collapseNode` on the node at
`p` the layout's node list holds no proper descendant of that node, and every
position that is not a proper descendant of it is in the list exactly when it
was before. -/
theorem collapseNode_hides_descendants (props : Props) (hext : props.externalCollapse = none)
    (root : Node) (p : Path) (n : Node) (h : root.sub? p = some n) :
    (∀ q : Path, q ∈ treeNodes props (root.modifyAt collapseNode p) → ¬ (p <+: q ∧ q ≠ p)) ∧
    (∀ q : Path, ¬ (p <+: q ∧ q ≠ p) →
      (q ∈ treeNodes props (root.modifyAt collapseNode p) ↔ q ∈ treeNodes props root)) := by
  refine ⟨?_, fun q hq => mem_treeNodes_modifyAt props collapseNode p q root hq⟩
  rintro q hq ⟨hpre, hne⟩
  obtain ⟨j, r, rfl⟩ := exists_of_prefix_ne hpre hne
  obtain ⟨_, m, hm, hjr⟩ := (mem_treeNodes_append props p (j :: r) _).mp hq
  have hsub := Node.sub?_modifyAt_append collapseNode p [] root
  rw [List.append_nil, h] at hsub
  simp only [Option.some_bind, Node.sub?] at hsub
  rw [hsub] at hm
  cases hm
  exact absurd ((mem_treeNodes_collapseNode props hext n (j :: r)).mp hjr) (by simp)

/-- In A(B(D), C), collapsing B takes D out of the node list and keeps A, B
and C in it. -/
theorem collapseNode_hides_descendants_witness :
    (defaultProps.externalCollapse = none) ∧
    (exampleRoot.sub? [0]).isSome = true ∧
    treeNodes defaultProps exampleRoot = [[], [0], [0, 0], [1]] ∧
    treeNodes defaultProps (exampleRoot.modifyAt collapseNode [0]) = [[], [0], [1]] ∧
    ([0, 0] ∉ treeNodes defaultProps (exampleRoot.modifyAt collapseNode [0])) ∧
    ([1] ∈ treeNodes defaultProps (exampleRoot.modifyAt collapseNode [0]) ↔
      [1] ∈ treeNodes defaultProps exampleRoot) := by
  have h := collapseNode_hides_descendants defaultProps rfl exampleRoot [0] _ rfl
  refine ⟨rfl, by decide, by decide, by decide, ?_, h.2 [1] (by decide)⟩
  intro hmem
  exact h.1 [0, 0] hmem (by decide)

theorem sub?_modifyAt_self (f : Node → Node) (p : Path) (root n : Node)
    (h : root.sub? p = some n) : (root.modifyAt f p).sub? p = some (f n) := by
  have hsub := Node.sub?_modifyAt_append f p [] root
  rw [List.append_nil, h] at hsub
  simpa [Node.sub?] using hsub

/-- C6 as stated fails: in A(B(D), C), all expanded, D is in the node list
before A is collapsed and absent from it after A is collapsed and expanded
again, although A is visible and expanded. -/
theorem collapse_expand_restores_counterexample :
    defaultProps.externalCollapse = none ∧
    ([] : Path) ∈ treeNodes defaultProps exampleRoot ∧
    (exampleRoot.sub? []).map (fun m => m.fields._collapsed) = some false ∧
    [0, 0] ∈ treeNodes defaultProps exampleRoot ∧
    [0, 0] ∉ treeNodes defaultProps
      ((exampleRoot.modifyAt collapseNode []).modifyAt expandNode []) := by
  refine ⟨rfl, by decide, by decide, by decide, by decide⟩

/-- C6, amended: with no external collapse binding, for a visible, expanded
node `n` at `p`, after `collapseNode` and then `expandNode` on it the
descendants of `n` in the layout's node list are exactly the children of `n`
(each one collapsed), and each of them was in the list before the collapse. -/
theorem collapse_expand_shows_children (props : Props) (hext : props.externalCollapse = none)
    (root : Node) (p : Path) (n : Node) (h : root.sub? p = some n)
    (hvis : p ∈ treeNodes props root) (hexp : n.fields._collapsed = false) :
    (∀ q : Path, p <+: q → q ≠ p →
      (q ∈ treeNodes props ((root.modifyAt collapseNode p).modifyAt expandNode p) ↔
        ∃ j : Nat, j < n._children.length ∧ q = p ++ [j])) ∧
    (∀ q : Path, p <+: q → q ≠ p →
      q ∈ treeNodes props ((root.modifyAt collapseNode p).modifyAt expandNode p) →
        q ∈ treeNodes props root) := by
  have hself : ((root.modifyAt collapseNode p).modifyAt expandNode p).sub? p =
      some (expandNode (collapseNode n)) :=
    sub?_modifyAt_self expandNode p _ _ (sub?_modifyAt_self collapseNode p root n h)
  have hp : p ∈ treeNodes props ((root.modifyAt collapseNode p).modifyAt expandNode p) := by
    rw [mem_treeNodes_modifyAt props expandNode p p _ (by simp),
      mem_treeNodes_modifyAt props collapseNode p p _ (by simp)]
    exact hvis
  have key : ∀ (j : Nat) (r : Path),
      (p ++ j :: r) ∈ treeNodes props ((root.modifyAt collapseNode p).modifyAt expandNode p) ↔
        j < n._children.length ∧ r = [] := by
    intro j r
    rw [mem_treeNodes_append, hself]
    cases n with
    | mk f cs =>
      simp only [hp, true_and, Option.some.injEq, exists_eq_left', collapseNode_mk, expandNode,
        Node.fields, Node._children]
      rw [mem_treeNodes_cons]
      simp only [getNodeCollapsedState, hext, Node.fields, List.getElem?_map, true_and]
      constructor
      · rintro ⟨c, h1, h2⟩
        cases hc : cs[j]? with
        | none => simp [hc] at h1
        | some c0 =>
          rw [hc] at h1
          simp only [Option.map_some', Option.some.injEq] at h1
          subst h1
          exact ⟨(List.getElem?_eq_some.mp hc).1,
            (mem_treeNodes_collapseNode props hext c0 r).mp h2⟩
      · rintro ⟨hj, rfl⟩
        exact ⟨collapseNode cs[j], by simp [List.getElem?_eq_getElem hj], mem_treeNodes_nil _ _⟩
  refine ⟨?_, ?_⟩
  · intro q hpre hne
    obtain ⟨j, r, rfl⟩ := exists_of_prefix_ne hpre hne
    rw [key]
    constructor
    · rintro ⟨hj, rfl⟩
      exact ⟨j, hj, rfl⟩
    · rintro ⟨j2, hj2, heq⟩
      have := List.append_cancel_left heq
      simp only [List.cons.injEq] at this
      obtain ⟨rfl, rfl⟩ := this
      exact ⟨hj2, rfl⟩
  · intro q hpre hne hq
    obtain ⟨j, r, rfl⟩ := exists_of_prefix_ne hpre hne
    obtain ⟨hj, rfl⟩ := (key j r).mp hq
    rw [mem_treeNodes_append]
    refine ⟨hvis, n, h, ?_⟩
    cases n with
    | mk f cs =>
      rw [mem_treeNodes_cons]
      refine ⟨by simpa [getNodeCollapsedState, hext, Node.fields] using hexp, cs[j], ?_,
        mem_treeNodes_nil _ _⟩
      exact List.getElem?_eq_getElem hj

/-- In A(B(D), C), collapsing and expanding A shows B and C again and not D. -/
theorem collapse_expand_shows_children_witness :
    defaultProps.externalCollapse = none ∧
    ([] : Path) ∈ treeNodes defaultProps exampleRoot ∧
    ([0] ∈ treeNodes defaultProps ((exampleRoot.modifyAt collapseNode []).modifyAt expandNode [])
      ↔ ∃ j : Nat, j < exampleRoot._children.length ∧ [0] = [] ++ [j]) ∧
    treeNodes defaultProps ((exampleRoot.modifyAt collapseNode []).modifyAt expandNode [])
      = [[], [0], [1]] :=
  ⟨rfl, by decide,
   (collapse_expand_shows_children defaultProps rfl exampleRoot [] exampleRoot rfl
      (by decide) (by decide)).1 [0] (by decide) (by decide),
   by decide⟩

/-! ## Search by id -/

theorem Node.ids_eq (n : Node) : n.ids = n.fields.id :: idsEach n._children := by
  cases n with
  | mk f cs => rw [Node.ids]; rfl

theorem idsEach_cons (c : Node) (cs : List Node) : idsEach (c :: cs) = c.ids ++ idsEach cs := by
  rw [idsEach]

theorem filterRefs_mem (pred : Node → Bool) (base : Path) :
    ∀ (ns : List Node) (i : Nat) (r : Path), r ∈ filterRefs pred base ns i →
      ∃ (j : Nat) (n : Node), ns[j]? = some n ∧ pred n = true ∧ r = base ++ [i + j]
  | [], i, r, h => by simp [filterRefs] at h
  | n :: ns, i, r, h => by
    rw [filterRefs] at h
    split at h
    · rename_i hn
      rcases List.mem_cons.mp h with h | h
      · exact ⟨0, n, by simp, hn, by simpa using h⟩
      · obtain ⟨j, m, h1, h2, h3⟩ := filterRefs_mem pred base ns (i + 1) r h
        exact ⟨j + 1, m, by simpa using h1, h2, by rw [h3]; congr 2; omega⟩
    · obtain ⟨j, m, h1, h2, h3⟩ := filterRefs_mem pred base ns (i + 1) r h
      exact ⟨j + 1, m, by simpa using h1, h2, by rw [h3]; congr 2; omega⟩

theorem filterRefs_length (pred : Node → Bool) (base : Path) :
    ∀ (ns : List Node) (i : Nat), (filterRefs pred base ns i).length = ns.countP pred
  | [], i => by simp [filterRefs]
  | n :: ns, i => by
    rw [filterRefs]
    split
    · rename_i hn
      rw [List.length_cons, filterRefs_length pred base ns (i + 1), List.countP_cons_of_pos _ _ hn]
    · rename_i hn
      rw [filterRefs_length pred base ns (i + 1), List.countP_cons_of_neg _ _ hn]

/-- The matches among the elements of an array are no more than the
occurrences of the id in the trees of the array. -/
theorem countP_id_le_count (nodeId : String) : ∀ ns : List Node,
    ns.countP (fun node => node.fields.id == nodeId) ≤ (idsEach ns).count nodeId
  | [] => by simp
  | n :: ns => by
    have ih := countP_id_le_count nodeId ns
    rw [idsEach_cons, Node.ids_eq, List.count_append, List.count_cons, List.countP_cons]
    by_cases h : n.fields.id = nodeId
    · simp only [h, beq_self_eq_true, if_true]
      omega
    · have h2 : (n.fields.id == nodeId) = false := by simpa using h
      simp only [h2]
      simp
      omega

/-- An id that occurs in the trees of an array and on none of its elements
occurs below one of the elements. -/
theorem mem_idsEach_below (nodeId : String) : ∀ ns : List Node,
    nodeId ∈ idsEach ns → (∀ c ∈ ns, (c.fields.id == nodeId) = false) →
      ∃ c ∈ ns, nodeId ∈ idsEach c._children
  | [], h, _ => by simp [idsEach] at h
  | n :: ns, h, hno => by
    rw [idsEach_cons, Node.ids_eq, List.mem_append, List.mem_cons] at h
    rcases h with (h | h) | h
    · have := hno n (List.mem_cons_self _ _)
      simp [h] at this
    · exact ⟨n, List.mem_cons_self _ _, h⟩
    · obtain ⟨c, hc, hc2⟩ :=
        mem_idsEach_below nodeId ns h (fun c hc => hno c (List.mem_cons_of_mem _ hc))
      exact ⟨c, List.mem_cons_of_mem _ hc, hc2⟩

theorem mem_idsEach_of_mem {c : Node} : ∀ {ns : List Node}, c ∈ ns →
    ∀ s ∈ c.ids, s ∈ idsEach ns
  | [], h, _, _ => by simp at h
  | n :: ns, h, s, hs => by
    rw [idsEach_cons, List.mem_append]
    rcases List.mem_cons.mp h with h | h
    · left; rw [← h]; exact hs
    · right; exact mem_idsEach_of_mem h s hs

theorem count_ids_le_of_mem (nodeId : String) {c : Node} : ∀ {ns : List Node}, c ∈ ns →
    c.ids.count nodeId ≤ (idsEach ns).count nodeId
  | [], h => by simp at h
  | n :: ns, h => by
    rw [idsEach_cons, List.count_append]
    rcases List.mem_cons.mp h with h | h
    · rw [← h]; omega
    · have := count_ids_le_of_mem nodeId h
      omega

/-- Once there is a hit the callback of the `forEach` hands the hits on. -/
theorem findNodesById.visit_of_hits (nodeId : String) (n : Node) (ref : Path) (hits : List Path)
    (h : hits ≠ []) : findNodesById.visit nodeId n ref hits = hits := by
  cases n with
  | mk f cs =>
    rw [findNodesById.visit]
    have hl : hits.length > 0 := List.length_pos.mpr h
    simp [hl]

/-- Once there is a hit the `forEach` hands the hits on. -/
theorem findNodesById.forEach_of_hits (nodeId : String) : ∀ (ns : List Node) (base : Path)
    (i : Nat) (hits : List Path), hits ≠ [] → findNodesById.forEach nodeId ns base i hits = hits
  | [], _, _, _, _ => by rw [findNodesById.forEach]
  | n :: ns, base, i, hits, h => by
    rw [findNodesById.forEach, findNodesById.visit_of_hits nodeId n _ hits h]
    exact findNodesById.forEach_of_hits nodeId ns base (i + 1) hits h

/-- The callback of the `forEach` is the recursive call of `findNodesById` on
`node._children`. -/
theorem findNodesById.visit_eq (nodeId : String) (n : Node) (ref : Path) (hits : List Path) :
    findNodesById.visit nodeId n ref hits =
      if n._children.length > 0 then findNodesById nodeId n._children ref hits else hits := by
  cases n with
  | mk f cs =>
    rw [findNodesById.visit]
    rfl

/-- What `findNodesById` returns follows from what its `forEach` returns when
started without hits. -/
theorem findNodesById.of_forEach (nodeId : String) (ns : List Node) (base : Path)
    (hE : (∀ r ∈ findNodesById.forEach nodeId ns base 0 [],
        ∃ (j : Nat) (n : Node) (rel : Path) (m : Node), ns[j]? = some n ∧
          r = base ++ (0 + j) :: rel ∧ n.sub? rel = some m ∧ m.fields.id = nodeId) ∧
      (findNodesById.forEach nodeId ns base 0 []).length ≤ (idsEach ns).count nodeId ∧
      ((∃ n ∈ ns, nodeId ∈ idsEach n._children) →
        findNodesById.forEach nodeId ns base 0 [] ≠ [])) :
    (∀ r ∈ findNodesById nodeId ns base [],
        ∃ (rel : Path) (m : Node), r = base ++ rel ∧ get? ns rel = some m ∧
          m.fields.id = nodeId) ∧
      (findNodesById nodeId ns base []).length ≤ (idsEach ns).count nodeId ∧
      (nodeId ∈ idsEach ns → findNodesById nodeId ns base [] ≠ []) := by
  obtain ⟨hS, hC, hN⟩ := hE
  have hdef : findNodesById nodeId ns base [] =
      findNodesById.forEach nodeId ns base 0
        (filterRefs (fun node => node.fields.id == nodeId) base ns 0) := by
    simp [findNodesById]
  rw [hdef]
  by_cases hf : filterRefs (fun node => node.fields.id == nodeId) base ns 0 = []
  · rw [hf]
    refine ⟨?_, hC, ?_⟩
    · intro r hr
      obtain ⟨j, n, rel, m, h1, h2, h3, h4⟩ := hS r hr
      refine ⟨j :: rel, m, by simpa using h2, ?_, h4⟩
      rw [get?_cons, h1]
      exact h3
    · intro hin
      apply hN
      apply mem_idsEach_below nodeId ns hin
      intro c hc
      by_contra hne
      have hpos : 0 < ns.countP (fun node => node.fields.id == nodeId) :=
        List.countP_pos_iff.mpr ⟨c, hc, by simpa using hne⟩
      rw [← filterRefs_length _ base ns 0, hf] at hpos
      simp at hpos
  · rw [findNodesById.forEach_of_hits nodeId ns base 0 _ hf]
    refine ⟨?_, ?_, fun _ => hf⟩
    · intro r hr
      obtain ⟨j, n, h1, h2, h3⟩ := filterRefs_mem _ base ns 0 r hr
      refine ⟨[j], n, by simpa using h3, ?_, by simpa using h2⟩
      rw [get?_cons, h1]
      simp [Node.sub?]
    · rw [filterRefs_length]
      exact countP_id_le_count nodeId ns

mutual
/-- The callback of the `forEach`, started without hits: every reference it
returns leads to a node with the id; there are no more of them than
occurrences of the id; and there is one when the id occurs below the node. -/
theorem findNodesById.visit_spec (nodeId : String) : ∀ (n : Node) (ref : Path),
    (∀ r ∈ findNodesById.visit nodeId n ref [],
        ∃ (rel : Path) (m : Node), r = ref ++ rel ∧ get? n._children rel = some m ∧
          m.fields.id = nodeId) ∧
      (findNodesById.visit nodeId n ref []).length ≤ (idsEach n._children).count nodeId ∧
      (nodeId ∈ idsEach n._children → findNodesById.visit nodeId n ref [] ≠ [])
  | .mk f cs, ref => by
    have hv : findNodesById.visit nodeId (.mk f cs) ref [] = findNodesById nodeId cs ref [] := by
      rw [findNodesById.visit_eq]
      cases cs with
      | nil => simp [Node._children, findNodesById, filterRefs, findNodesById.forEach]
      | cons c cs => simp [Node._children]
    rw [hv]
    exact findNodesById.of_forEach nodeId cs ref (findNodesById.forEach_spec nodeId cs ref 0)
/-- The same three facts for the `forEach` over an array, started without hits. -/
theorem findNodesById.forEach_spec (nodeId : String) : ∀ (ns : List Node) (base : Path) (i : Nat),
    (∀ r ∈ findNodesById.forEach nodeId ns base i [],
        ∃ (j : Nat) (n : Node) (rel : Path) (m : Node), ns[j]? = some n ∧
          r = base ++ (i + j) :: rel ∧ n.sub? rel = some m ∧ m.fields.id = nodeId) ∧
      (findNodesById.forEach nodeId ns base i []).length ≤ (idsEach ns).count nodeId ∧
      ((∃ n ∈ ns, nodeId ∈ idsEach n._children) →
        findNodesById.forEach nodeId ns base i [] ≠ [])
  | [], base, i => by simp [findNodesById.forEach]
  | a :: rest, base, i => by
    obtain ⟨aS, aC, aN⟩ := findNodesById.visit_spec nodeId a (base ++ [i])
    obtain ⟨rS, rC, rN⟩ := findNodesById.forEach_spec nodeId rest base (i + 1)
    rw [findNodesById.forEach]
    by_cases hv : findNodesById.visit nodeId a (base ++ [i]) [] = []
    · rw [hv]
      refine ⟨?_, ?_, ?_⟩
      · intro r hr
        obtain ⟨j, n, rel, m, h1, h2, h3, h4⟩ := rS r hr
        exact ⟨j + 1, n, rel, m, by simpa using h1, by rw [h2]; congr 2; omega, h3, h4⟩
      · rw [idsEach_cons, List.count_append]
        omega
      · rintro ⟨n, hn, hin⟩
        rcases List.mem_cons.mp hn with hn | hn
        · subst hn
          exact absurd hv (aN hin)
        · exact rN ⟨n, hn, hin⟩
    · rw [findNodesById.forEach_of_hits nodeId rest base (i + 1) _ hv]
      refine ⟨?_, ?_, fun _ => hv⟩
      · intro r hr
        obtain ⟨rel, m, h1, h2, h3⟩ := aS r hr
        refine ⟨0, a, rel, m, by simp, by simpa using h1, ?_, h3⟩
        cases a with
        | mk f cs =>
          cases rel with
          | nil => simp [get?] at h2
          | cons k rel => rw [Node.sub?_cons]; exact h2
      · rw [idsEach_cons, List.count_append, Node.ids_eq, List.count_cons]
        omega
end

/-- The three facts for `findNodesById` itself, called without hits. -/
theorem findNodesById_facts (nodeId : String) (ns : List Node) (base : Path) :
    (∀ r ∈ findNodesById nodeId ns base [],
        ∃ (rel : Path) (m : Node), r = base ++ rel ∧ get? ns rel = some m ∧
          m.fields.id = nodeId) ∧
      (findNodesById nodeId ns base []).length ≤ (idsEach ns).count nodeId ∧
      (nodeId ∈ idsEach ns → findNodesById nodeId ns base [] ≠ []) :=
  findNodesById.of_forEach nodeId ns base (findNodesById.forEach_spec nodeId ns base 0)

/-- The id of every node below `n` is among the ids of `n`. -/
theorem Node.sub?_mem_ids : ∀ (p : Path) (n m : Node), n.sub? p = some m → m.fields.id ∈ n.ids
  | [], n, m, h => by
    simp only [Node.sub?, Option.some.injEq] at h
    rw [← h, Node.ids_eq]
    exact List.mem_cons_self _ _
  | i :: rest, .mk f cs, m, h => by
    simp only [Node.sub?] at h
    split at h
    · rename_i c hc
      rw [Node.ids_eq]
      exact List.mem_cons_of_mem _
        (mem_idsEach_of_mem (List.getElem?_mem hc) _ (Node.sub?_mem_ids rest c m h))
    · exact absurd h (by simp)

theorem get?_mem_ids (ns : List Node) (p : Path) (m : Node) (h : get? ns p = some m) :
    m.fields.id ∈ idsEach ns := by
  cases p with
  | nil => simp [get?] at h
  | cons i rest =>
    simp only [get?] at h
    split at h
    · rename_i c hc
      exact mem_idsEach_of_mem (List.getElem?_mem hc) _ (Node.sub?_mem_ids rest c m h)
    · exact absurd h (by simp)

mutual
/-- With pairwise distinct ids, two positions below a node that carry the same
id are one position. -/
theorem Node.sub?_inj_of_nodup : ∀ (n : Node), n.ids.Nodup →
    ∀ (p q : Path) (m1 m2 : Node), n.sub? p = some m1 → n.sub? q = some m2 →
      m1.fields.id = m2.fields.id → p = q
  | .mk f cs, hnd, p, q, m1, m2, h1, h2, hid => by
    rw [Node.ids_eq] at hnd
    simp only [Node.fields, Node._children] at hnd
    obtain ⟨hnot, hcs⟩ := List.nodup_cons.mp hnd
    cases p with
    | nil =>
      cases q with
      | nil => rfl
      | cons j qr =>
        simp only [Node.sub?, Option.some.injEq] at h1
        rw [Node.sub?_cons] at h2
        have := get?_mem_ids cs _ m2 h2
        rw [← hid, ← h1] at this
        exact absurd this hnot
    | cons i pr =>
      cases q with
      | nil =>
        simp only [Node.sub?, Option.some.injEq] at h2
        rw [Node.sub?_cons] at h1
        have := get?_mem_ids cs _ m1 h1
        rw [hid, ← h2] at this
        exact absurd this hnot
      | cons j qr =>
        rw [Node.sub?_cons] at h1 h2
        exact get?_inj_of_nodup cs hcs _ _ m1 m2 h1 h2 hid
/-- The same for the positions of an array of trees. -/
theorem get?_inj_of_nodup : ∀ (ns : List Node), (idsEach ns).Nodup →
    ∀ (p q : Path) (m1 m2 : Node), get? ns p = some m1 → get? ns q = some m2 →
      m1.fields.id = m2.fields.id → p = q
  | [], _, p, q, m1, m2, h1, _, _ => by
    cases p with
    | nil => simp [get?] at h1
    | cons i pr => simp [get?] at h1
  | a :: rest, hnd, p, q, m1, m2, h1, h2, hid => by
    rw [idsEach_cons] at hnd
    obtain ⟨ha, hrest, hdis⟩ := List.nodup_append.mp hnd
    cases p with
    | nil => simp [get?] at h1
    | cons i pr =>
      cases q with
      | nil => simp [get?] at h2
      | cons j qr =>
        cases i with
        | zero =>
          cases j with
          | zero =>
            simp only [get?_cons, List.getElem?_cons_zero, Option.some_bind] at h1 h2
            rw [Node.sub?_inj_of_nodup a ha pr qr m1 m2 h1 h2 hid]
          | succ j =>
            simp only [get?_cons, List.getElem?_cons_zero, Option.some_bind] at h1
            have h2r : get? rest (j :: qr) = some m2 := by
              rw [get?_cons] at h2 ⊢
              simpa using h2
            have m1in := Node.sub?_mem_ids pr a m1 h1
            have m2in := get?_mem_ids rest _ m2 h2r
            rw [hid] at m1in
            exact absurd m2in (fun hm => hdis m1in hm)
        | succ i =>
          have h1r : get? rest (i :: pr) = some m1 := by
            rw [get?_cons] at h1 ⊢
            simpa using h1
          cases j with
          | zero =>
            simp only [get?_cons, List.getElem?_cons_zero, Option.some_bind] at h2
            have m2in := Node.sub?_mem_ids qr a m2 h2
            have m1in := get?_mem_ids rest _ m1 h1r
            rw [← hid] at m2in
            exact absurd m1in (fun hm => hdis m2in hm)
          | succ j =>
            have h2r : get? rest (j :: qr) = some m2 := by
              rw [get?_cons] at h2 ⊢
              simpa using h2
            have := get?_inj_of_nodup rest hrest _ _ m1 m2 h1r h2r hid
            simp only [List.cons.injEq] at this
            rw [this.1, this.2]
end

/-- C10: in a tree with pairwise distinct ids, `findNodesById(id, data, [])`
returns the one-element list holding the reference to the node with that id
when there is such a node, and the empty list when there is none; the result
never has more than one element, and every reference in it leads to a node
with the requested id. -/
theorem findNodesById_spec (data : List Node) (hnd : (idsEach data).Nodup) (nodeId : String) :
    (∀ (p : Path) (n : Node), get? data p = some n → n.fields.id = nodeId →
      findNodesById nodeId data [] [] = [p]) ∧
    ((∀ (p : Path) (n : Node), get? data p = some n → n.fields.id ≠ nodeId) →
      findNodesById nodeId data [] [] = []) ∧
    (findNodesById nodeId data [] []).length ≤ 1 ∧
    (∀ r ∈ findNodesById nodeId data [] [],
      ∃ n : Node, get? data r = some n ∧ n.fields.id = nodeId) := by
  obtain ⟨hS, hC, hN⟩ := findNodesById_facts nodeId data []
  have hlen : (findNodesById nodeId data [] []).length ≤ 1 :=
    le_trans hC (List.nodup_iff_count_le_one.mp hnd nodeId)
  have hvalid : ∀ r ∈ findNodesById nodeId data [] [],
      ∃ n : Node, get? data r = some n ∧ n.fields.id = nodeId := by
    intro r hr
    obtain ⟨rel, m, h1, h2, h3⟩ := hS r hr
    rw [List.nil_append] at h1
    exact ⟨m, by rw [h1]; exact h2, h3⟩
  refine ⟨?_, ?_, hlen, hvalid⟩
  · intro p n hp hid
    have hne := hN (by rw [← hid]; exact get?_mem_ids data p n hp)
    cases hres : findNodesById nodeId data [] [] with
    | nil => exact absurd hres hne
    | cons r rs =>
      rw [hres] at hlen hvalid
      have hrs : rs = [] := by
        cases rs with
        | nil => rfl
        | cons _ _ => simp at hlen
      subst hrs
      obtain ⟨m, hm, hmid⟩ := hvalid r (List.mem_singleton.mpr rfl)
      rw [get?_inj_of_nodup data hnd r p m n hm hp (hmid.trans hid.symm)]
  · intro hnone
    cases hres : findNodesById nodeId data [] [] with
    | nil => rfl
    | cons r rs =>
      rw [hres] at hvalid
      obtain ⟨m, hm, hmid⟩ := hvalid r (List.mem_cons_self _ _)
      exact absurd hmid (hnone r m hm)

/-- In A(B(D), C) with the ids `"u"`, `"uu"`, `"uuu"`, `"uuuu"`, the id of D
is found at D and an id that no node has is not found. -/
theorem findNodesById_spec_witness :
    (idsEach exampleData).Nodup ∧
    findNodesById "uuu" exampleData [] [] = [[0, 0, 0]] ∧
    findNodesById "v" exampleData [] [] = [] := by
  have hnd : (idsEach exampleData).Nodup := by decide
  refine ⟨hnd, (findNodesById_spec exampleData hnd "uuu").1 [0, 0, 0] _ rfl (by decide), ?_⟩
  exact by decide

/-! ## Toggling a node -/

/-- When some node carries the id, the first hit of `findNodesById` is a
reference to a node that carries it. -/
theorem findNodesById_head (data : List Node) (nodeId : String)
    (hex : ∃ (p : Path) (n : Node), get? data p = some n ∧ n.fields.id = nodeId) :
    ∃ (ref : Path) (node : Node), (findNodesById nodeId data [] []).head? = some ref ∧
      get? data ref = some node ∧ node.fields.id = nodeId := by
  obtain ⟨p, n, hp, hid⟩ := hex
  obtain ⟨hS, _, hN⟩ := findNodesById_facts nodeId data []
  have hne := hN (by rw [← hid]; exact get?_mem_ids data p n hp)
  cases hres : findNodesById nodeId data [] [] with
  | nil => exact absurd hres hne
  | cons r rs =>
    rw [hres] at hS
    obtain ⟨rel, m, h1, h2, h3⟩ := hS r (List.mem_cons_self _ _)
    rw [List.nil_append] at h1
    exact ⟨r, m, rfl, by rw [h1]; exact h2, h3⟩

/-- When no node carries the id, `findNodesById` returns no hit. -/
theorem findNodesById_none (data : List Node) (nodeId : String)
    (hno : ∀ (p : Path) (n : Node), get? data p = some n → n.fields.id ≠ nodeId) :
    findNodesById nodeId data [] [] = [] := by
  obtain ⟨hS, _, _⟩ := findNodesById_facts nodeId data []
  cases hres : findNodesById nodeId data [] [] with
  | nil => rfl
  | cons r rs =>
    rw [hres] at hS
    obtain ⟨rel, m, h1, h2, h3⟩ := hS r (List.mem_cons_self _ _)
    exact absurd h3 (hno rel m h2)

/-- The branch of `handleNodeToggle` taken when the tree is not collapsible or
is in transition: the state is handed back as it was. -/
theorem handleNodeToggle_of_locked (props : Props) (fuel : Nat) (state : State)
    (nodeId : String) (h : props.collapsible = false ∨ state.isTransitioning = true) :
    handleNodeToggle props fuel state nodeId =
      .ok { state := state
            clicked := handleOnClickCb props
              ((findNodesById nodeId state.data [] []).head?.bind (get? state.data))
            unlockAfter := none
            targetNode := none } := by
  unfold handleNodeToggle
  rcases h with h | h <;> simp [h]

/-- C7: when the id is that of a node of the tree, `collapsible` is true, the
tree is not in transition and neither an auto-expand selector nor the
collapse-neighbours mode is configured, `handleNodeToggle` resolves the id to
a node carrying it and succeeds: if that node was collapsed the new data is
the old data with only that node's `_collapsed` set to false, if it was not
the new data is the old data with `collapseNode` applied to that node; in both
cases `isTransitioning` becomes true, the unlock is scheduled, and the click
callback, when one is registered, receives the resolved node as it is after
the change. -/
theorem handleNodeToggle_spec (props : Props) (fuel : Nat) (state : State) (nodeId : String)
    (hc : props.collapsible = true) (ht : state.isTransitioning = false)
    (hsel : props.shouldAutoExpandChildren = none)
    (hnb : props.shouldCollapseNeighborNodes = false)
    (hex : ∃ (p : Path) (n : Node), get? state.data p = some n ∧ n.fields.id = nodeId) :
    ∃ (ref : Path) (node : Node) (r : ToggleResult),
      (findNodesById nodeId state.data [] []).head? = some ref ∧
      get? state.data ref = some node ∧ node.fields.id = nodeId ∧
      handleNodeToggle props fuel state nodeId = .ok r ∧
      r.state.isTransitioning = true ∧
      (node.fields._collapsed = true →
        r.state.data =
          modifyAt (fun m => Node.mk { m.fields with _collapsed := false } m._children)
            ref state.data ∧
        get? r.state.data ref =
          some (Node.mk { node.fields with _collapsed := false } node._children)) ∧
      (node.fields._collapsed = false →
        r.state.data = modifyAt collapseNode ref state.data ∧
        get? r.state.data ref = some (collapseNode node)) ∧
      (props.onClick = true → r.clicked = some (get? r.state.data ref)) ∧
      (props.onClick = false → r.clicked = none) ∧
      r.unlockAfter = some (props.transitionDuration + 10) := by
  obtain ⟨ref, node, hhead, hget, hid⟩ := findNodesById_head state.data nodeId hex
  have hp : ref ≠ [] := get?_ne_nil hget
  have hself : ∀ f : Node → Node, get? (modifyAt f ref state.data) ref = some (f node) := by
    intro f
    have := get?_modifyAt_append f state.data ref [] hp
    simpa [hget, Node.sub?] using this
  by_cases hcol : node.fields._collapsed = true
  · refine ⟨ref, node,
      { state := { data := modifyAt expandNode ref state.data, isTransitioning := true }
        clicked := handleOnClickCb props (get? (modifyAt expandNode ref state.data) ref)
        unlockAfter := some (props.transitionDuration + 10)
        targetNode := get? (modifyAt expandNode ref state.data) ref },
      hhead, hget, hid, ?_, rfl, ?_, ?_, ?_, ?_, rfl⟩
    · unfold handleNodeToggle
      simp [hc, ht, hsel, hnb, hhead, hget, hcol]
    · intro _
      exact ⟨rfl, hself expandNode⟩
    · intro h
      rw [h] at hcol
      exact absurd hcol (by simp)
    · intro h
      simp [handleOnClickCb, h]
    · intro h
      simp [handleOnClickCb, h]
  · have hcol2 : node.fields._collapsed = false := by simpa using hcol
    refine ⟨ref, node,
      { state := { data := modifyAt collapseNode ref state.data, isTransitioning := true }
        clicked := handleOnClickCb props (get? (modifyAt collapseNode ref state.data) ref)
        unlockAfter := some (props.transitionDuration + 10)
        targetNode := get? (modifyAt collapseNode ref state.data) ref },
      hhead, hget, hid, ?_, rfl, ?_, ?_, ?_, ?_, rfl⟩
    · unfold handleNodeToggle
      simp [hc, ht, hhead, hget, hcol2]
    · intro h
      exact absurd h hcol
    · intro _
      exact ⟨rfl, hself collapseNode⟩
    · intro h
      simp [handleOnClickCb, h]
    · intro h
      simp [handleOnClickCb, h]

/-- In A(B(D), C), all expanded, a toggle of B with the default props
collapses B and D and locks the tree. -/
theorem handleNodeToggle_spec_witness :
    defaultProps.collapsible = true ∧
    (∃ (p : Path) (n : Node), get? exampleData p = some n ∧ n.fields.id = "uu") ∧
    (∃ (ref : Path) (node : Node) (r : ToggleResult),
      (findNodesById "uu" exampleData [] []).head? = some ref ∧
      get? exampleData ref = some node ∧ node.fields.id = "uu" ∧
      handleNodeToggle defaultProps 0 ⟨exampleData, false⟩ "uu" = .ok r ∧
      r.state.isTransitioning = true ∧
      (node.fields._collapsed = false → r.state.data = modifyAt collapseNode ref exampleData)) := by
  have hex : ∃ (p : Path) (n : Node), get? exampleData p = some n ∧ n.fields.id = "uu" :=
    ⟨[0, 0], _, rfl, by decide⟩
  obtain ⟨ref, node, r, h1, h2, h3, h4, h5, _, h7, _⟩ :=
    handleNodeToggle_spec defaultProps 0 ⟨exampleData, false⟩ "uu" rfl rfl rfl rfl hex
  exact ⟨rfl, hex, ref, node, r, h1, h2, h3, h4, h5, fun h => (h7 h).1⟩

/-- C8: `handleNodeToggle` hands the state back unchanged when `collapsible`
is false or `isTransitioning` is true; hence, after a toggle that returned, a
second toggle with no unlock in between (of the same node or of any other)
returns and leaves the state, and so the data, as the first toggle left it. -/
theorem handleNodeToggle_locked (props : Props) (fuel : Nat) (state : State) (nodeId : String) :
    ((props.collapsible = false ∨ state.isTransitioning = true) →
      ∃ r : ToggleResult, handleNodeToggle props fuel state nodeId = .ok r ∧
        r.state = state ∧ r.unlockAfter = none) ∧
    (∀ (r1 : ToggleResult), handleNodeToggle props fuel state nodeId = .ok r1 →
      ∀ (fuel2 : Nat) (nodeId2 : String),
        ∃ r2 : ToggleResult, handleNodeToggle props fuel2 r1.state nodeId2 = .ok r2 ∧
          r2.state = r1.state ∧ r2.state.data = r1.state.data) := by
  refine ⟨?_, ?_⟩
  · intro h
    exact ⟨_, handleNodeToggle_of_locked props fuel state nodeId h, rfl, rfl⟩
  · intro r1 h1 fuel2 nodeId2
    have hlock : props.collapsible = false ∨ r1.state.isTransitioning = true := by
      by_cases hc : props.collapsible = true
      · by_cases ht : state.isTransitioning = true
        · rw [handleNodeToggle_of_locked props fuel state nodeId (Or.inr ht)] at h1
          cases h1
          exact Or.inr ht
        · right
          have ht2 : state.isTransitioning = false := by simpa using ht
          unfold handleNodeToggle at h1
          simp only [hc, ht2, Bool.not_false, Bool.and_self, if_true] at h1
          split at h1
          · cases h1
          · split at h1
            · cases h1
            · split at h1
              · cases h1
              · cases h1
                rfl
      · left
        simpa using hc
    exact ⟨_, handleNodeToggle_of_locked props fuel2 r1.state nodeId2 hlock, rfl, rfl⟩

/-- In A(B(D), C), a second toggle of B right after the first leaves B
collapsed: the data is what the first toggle produced. -/
theorem handleNodeToggle_locked_witness :
    ∃ r1 r2 : ToggleResult,
      handleNodeToggle defaultProps 0 ⟨exampleData, false⟩ "uu" = .ok r1 ∧
      handleNodeToggle defaultProps 0 r1.state "uu" = .ok r2 ∧
      r2.state.data = r1.state.data ∧
      r1.state.data = modifyAt collapseNode [0, 0] exampleData := by
  obtain ⟨r2, h2, _, h4⟩ :=
    (handleNodeToggle_locked defaultProps 0 ⟨exampleData, false⟩ "uu").2 _ rfl 0 "uu"
  exact ⟨_, r2, rfl, h2, h4, rfl⟩

/-- C9 as stated fails: in A(B(D), C) no node has the id `"v"`, the default
props make the tree collapsible, the tree is not in transition, and the toggle
raises a type error instead of completing. -/
theorem handleNodeToggle_not_found_counterexample :
    "v" ∉ idsEach exampleData ∧
    defaultProps.collapsible = true ∧
    handleNodeToggle defaultProps 0 ⟨exampleData, false⟩ "v" = .error .typeError :=
  ⟨by decide, rfl, rfl⟩

/-- C9, amended: for an id that matches no node of the tree,
`handleNodeToggle` never changes the tree data. When `collapsible` is false or
the tree is in transition it completes, hands the state back unchanged and
calls the click callback (if one is registered) without a node; when
`collapsible` is true and the tree is not in transition it raises a type error
(it reads `_collapsed` of the missing node) and no state is set. -/
theorem handleNodeToggle_not_found (props : Props) (fuel : Nat) (state : State)
    (nodeId : String)
    (hno : ∀ (p : Path) (n : Node), get? state.data p = some n → n.fields.id ≠ nodeId) :
    ((props.collapsible = false ∨ state.isTransitioning = true) →
      handleNodeToggle props fuel state nodeId =
        .ok { state := state, clicked := handleOnClickCb props none,
              unlockAfter := none, targetNode := none }) ∧
    (props.collapsible = true → state.isTransitioning = false →
      handleNodeToggle props fuel state nodeId = .error .typeError) := by
  have hnone := findNodesById_none state.data nodeId hno
  refine ⟨?_, ?_⟩
  · intro h
    rw [handleNodeToggle_of_locked props fuel state nodeId h, hnone]
    rfl
  · intro hc ht
    unfold handleNodeToggle
    simp [hc, ht, hnone]

/-- In A(B(D), C), a toggle with the unknown id `"v"` while the tree is in
transition hands the state back, and raises a type error otherwise. -/
theorem handleNodeToggle_not_found_witness :
    (∀ (p : Path) (n : Node), get? exampleData p = some n → n.fields.id ≠ "v") ∧
    (∃ r : ToggleResult, handleNodeToggle defaultProps 0 ⟨exampleData, true⟩ "v" = .ok r ∧
      r.state.data = exampleData ∧ r.clicked = none) ∧
    handleNodeToggle defaultProps 0 ⟨exampleData, false⟩ "v" = .error .typeError := by
  have hno : ∀ (p : Path) (n : Node), get? exampleData p = some n → n.fields.id ≠ "v" := by
    intro p n hp hid
    have := get?_mem_ids exampleData p n hp
    rw [hid] at this
    exact absurd this (by decide)
  have h := handleNodeToggle_not_found defaultProps 0 ⟨exampleData, true⟩ "v" hno
  have h2 := handleNodeToggle_not_found defaultProps 0 ⟨exampleData, false⟩ "v" hno
  exact ⟨hno, ⟨_, h.1 (Or.inr rfl), rfl, rfl⟩, h2.2 rfl rfl⟩

/-! ## The search reaches hidden nodes -/

/-- C11 as stated fails: in A(B(D), C) with B collapsed, D is absent from the
layout's node list and is the only node with the id `"uuu"`, and
`findNodesById` still returns it. -/
theorem findNodesById_hidden_counterexample :
    [0, 0] ∉ treeNodes defaultProps (exampleRoot.modifyAt collapseNode [0]) ∧
    (idsEach [exampleRoot.modifyAt collapseNode [0]]).count "uuu" = 1 ∧
    (get? [exampleRoot.modifyAt collapseNode [0]] [0, 0, 0]).map (fun m => m.fields.id)
      = some "uuu" ∧
    findNodesById "uuu" [exampleRoot.modifyAt collapseNode [0]] [] [] = [[0, 0, 0]] := by
  refine ⟨by decide, by decide, by decide, by decide⟩

/-- C11, amended: `findNodesById` searches the whole tree through `_children`,
whatever the collapsed flags. When some node carries the id, in the layout's
node list or not, the result is not empty and every reference in it leads to
a node carrying the id; with pairwise distinct ids it is that node alone; the
result is empty exactly when no node of the tree carries the id. -/
theorem findNodesById_reaches_all (root : Node) (nodeId : String) :
    (∀ (q : Path) (n : Node), root.sub? q = some n → n.fields.id = nodeId →
      findNodesById nodeId [root] [] [] ≠ []) ∧
    (∀ r ∈ findNodesById nodeId [root] [] [],
      ∃ m : Node, get? [root] r = some m ∧ m.fields.id = nodeId) ∧
    ((idsEach [root]).Nodup → ∀ (q : Path) (n : Node), root.sub? q = some n →
      n.fields.id = nodeId → findNodesById nodeId [root] [] [] = [0 :: q]) ∧
    (findNodesById nodeId [root] [] [] = [] ↔
      ∀ (q : Path) (n : Node), root.sub? q = some n → n.fields.id ≠ nodeId) := by
  obtain ⟨hS, hC, hN⟩ := findNodesById_facts nodeId [root] []
  have hget : ∀ (q : Path) (n : Node), root.sub? q = some n → get? [root] (0 :: q) = some n := by
    intro q n h
    simpa [get?_cons] using h
  have hvalid : ∀ r ∈ findNodesById nodeId [root] [] [],
      ∃ m : Node, get? [root] r = some m ∧ m.fields.id = nodeId := by
    intro r hr
    obtain ⟨rel, m, h1, h2, h3⟩ := hS r hr
    rw [List.nil_append] at h1
    exact ⟨m, by rw [h1]; exact h2, h3⟩
  have hfound : ∀ (q : Path) (n : Node), root.sub? q = some n → n.fields.id = nodeId →
      findNodesById nodeId [root] [] [] ≠ [] := by
    intro q n h hid
    exact hN (by rw [← hid]; exact get?_mem_ids [root] (0 :: q) n (hget q n h))
  refine ⟨hfound, hvalid, ?_, ?_⟩
  · intro hnd q n h hid
    have hlen : (findNodesById nodeId [root] [] []).length ≤ 1 :=
      le_trans hC (List.nodup_iff_count_le_one.mp hnd nodeId)
    cases hres : findNodesById nodeId [root] [] [] with
    | nil => exact absurd hres (hfound q n h hid)
    | cons r rs =>
      rw [hres] at hlen hvalid
      have hrs : rs = [] := by
        cases rs with
        | nil => rfl
        | cons _ _ => simp at hlen
      subst hrs
      obtain ⟨m, hm, hmid⟩ := hvalid r (List.mem_singleton.mpr rfl)
      rw [get?_inj_of_nodup [root] hnd r (0 :: q) m n hm (hget q n h) (hmid.trans hid.symm)]
  · constructor
    · intro hres q n h hid
      exact hfound q n h hid hres
    · intro hno
      cases hres : findNodesById nodeId [root] [] [] with
      | nil => rfl
      | cons r rs =>
        rw [hres] at hvalid
        obtain ⟨m, hm, hmid⟩ := hvalid r (List.mem_cons_self _ _)
        cases r with
        | nil => simp [get?] at hm
        | cons i rest =>
          cases i with
          | zero =>
            have : root.sub? rest = some m := by simpa [get?_cons] using hm
            exact absurd hmid (hno rest m this)
          | succ i => simp [get?_cons] at hm

/-- In A(B(D), C) with B collapsed, the search for the id of the hidden D
returns D. -/
theorem findNodesById_reaches_all_witness :
    (idsEach [exampleRoot.modifyAt collapseNode [0]]).Nodup ∧
    findNodesById "uuu" [exampleRoot.modifyAt collapseNode [0]] [] [] = [[0, 0, 0]] :=
  ⟨by decide,
   (findNodesById_reaches_all (exampleRoot.modifyAt collapseNode [0]) "uuu").2.2.1
     (by decide) [0, 0] _ rfl (by decide)⟩

/-! ## Search by depth -/

theorem mem_filterRefs (pred : Node → Bool) (base : Path) :
    ∀ (ns : List Node) (i : Nat) (r : Path), r ∈ filterRefs pred base ns i ↔
      ∃ (j : Nat) (n : Node), ns[j]? = some n ∧ pred n = true ∧ r = base ++ [i + j]
  | [], i, r => by simp [filterRefs]
  | n :: ns, i, r => by
    constructor
    · exact filterRefs_mem pred base (n :: ns) i r
    · rintro ⟨j, m, h1, h2, h3⟩
      rw [filterRefs]
      cases j with
      | zero =>
        simp only [List.getElem?_cons_zero, Option.some.injEq] at h1
        subst h1
        rw [if_pos h2, h3]
        exact List.mem_cons_self _ _
      | succ j =>
        have hrest : r ∈ filterRefs pred base ns (i + 1) :=
          (mem_filterRefs pred base ns (i + 1) r).mpr
            ⟨j, m, by simpa using h1, h2, by rw [h3]; congr 2; omega⟩
        split
        · exact List.mem_cons_of_mem _ hrest
        · exact hrest

theorem nodup_filterRefs (pred : Node → Bool) (base : Path) :
    ∀ (ns : List Node) (i : Nat), (filterRefs pred base ns i).Nodup
  | [], i => by simp [filterRefs]
  | n :: ns, i => by
    rw [filterRefs]
    have ih := nodup_filterRefs pred base ns (i + 1)
    split
    · refine List.nodup_cons.mpr ⟨?_, ih⟩
      intro hmem
      obtain ⟨j, m, _, _, h3⟩ := filterRefs_mem pred base ns (i + 1) _ hmem
      have := List.append_cancel_left h3
      simp only [List.cons.injEq, and_true] at this
      omega
    · exact ih

mutual
/-- The callback of the `forEach` of `findNodesAtDepth` appends to the
accumulator. -/
theorem findNodesAtDepth.visit_acc (depth : Option Nat) :
    ∀ (n : Node) (ref : Path) (acc : List Path),
      findNodesAtDepth.visit depth n ref acc = acc ++ findNodesAtDepth.visit depth n ref []
  | .mk f cs, ref, acc => by
    rw [findNodesAtDepth.visit, findNodesAtDepth.visit]
    split
    · rw [findNodesAtDepth.forEach_acc depth cs ref 0 (acc ++ _),
        findNodesAtDepth.forEach_acc depth cs ref 0 ([] ++ _)]
      simp
    · simp
/-- The `forEach` of `findNodesAtDepth` appends to the accumulator. -/
theorem findNodesAtDepth.forEach_acc (depth : Option Nat) :
    ∀ (ns : List Node) (base : Path) (i : Nat) (acc : List Path),
      findNodesAtDepth.forEach depth ns base i acc =
        acc ++ findNodesAtDepth.forEach depth ns base i []
  | [], base, i, acc => by simp [findNodesAtDepth.forEach]
  | a :: rest, base, i, acc => by
    rw [findNodesAtDepth.forEach, findNodesAtDepth.forEach,
      findNodesAtDepth.visit_acc depth a (base ++ [i]) acc,
      findNodesAtDepth.forEach_acc depth rest base (i + 1) (acc ++ _),
      findNodesAtDepth.forEach_acc depth rest base (i + 1)
        (findNodesAtDepth.visit depth a (base ++ [i]) [])]
    simp
end

/-- What `findNodesAtDepth` returns for an empty accumulator: the matches of
the array, then what the `forEach` adds. -/
theorem findNodesAtDepth_eq (depth : Option Nat) (ns : List Node) (base : Path) :
    findNodesAtDepth depth ns base [] =
      filterRefs (fun node => node.fields.depth == depth) base ns 0 ++
        findNodesAtDepth.forEach depth ns base 0 [] := by
  rw [findNodesAtDepth, findNodesAtDepth.forEach_acc]
  simp

/-- The callback of the `forEach` is the recursive call of `findNodesAtDepth`
on `node._children`. -/
theorem findNodesAtDepth.visit_depth_eq (depth : Option Nat) (n : Node) (ref : Path) :
    findNodesAtDepth.visit depth n ref [] = findNodesAtDepth depth n._children ref [] := by
  cases n with
  | mk f cs =>
    rw [findNodesAtDepth.visit]
    cases cs with
    | nil => simp [Node._children, findNodesAtDepth, filterRefs, findNodesAtDepth.forEach]
    | cons c cs => simp [Node._children, findNodesAtDepth]

theorem findNodesAtDepth.forEach_cons (depth : Option Nat) (a : Node) (rest : List Node)
    (base : Path) (i : Nat) :
    findNodesAtDepth.forEach depth (a :: rest) base i [] =
      findNodesAtDepth depth a._children (base ++ [i]) [] ++
        findNodesAtDepth.forEach depth rest base (i + 1) [] := by
  rw [findNodesAtDepth.forEach, findNodesAtDepth.forEach_acc, findNodesAtDepth.visit_depth_eq]

mutual
/-- The hits of `findNodesAtDepth` on the children of a node: exactly the
references to the nodes below it whose `depth` field is the target, each once. -/
theorem findNodesAtDepth.below_spec (depth : Option Nat) : ∀ (n : Node) (ref : Path),
    (∀ r : Path, r ∈ findNodesAtDepth depth n._children ref [] ↔
      ∃ (rel : Path) (m : Node), r = ref ++ rel ∧ get? n._children rel = some m ∧
        m.fields.depth = depth) ∧
    (findNodesAtDepth depth n._children ref []).Nodup
  | .mk f cs, ref => by
    obtain ⟨hM, hN⟩ := findNodesAtDepth.forEach_depth_spec depth cs ref 0
    simp only [Node._children]
    rw [findNodesAtDepth_eq]
    refine ⟨?_, ?_⟩
    · intro r
      rw [List.mem_append, mem_filterRefs, hM]
      constructor
      · rintro (⟨j, m, h1, h2, h3⟩ | ⟨j, rel, m, h1, h2, h3, h4⟩)
        · refine ⟨[j], m, by simpa using h3, ?_, by simpa using h2⟩
          rw [get?_cons, h1]
          simp [Node.sub?]
        · exact ⟨j :: rel, m, by simpa using h1, h3, h4⟩
      · rintro ⟨rel, m, h1, h2, h3⟩
        cases rel with
        | nil => simp [get?] at h2
        | cons j rel =>
          cases rel with
          | nil =>
            left
            refine ⟨j, m, ?_, by simpa using h3, by simpa using h1⟩
            rw [get?_cons] at h2
            cases hj : cs[j]? with
            | none => simp [hj] at h2
            | some c => simpa [hj, Node.sub?] using h2
          | cons k rel =>
            right
            exact ⟨j, k :: rel, m, by simpa using h1, by simp, h2, h3⟩
    · refine List.nodup_append.mpr ⟨nodup_filterRefs _ ref cs 0, hN, ?_⟩
      intro r hr1 hr2
      obtain ⟨j, m, _, _, h3⟩ := (mem_filterRefs _ ref cs 0 r).mp hr1
      obtain ⟨j2, rel, m2, h4, h5, _, _⟩ := (hM r).mp hr2
      rw [h3] at h4
      have := List.append_cancel_left h4
      simp only [List.cons.injEq] at this
      exact h5 this.2.symm
/-- The hits that the `forEach` adds: exactly the references to the nodes
strictly below the elements of the array whose `depth` field is the target,
each once. -/
theorem findNodesAtDepth.forEach_depth_spec (depth : Option Nat) :
    ∀ (ns : List Node) (base : Path) (i : Nat),
    (∀ r : Path, r ∈ findNodesAtDepth.forEach depth ns base i [] ↔
      ∃ (j : Nat) (rel : Path) (m : Node), r = base ++ (i + j) :: rel ∧ rel ≠ [] ∧
        get? ns (j :: rel) = some m ∧ m.fields.depth = depth) ∧
    (findNodesAtDepth.forEach depth ns base i []).Nodup
  | [], base, i => by simp [findNodesAtDepth.forEach, get?]
  | a :: rest, base, i => by
    obtain ⟨aM, aN⟩ := findNodesAtDepth.below_spec depth a (base ++ [i])
    obtain ⟨rM, rN⟩ := findNodesAtDepth.forEach_depth_spec depth rest base (i + 1)
    rw [findNodesAtDepth.forEach_cons]
    have hsub : ∀ (rel : Path) (m : Node), rel ≠ [] →
        (get? (a :: rest) (0 :: rel) = some m ↔ get? a._children rel = some m) := by
      intro rel m hrel
      cases a with
      | mk f cs =>
        cases rel with
        | nil => exact absurd rfl hrel
        | cons k rel => simp [get?_cons, Node.sub?_cons, Node._children]
    refine ⟨?_, ?_⟩
    · intro r
      rw [List.mem_append, aM, rM]
      constructor
      · rintro (⟨rel, m, h1, h2, h3⟩ | ⟨j, rel, m, h1, h2, h3, h4⟩)
        · have hrel : rel ≠ [] := by
            intro h
            subst h
            simp [get?] at h2
          exact ⟨0, rel, m, by simpa using h1, hrel, (hsub rel m hrel).mpr h2, h3⟩
        · refine ⟨j + 1, rel, m, by rw [h1]; congr 2; omega, h2, ?_, h4⟩
          rw [get?_cons] at h3 ⊢
          simpa using h3
      · rintro ⟨j, rel, m, h1, h2, h3, h4⟩
        cases j with
        | zero =>
          left
          exact ⟨rel, m, by simpa using h1, (hsub rel m h2).mp h3, h4⟩
        | succ j =>
          right
          refine ⟨j, rel, m, by rw [h1]; congr 2; omega, h2, ?_, h4⟩
          rw [get?_cons] at h3 ⊢
          simpa using h3
    · refine List.nodup_append.mpr ⟨aN, rN, ?_⟩
      intro r hr1 hr2
      obtain ⟨rel, m, h1, _, _⟩ := (aM r).mp hr1
      obtain ⟨j, rel2, m2, h4, _, _, _⟩ := (rM r).mp hr2
      rw [h1, List.append_assoc] at h4
      have := List.append_cancel_left h4
      simp only [List.singleton_append, List.cons.injEq] at this
      omega
end

/-- The hits of `findNodesAtDepth` on an array, for an empty accumulator. -/
theorem findNodesAtDepth_facts (depth : Option Nat) (ns : List Node) (base : Path) :
    (∀ r : Path, r ∈ findNodesAtDepth depth ns base [] ↔
      ∃ (rel : Path) (m : Node), r = base ++ rel ∧ get? ns rel = some m ∧
        m.fields.depth = depth) ∧
    (findNodesAtDepth depth ns base []).Nodup := by
  have h := findNodesAtDepth.below_spec depth
    (.mk ⟨"", none, none, [], "", false, none, none, .own⟩ ns) base
  simpa [Node._children] using h

/-- C12: `findNodesAtDepth(d, data, [])` returns the references to exactly the
nodes of the full tree, reached through `_children` whatever the collapsed
flags, whose `depth` field equals `d`: every such node is returned, no
reference is returned twice, and every returned reference leads to a node whose
`depth` field is `d`. -/
theorem findNodesAtDepth_spec (depth : Option Nat) (data : List Node) :
    (∀ (p : Path) (n : Node), get? data p = some n → n.fields.depth = depth →
      p ∈ findNodesAtDepth depth data [] []) ∧
    (findNodesAtDepth depth data [] []).Nodup ∧
    (∀ r ∈ findNodesAtDepth depth data [] [],
      ∃ n : Node, get? data r = some n ∧ n.fields.depth = depth) ∧
    (∀ (p : Path) (n : Node), get? data p = some n → n.fields.depth ≠ depth →
      p ∉ findNodesAtDepth depth data [] []) := by
  obtain ⟨hM, hN⟩ := findNodesAtDepth_facts depth data []
  refine ⟨?_, hN, ?_, ?_⟩
  · intro p n hp hd
    exact (hM p).mpr ⟨p, n, by simp, hp, hd⟩
  · intro r hr
    obtain ⟨rel, m, h1, h2, h3⟩ := (hM r).mp hr
    rw [List.nil_append] at h1
    exact ⟨m, by rw [h1]; exact h2, h3⟩
  · intro p n hp hd hmem
    obtain ⟨rel, m, h1, h2, h3⟩ := (hM p).mp hmem
    rw [List.nil_append] at h1
    rw [← h1, hp] at h2
    cases h2
    exact hd h3

/-- In the laid-out A(B(D), C) the nodes of depth 1 are B and C. -/
theorem findNodesAtDepth_spec_witness :
    findNodesAtDepth (some 1) exampleLaidOut [] [] = [[0, 0], [0, 1]] ∧
    [0, 1] ∈ findNodesAtDepth (some 1) exampleLaidOut [] [] :=
  ⟨by decide, (findNodesAtDepth_spec (some 1) exampleLaidOut).1 [0, 1] _ rfl (by decide)⟩

/-! ## Collapsing the neighbours of a node -/

/-- The fields at and below a collapsed position, whether the position holds
a node or not. -/
theorem get?_modifyAt_collapseNode_below (data : List Node) (r : Path) (hr : r ≠ [])
    (rel : Path) :
    (get? (modifyAt collapseNode r data) (r ++ rel)).map Node.fields =
      (get? data (r ++ rel)).map
        (fun m => { m.fields with _collapsed := true, _active := some false }) := by
  cases h : get? data r with
  | some n => exact get?_modifyAt_collapseNode data r n h rel
  | none =>
    rw [get?_modifyAt_append collapseNode data r rel hr, get?_append data r rel hr, h]
    rfl

/-- The fields of the nodes after a sequence of `collapseNode` calls: the two
flags are written at and below every collapsed position, and nothing else
changes. -/
theorem get?_foldl_collapseNode : ∀ (refs : List Path) (data : List Node) (q : Path),
    ((∃ r ∈ refs, r ≠ [] ∧ r <+: q) →
      (get? (refs.foldl (fun d r => modifyAt collapseNode r d) data) q).map Node.fields =
        (get? data q).map
          (fun m => { m.fields with _collapsed := true, _active := some false })) ∧
    ((∀ r ∈ refs, r = [] ∨ ¬ r <+: q) →
      (get? (refs.foldl (fun d r => modifyAt collapseNode r d) data) q).map Node.fields =
        (get? data q).map Node.fields)
  | [], data, q => by simp
  | r :: refs, data, q => by
    obtain ⟨ih1, ih2⟩ := get?_foldl_collapseNode refs (modifyAt collapseNode r data) q
    have hstep : r = [] ∨ ¬ r <+: q →
        (get? (modifyAt collapseNode r data) q).map Node.fields =
          (get? data q).map Node.fields := by
      rintro (h | h)
      · subst h; rfl
      · exact get?_modifyAt_fields collapseNode data r q h
    have hhit : r ≠ [] → r <+: q →
        (get? (modifyAt collapseNode r data) q).map Node.fields =
          (get? data q).map
            (fun m => { m.fields with _collapsed := true, _active := some false }) := by
      intro h1 h2
      obtain ⟨rel, rfl⟩ := h2
      exact get?_modifyAt_collapseNode_below data r h1 rel
    simp only [List.foldl_cons]
    refine ⟨?_, ?_⟩
    · intro hex
      by_cases hrest : ∃ r2 ∈ refs, r2 ≠ [] ∧ r2 <+: q
      · rw [ih1 hrest]
        by_cases hr : r ≠ [] ∧ r <+: q
        · have h := hhit hr.1 hr.2
          cases h1 : get? (modifyAt collapseNode r data) q with
          | none =>
            rw [h1] at h
            cases h2 : get? data q with
            | none => rfl
            | some m => rw [h2] at h; simp at h
          | some m1 =>
            rw [h1] at h
            cases h2 : get? data q with
            | none => rw [h2] at h; simp at h
            | some m =>
              rw [h2] at h
              simp only [Option.map_some', Option.some.injEq] at h ⊢
              rw [h]
        · have h := hstep (by
            by_cases h0 : r = []
            · exact Or.inl h0
            · exact Or.inr (fun hp => hr ⟨h0, hp⟩))
          cases h1 : get? (modifyAt collapseNode r data) q with
          | none =>
            rw [h1] at h
            cases h2 : get? data q with
            | none => rfl
            | some m => rw [h2] at h; simp at h
          | some m1 =>
            rw [h1] at h
            cases h2 : get? data q with
            | none => rw [h2] at h; simp at h
            | some m =>
              rw [h2] at h
              simp only [Option.map_some', Option.some.injEq] at h ⊢
              rw [h]
      · have hrest2 : ∀ r2 ∈ refs, r2 = [] ∨ ¬ r2 <+: q := by
          intro r2 hr2
          by_cases h0 : r2 = []
          · exact Or.inl h0
          · exact Or.inr (fun hp => hrest ⟨r2, hr2, h0, hp⟩)
        rw [ih2 hrest2]
        obtain ⟨r1, hr1, h1, h2⟩ := hex
        rcases List.mem_cons.mp hr1 with h | h
        · subst h
          exact hhit h1 h2
        · exact absurd ⟨r1, h, h1, h2⟩ hrest
    · intro hall
      rw [ih2 (fun r2 hr2 => hall r2 (List.mem_cons_of_mem _ hr2))]
      exact hstep (hall r (List.mem_cons_self _ _))

/-- A sequence of `collapseNode` calls keeps the number of children of every
node. -/
theorem get?_foldl_collapseNode_shape : ∀ (refs : List Path) (data : List Node) (q : Path),
    (get? (refs.foldl (fun d r => modifyAt collapseNode r d) data) q).map
        (fun x => x._children.length) =
      (get? data q).map (fun x => x._children.length)
  | [], data, q => rfl
  | r :: refs, data, q => by
    simp only [List.foldl_cons]
    rw [get?_foldl_collapseNode_shape refs (modifyAt collapseNode r data) q]
    exact get?_modifyAt_shape collapseNode collapseNode_shape data r q

theorem collapseNeighborNodes_eq (data : List Node) (t : Path) (target : Node)
    (ht : get? data t = some target) :
    collapseNeighborNodes t data =
      ((findNodesAtDepth target.fields.depth data [] []).filter fun ref =>
        match get? data ref with
        | some node => node.fields.id != target.fields.id
        | none => false).foldl (fun d r => modifyAt collapseNode r d) data := by
  simp only [collapseNeighborNodes, ht]

/-- With pairwise distinct ids and true depths, the neighbours that
`collapseNeighborNodes` collapses are the nodes at the depth of the target
other than the target. -/
theorem mem_neighbors (data : List Node) (hnd : (idsEach data).Nodup)
    (hdepth : ∀ (p : Path) (n : Node), get? data p = some n →
      n.fields.depth = some (p.length - 1))
    (t : Path) (target : Node) (ht : get? data t = some target) (r : Path) :
    r ∈ ((findNodesAtDepth target.fields.depth data [] []).filter fun ref =>
        match get? data ref with
        | some node => node.fields.id != target.fields.id
        | none => false) ↔
      (get? data r).isSome = true ∧ r.length = t.length ∧ r ≠ t := by
  obtain ⟨hM, _⟩ := findNodesAtDepth_facts target.fields.depth data []
  have htne : t ≠ [] := get?_ne_nil ht
  have htpos : 0 < t.length := List.length_pos.mpr htne
  rw [List.mem_filter, hM]
  constructor
  · rintro ⟨⟨rel, m, h1, h2, h3⟩, h4⟩
    rw [List.nil_append] at h1
    subst h1
    have hrpos : 0 < r.length := List.length_pos.mpr (get?_ne_nil h2)
    rw [h2] at h4
    rw [hdepth r m h2, hdepth t target ht] at h3
    simp only [Option.some.injEq] at h3
    refine ⟨by simp [h2], by omega, ?_⟩
    intro heq
    subst heq
    rw [ht] at h2
    cases h2
    simp at h4
  · rintro ⟨h1, h2, h3⟩
    cases hm : get? data r with
    | none => simp [hm] at h1
    | some m =>
      have hrpos : 0 < r.length := List.length_pos.mpr (get?_ne_nil hm)
      refine ⟨⟨r, m, by simp, hm, ?_⟩, ?_⟩
      · rw [hdepth r m hm, hdepth t target ht, h2]
      · simp only [bne_iff_ne, ne_eq]
        intro hid
        exact h3 (get?_inj_of_nodup data hnd r t m target hm ht hid)

/-- Two paths of one length, one a prefix of the other followed by more, are
the same up to that length. -/
theorem eq_of_prefix_append_of_length {r t : Path} {rel : Path} (h : r <+: t ++ rel)
    (hlen : r.length = t.length) : r = t := by
  have h2 : t <+: t ++ rel := List.prefix_append t rel
  exact List.prefix_of_prefix_length_le h h2 (le_of_eq hlen) |>.eq_of_length hlen

/-- C13: in a tree with pairwise distinct ids whose `depth` fields are the true
depths, after `collapseNeighborNodes(target, data)` every node at the depth of
the target other than the target, and every node below such a node, has
`_collapsed = true` and `_active = false` with its other fields as before;
the target, every node below the target and every node of smaller depth have
their fields unchanged; and every node keeps its number of `_children`. Hence
the target is the only node at its depth that is not marked collapsed by the
call. -/
theorem collapseNeighborNodes_spec (data : List Node) (hnd : (idsEach data).Nodup)
    (hdepth : ∀ (p : Path) (n : Node), get? data p = some n →
      n.fields.depth = some (p.length - 1))
    (t : Path) (target : Node) (ht : get? data t = some target) :
    (∀ (r rel : Path), r.length = t.length → r ≠ t →
      (get? (collapseNeighborNodes t data) (r ++ rel)).map Node.fields =
        (get? data (r ++ rel)).map
          (fun m => { m.fields with _collapsed := true, _active := some false })) ∧
    (∀ rel : Path, (get? (collapseNeighborNodes t data) (t ++ rel)).map Node.fields =
      (get? data (t ++ rel)).map Node.fields) ∧
    (∀ q : Path, q.length < t.length →
      (get? (collapseNeighborNodes t data) q).map Node.fields =
        (get? data q).map Node.fields) ∧
    (∀ q : Path, (get? (collapseNeighborNodes t data) q).map (fun x => x._children.length) =
      (get? data q).map (fun x => x._children.length)) := by
  rw [collapseNeighborNodes_eq data t target ht]
  have hmem := mem_neighbors data hnd hdepth t target ht
  have htne : t ≠ [] := get?_ne_nil ht
  have hframe : ∀ q : Path, (∀ r : Path, r.length = t.length → r ≠ t → ¬ r <+: q) →
      (get? (((findNodesAtDepth target.fields.depth data [] []).filter fun ref =>
        match get? data ref with
        | some node => node.fields.id != target.fields.id
        | none => false).foldl (fun d r => modifyAt collapseNode r d) data) q).map Node.fields =
        (get? data q).map Node.fields := by
    intro q hq
    apply (get?_foldl_collapseNode _ data q).2
    intro r hr
    obtain ⟨_, h2, h3⟩ := (hmem r).mp hr
    exact Or.inr (hq r h2 h3)
  refine ⟨?_, ?_, ?_, ?_⟩
  · intro r rel hlen hne
    by_cases hv : (get? data r).isSome = true
    · apply (get?_foldl_collapseNode _ data (r ++ rel)).1
      have hrne : r ≠ [] := by
        intro h
        subst h
        simp [get?] at hv
      exact ⟨r, (hmem r).mpr ⟨hv, hlen, hne⟩, hrne, List.prefix_append r rel⟩
    · have hrne : r ≠ [] := by
        intro h
        subst h
        exact htne (List.length_eq_zero.mp hlen.symm)
      have hnone : get? data (r ++ rel) = none := by
        rw [get?_append data r rel hrne]
        cases hg : get? data r with
        | none => rfl
        | some m => simp [hg] at hv
      rw [hnone]
      rw [(get?_foldl_collapseNode _ data (r ++ rel)).2, hnone]
      · rfl
      · intro r2 hr2
        obtain ⟨h1, h2, _⟩ := (hmem r2).mp hr2
        right
        intro hp
        have : r2 = r := eq_of_prefix_append_of_length hp (h2.trans hlen.symm)
        subst this
        exact hv h1
  · intro rel
    apply hframe
    intro r hlen hne hp
    exact hne (eq_of_prefix_append_of_length hp hlen)
  · intro q hq
    apply hframe
    intro r hlen _ hp
    have := List.IsPrefix.length_le hp
    omega
  · intro q
    exact get?_foldl_collapseNode_shape _ data q

/-! ## The first layout pass and the initial depth -/

theorem hierarchy.children_eq_map (props : Props) (depth : Nat) : ∀ cs : List Node,
    hierarchy.children props depth cs = cs.map (hierarchy props depth)
  | [] => by simp [hierarchy.children]
  | c :: cs => by simp [hierarchy.children, hierarchy.children_eq_map props depth cs]

theorem hierarchy_mk (props : Props) (depth : Nat) (f : Fields) (cs : List Node) :
    hierarchy props depth (.mk f cs) =
      if getNodeCollapsedState props (.mk f cs) || cs.length == 0 then
        .mk { f with depth := some depth, children := .own } cs
      else
        .mk { f with depth := some depth, children := .shared }
          (cs.map (hierarchy props (depth + 1))) := by
  rw [hierarchy, hierarchy.children_eq_map]

/-- The collapsed state of a node is read off fields that the layout pass does
not write. -/
theorem getNodeCollapsedState_congr (props : Props) (m1 m2 : Node)
    (h : ({ m1.fields with depth := none, children := ChildrenField.own } : Fields) =
      { m2.fields with depth := none, children := ChildrenField.own }) :
    getNodeCollapsedState props m1 = getNodeCollapsedState props m2 := by
  have h1 : m1.fields._collapsed = m2.fields._collapsed := by
    have := congrArg (fun x : Fields => x._collapsed) h
    simpa using this
  have h2 : m1.fields.ext = m2.fields.ext := by
    have := congrArg (fun x : Fields => x.ext) h
    simpa using this
  simp only [getNodeCollapsedState, h1, h2]

/-- The layout pass writes `depth` and `children` and nothing else, and keeps
every node where it is. -/
theorem hierarchy_sub? (props : Props) : ∀ (q : Path) (depth : Nat) (n : Node),
    ((hierarchy props depth n).sub? q).map
        (fun m => (({ m.fields with depth := none, children := ChildrenField.own } : Fields),
          m._children.length)) =
      (n.sub? q).map
        (fun m => (({ m.fields with depth := none, children := ChildrenField.own } : Fields),
          m._children.length))
  | [], depth, .mk f cs => by
    rw [hierarchy_mk]
    split <;> simp [Node.sub?, Node.fields, Node._children]
  | i :: rest, depth, .mk f cs => by
    rw [hierarchy_mk]
    split
    · simp [Node.sub?]
    · simp only [Node.sub?, List.getElem?_map]
      cases cs[i]? with
      | none => rfl
      | some c => exact hierarchy_sub? props rest (depth + 1) c

/-- On a tree in which no node reads as collapsed, the layout pass visits every
node and writes its true depth. -/
theorem hierarchy_depth (props : Props) : ∀ (q : Path) (depth : Nat) (n : Node),
    (∀ (r : Path) (m : Node), n.sub? r = some m → getNodeCollapsedState props m = false) →
    ((hierarchy props depth n).sub? q).map (fun m => m.fields.depth) =
      (n.sub? q).map (fun _ => some (depth + q.length))
  | [], depth, .mk f cs, _ => by
    rw [hierarchy_mk]
    split <;> simp [Node.sub?, Node.fields]
  | i :: rest, depth, .mk f cs, h => by
    rw [hierarchy_mk]
    have hroot : getNodeCollapsedState props (.mk f cs) = false := h [] _ rfl
    cases hi : cs[i]? with
    | none =>
      split
      · simp [Node.sub?, hi]
      · simp [Node.sub?, hi]
    | some c =>
      have hlen : cs.length ≠ 0 := by
        intro h0
        have := (List.getElem?_eq_some.mp hi).1
        omega
      rw [if_neg (by simp [hroot, hlen])]
      simp only [Node.sub?, List.getElem?_map, hi, Option.map_some']
      have hc : ∀ (r : Path) (m : Node), c.sub? r = some m →
          getNodeCollapsedState props m = false := by
        intro r m hm
        apply h (i :: r) m
        simp [Node.sub?, hi, hm]
      rw [hierarchy_depth props rest (depth + 1) c hc]
      cases c.sub? rest with
      | none => rfl
      | some m => simp; omega

/-- A position is in the layout's node list exactly when it holds a node and
no node strictly above it reads as collapsed. -/
theorem mem_treeNodes_iff (props : Props) : ∀ (q : Path) (n : Node),
    q ∈ treeNodes props n ↔
      (n.sub? q).isSome = true ∧
        ∀ (r : Path) (m : Node), r <+: q → r ≠ q → n.sub? r = some m →
          getNodeCollapsedState props m = false
  | [], n => by
    simp only [mem_treeNodes_nil, Node.sub?, Option.isSome_some, true_and, true_iff]
    intro r m hr hne
    exact absurd (List.prefix_nil.mp hr) hne
  | j :: rest, .mk f cs => by
    rw [mem_treeNodes_cons]
    constructor
    · rintro ⟨hc, c, hj, hrest⟩
      obtain ⟨h1, h2⟩ := (mem_treeNodes_iff props rest c).mp hrest
      refine ⟨by simpa [Node.sub?, hj] using h1, ?_⟩
      intro r m hr hne hm
      cases r with
      | nil =>
        simp only [Node.sub?, Option.some.injEq] at hm
        rw [← hm]
        exact hc
      | cons k r =>
        obtain ⟨hk, hr2⟩ := List.cons_prefix_cons.mp hr
        subst hk
        simp only [Node.sub?, hj] at hm
        exact h2 r m hr2 (fun h => hne (by rw [h])) hm
    · rintro ⟨h1, h2⟩
      have hc : getNodeCollapsedState props (.mk f cs) = false :=
        h2 [] _ List.nil_prefix (by simp) rfl
      cases hj : cs[j]? with
      | none => simp [Node.sub?, hj] at h1
      | some c =>
        refine ⟨hc, c, rfl, (mem_treeNodes_iff props rest c).mpr ⟨?_, ?_⟩⟩
        · simpa [Node.sub?, hj] using h1
        · intro r m hr hne hm
          apply h2 (j :: r) m ((List.prefix_cons_inj j).mpr hr) (by simpa using hne)
          simp [Node.sub?, hj, hm]

/-- A mutation that writes only scalar fields of the node it is given leaves
every node strictly below it as it was. -/
theorem Node.sub?_modifyAt_below (f : Node → Node)
    (hf : ∀ m : Node, (f m)._children = m._children) (p : Path) (j : Nat) (r : Path)
    (n : Node) : (n.modifyAt f p).sub? (p ++ j :: r) = n.sub? (p ++ j :: r) := by
  rw [Node.sub?_modifyAt_append, Node.sub?_append]
  cases n.sub? p with
  | none => rfl
  | some m =>
    have h := hf m
    cases m with
    | mk fl cs =>
      cases hfm : f (Node.mk fl cs) with
      | mk fl2 cs2 =>
        rw [hfm] at h
        simp only [Node._children] at h
        subst h
        simp [Node.sub?, hfm]

/-- The fields after one assignment of `setInitialTreeDepth`. -/
theorem sub?_modifyAt_setCollapsedByDepth (d : Nat) (p q : Path) (n : Node) :
    (q = p → ((n.modifyAt (setCollapsedByDepth d) p).sub? q).map Node.fields =
      ((n.sub? q).map Node.fields).map (capFields d)) ∧
    (q ≠ p → ((n.modifyAt (setCollapsedByDepth d) p).sub? q).map Node.fields =
      (n.sub? q).map Node.fields) := by
  refine ⟨?_, ?_⟩
  · intro h
    subst h
    have := Node.sub?_modifyAt_append (setCollapsedByDepth d) q [] n
    rw [List.append_nil] at this
    rw [this]
    cases n.sub? q with
    | none => rfl
    | some m => rfl
  · intro hne
    by_cases hp : p <+: q
    · obtain ⟨j, r, rfl⟩ := exists_of_prefix_ne hp hne
      rw [Node.sub?_modifyAt_below (setCollapsedByDepth d) (fun m => rfl)]
    · exact Node.sub?_modifyAt_fields (setCollapsedByDepth d) p q n hp

theorem capFields_idem (d : Nat) (f : Fields) : capFields d (capFields d f) = capFields d f := by
  simp [capFields]

/-- The fields after `setInitialTreeDepth`: the assignment is made at every
position of the node set and nowhere else. -/
theorem sub?_setInitialTreeDepth (d : Nat) : ∀ (nodeSet : List Path) (n : Node) (q : Path),
    (q ∈ nodeSet → ((setInitialTreeDepth nodeSet d n).sub? q).map Node.fields =
      ((n.sub? q).map Node.fields).map (capFields d)) ∧
    (q ∉ nodeSet → ((setInitialTreeDepth nodeSet d n).sub? q).map Node.fields =
      (n.sub? q).map Node.fields)
  | [], n, q => by simp [setInitialTreeDepth]
  | p :: rest, n, q => by
    obtain ⟨ih1, ih2⟩ :=
      sub?_setInitialTreeDepth d rest (n.modifyAt (setCollapsedByDepth d) p) q
    obtain ⟨s1, s2⟩ := sub?_modifyAt_setCollapsedByDepth d p q n
    have hunfold : setInitialTreeDepth (p :: rest) d n =
        setInitialTreeDepth rest d (n.modifyAt (setCollapsedByDepth d) p) := by
      simp [setInitialTreeDepth]
    rw [hunfold]
    refine ⟨?_, ?_⟩
    · intro hq
      by_cases hrest : q ∈ rest
      · rw [ih1 hrest]
        by_cases hqp : q = p
        · rw [s1 hqp, Option.map_map]
          congr 1
        · rw [s2 hqp]
      · rw [ih2 hrest]
        rcases List.mem_cons.mp hq with h | h
        · exact s1 h
        · exact absurd h hrest
    · intro hq
      rw [ih2 (fun h => hq (List.mem_cons_of_mem _ h))]
      exact s2 (fun h => hq (by rw [h]; exact List.mem_cons_self _ _))

/-- Two optional values with equal images are both absent, or both present
with equal images. -/
theorem map_eq_map_cases {α β γ : Type} (x : Option α) (y : Option β) (f : α → γ) (g : β → γ)
    (h : x.map f = y.map g) :
    (x = none ∧ y = none) ∨ ∃ (a : α) (b : β), x = some a ∧ y = some b ∧ f a = g b := by
  cases x with
  | none =>
    cases y with
    | none => exact Or.inl ⟨rfl, rfl⟩
    | some b => simp at h
  | some a =>
    cases y with
    | none => simp at h
    | some b =>
      simp only [Option.map_some', Option.some.injEq] at h
      exact Or.inr ⟨a, b, rfl, rfl, h⟩

theorem setCollapsedByDepth_shape (d : Nat) (m : Node) (q : Path) :
    ((setCollapsedByDepth d m).sub? q).map (fun x => x._children.length) =
      (m.sub? q).map (fun x => x._children.length) := by
  cases m with
  | mk fl cs =>
    cases q with
    | nil => rfl
    | cons j r => rfl

/-- The method `setInitialTreeDepth` keeps the number of children of every
node. -/
theorem sub?_setInitialTreeDepth_shape (d : Nat) : ∀ (nodeSet : List Path) (n : Node) (q : Path),
    ((setInitialTreeDepth nodeSet d n).sub? q).map (fun x => x._children.length) =
      (n.sub? q).map (fun x => x._children.length)
  | [], n, q => rfl
  | p :: rest, n, q => by
    have hunfold : setInitialTreeDepth (p :: rest) d n =
        setInitialTreeDepth rest d (n.modifyAt (setCollapsedByDepth d) p) := by
      simp [setInitialTreeDepth]
    rw [hunfold, sub?_setInitialTreeDepth_shape d rest _ q]
    exact Node.sub?_modifyAt_shape (setCollapsedByDepth d) (setCollapsedByDepth_shape d) p q n

/-- A position above a position that holds a node holds a node. -/
theorem Node.sub?_isSome_of_append (n : Node) (p rel : Path)
    (h : (n.sub? (p ++ rel)).isSome = true) : (n.sub? p).isSome = true := by
  rw [Node.sub?_append] at h
  cases hp : n.sub? p with
  | none => simp [hp] at h
  | some m => rfl

/-- The tree after the first pass, the cap and the second pass, on a tree in
which no node was collapsed: a node is collapsed exactly from the cap depth
on, and id, name, attributes and number of children are as before. -/
theorem capped_facts (props : Props) (hext : props.externalCollapse = none) (d : Nat)
    (rootNode : Node)
    (hfresh : ∀ (q : Path) (m : Node), rootNode.sub? q = some m → m.fields._collapsed = false)
    (q : Path) :
    ((hierarchy props 0 (setInitialTreeDepth (treeNodes props (hierarchy props 0 rootNode)) d
        (hierarchy props 0 rootNode))).sub? q).map
      (fun m => (m.fields._collapsed, m.fields.id, m.fields.name, m.fields.attributes,
        m._children.length)) =
    (rootNode.sub? q).map
      (fun m => (decide (d ≤ q.length), m.fields.id, m.fields.name, m.fields.attributes,
        m._children.length)) := by
  have hstate : ∀ m : Node, getNodeCollapsedState props m = m.fields._collapsed := by
    intro m
    simp [getNodeCollapsedState, hext]
  have hfresh2 : ∀ (r : Path) (m : Node), rootNode.sub? r = some m →
      getNodeCollapsedState props m = false := by
    intro r m hm
    rw [hstate]
    exact hfresh r m hm
  -- the first pass
  have h1 := hierarchy_sub? props q 0 rootNode
  have h1d := hierarchy_depth props q 0 rootNode hfresh2
  have hall1 : ∀ (r : Path) (m : Node), (hierarchy props 0 rootNode).sub? r = some m →
      getNodeCollapsedState props m = false := by
    intro r m hm
    rcases map_eq_map_cases _ _ _ _ (hierarchy_sub? props r 0 rootNode) with ⟨hx, _⟩ | ⟨a, b, ha, hb, hab⟩
    · rw [hx] at hm; cases hm
    · rw [ha] at hm
      cases hm
      rw [hstate, ← hfresh r b hb]
      have := congrArg (fun x : Fields × Nat => x.1._collapsed) hab
      simpa using this
  -- the cap
  have h2 : ((setInitialTreeDepth (treeNodes props (hierarchy props 0 rootNode)) d
      (hierarchy props 0 rootNode)).sub? q).map Node.fields =
      (((hierarchy props 0 rootNode).sub? q).map Node.fields).map (capFields d) := by
    by_cases hq : q ∈ treeNodes props (hierarchy props 0 rootNode)
    · exact (sub?_setInitialTreeDepth d _ _ q).1 hq
    · rw [(sub?_setInitialTreeDepth d _ _ q).2 hq]
      have hnone : (hierarchy props 0 rootNode).sub? q = none := by
        cases hs : (hierarchy props 0 rootNode).sub? q with
        | none => rfl
        | some m =>
          exfalso
          apply hq
          rw [mem_treeNodes_iff]
          exact ⟨by simp [hs], fun r m2 _ _ hm2 => hall1 r m2 hm2⟩
      rw [hnone]
      rfl
  have h2s := sub?_setInitialTreeDepth_shape d (treeNodes props (hierarchy props 0 rootNode))
    (hierarchy props 0 rootNode) q
  -- the second pass
  have h3 := hierarchy_sub? props q 0
    (setInitialTreeDepth (treeNodes props (hierarchy props 0 rootNode)) d
      (hierarchy props 0 rootNode))
  cases h0 : rootNode.sub? q with
  | none =>
    rw [h0] at h1
    have e1 : (hierarchy props 0 rootNode).sub? q = none := by
      simpa using h1
    rw [e1] at h2
    have e2 : (setInitialTreeDepth (treeNodes props (hierarchy props 0 rootNode)) d
        (hierarchy props 0 rootNode)).sub? q = none := by
      simpa using h2
    rw [e2] at h3
    have e3 : (hierarchy props 0 (setInitialTreeDepth (treeNodes props (hierarchy props 0
        rootNode)) d (hierarchy props 0 rootNode))).sub? q = none := by
      simpa using h3
    rw [e3]
    rfl
  | some m0 =>
    rw [h0] at h1 h1d
    rcases map_eq_map_cases _ _ _ _ h1 with ⟨_, hy⟩ | ⟨m1, b, e1, hb, hab1⟩
    · cases hy
    · cases hb
      rw [e1] at h2 h2s h1d
      simp only [Option.map_some', zero_add, Option.some.injEq] at h1d
      rcases map_eq_map_cases _ _ _ _ h2 with ⟨_, hy⟩ | ⟨m2, f1, e2, hf1, hab2⟩
      · cases hy
      · cases hf1
        rw [e2] at h3 h2s
        simp only [Option.map_some', Option.some.injEq] at h2s
        rcases map_eq_map_cases _ _ _ _ h3 with ⟨_, hy⟩ | ⟨m3, b2, e3, hb2, hab3⟩
        · cases hy
        · cases hb2
          rw [e3]
          simp only [Option.map_some', Option.some.injEq]
          have k1 := congrArg (fun x : Fields × Nat =>
            (x.1._collapsed, x.1.id, x.1.name, x.1.attributes, x.2)) hab3
          have k2 := congrArg (fun x : Fields × Nat =>
            (x.1.id, x.1.name, x.1.attributes, x.2)) hab1
          simp only at k1 k2
          rw [k1, hab2]
          simp only [capFields, h1d, ge_iff_le, Prod.mk.injEq, true_and]
          simp only [Prod.mk.injEq] at k2
          refine ⟨k2.1, k2.2.1, k2.2.2.1, ?_⟩
          rw [h2s]
          exact k2.2.2.2

/-- C19: with no external collapse binding and no auto-expand selector, on a
tree in which no node is collapsed (a freshly assigned one) and with the
initial-depth cap `d`, the first layout pass of `generateTree` returns; it
leaves a node collapsed exactly when its depth is at least `d`; its node list
holds exactly the positions of depth at most `d`; and every node is still in
the data, with its id, name, attributes and number of children. -/
theorem generateTree_initialDepth (props : Props) (fuel : Nat) (internalState : InternalState)
    (rootNode : Node) (rest : List Node) (d : Nat)
    (hext : props.externalCollapse = none) (hsel : props.shouldAutoExpandChildren = none)
    (hd : props.initialDepth = some d) (hfirst : internalState.initialRender = true)
    (hfresh : ∀ (q : Path) (m : Node), rootNode.sub? q = some m → m.fields._collapsed = false) :
    ∃ (capped : Node) (nodes : List Path),
      generateTree props fuel internalState (rootNode :: rest) = .ok (capped :: rest, nodes) ∧
      (∀ (q : Path) (m : Node), capped.sub? q = some m →
        (m.fields._collapsed = true ↔ d ≤ q.length)) ∧
      (∀ q : Path, q ∈ nodes ↔ (rootNode.sub? q).isSome = true ∧ q.length ≤ d) ∧
      (∀ q : Path,
        (capped.sub? q).map
            (fun m => (m.fields.id, m.fields.name, m.fields.attributes, m._children.length)) =
          (rootNode.sub? q).map
            (fun m => (m.fields.id, m.fields.name, m.fields.attributes, m._children.length))) := by
  have hfacts := capped_facts props hext d rootNode hfresh
  have hstate : ∀ m : Node, getNodeCollapsedState props m = m.fields._collapsed := by
    intro m
    simp [getNodeCollapsedState, hext]
  have hcol : ∀ (q : Path) (m : Node),
      (hierarchy props 0 (setInitialTreeDepth (treeNodes props (hierarchy props 0 rootNode)) d
        (hierarchy props 0 rootNode))).sub? q = some m →
      m.fields._collapsed = decide (d ≤ q.length) := by
    intro q m hm
    have h := hfacts q
    rw [hm] at h
    rcases map_eq_map_cases _ _ _ _ h with ⟨hx, _⟩ | ⟨a, b, ha, _, hab⟩
    · cases hx
    · cases ha
      exact congrArg Prod.fst hab
  have hsome : ∀ q : Path,
      ((hierarchy props 0 (setInitialTreeDepth (treeNodes props (hierarchy props 0 rootNode)) d
        (hierarchy props 0 rootNode))).sub? q).isSome = (rootNode.sub? q).isSome := by
    intro q
    have h := congrArg Option.isSome (hfacts q)
    simpa using h
  refine ⟨hierarchy props 0 (setInitialTreeDepth (treeNodes props (hierarchy props 0 rootNode)) d
      (hierarchy props 0 rootNode)),
    treeNodes props (hierarchy props 0 (setInitialTreeDepth
      (treeNodes props (hierarchy props 0 rootNode)) d (hierarchy props 0 rootNode))),
    ?_, ?_, ?_, ?_⟩
  · simp only [generateTree, hd, hfirst, hsel, Bool.true_or, if_true]
  · intro q m hm
    rw [hcol q m hm]
    simp
  · intro q
    rw [mem_treeNodes_iff, hsome]
    constructor
    · rintro ⟨h1, h2⟩
      refine ⟨h1, ?_⟩
      by_contra hlt
      have hqne : q ≠ [] := by
        intro h
        subst h
        simp at hlt
      have hsplit : q = q.dropLast ++ [q.getLast hqne] := (List.dropLast_append_getLast hqne).symm
      have hvalid : ((hierarchy props 0 (setInitialTreeDepth (treeNodes props
          (hierarchy props 0 rootNode)) d (hierarchy props 0 rootNode))).sub? q.dropLast).isSome
          = true := by
        apply Node.sub?_isSome_of_append _ q.dropLast [q.getLast hqne]
        rw [← hsplit, hsome]
        exact h1
      cases hm : (hierarchy props 0 (setInitialTreeDepth (treeNodes props
          (hierarchy props 0 rootNode)) d (hierarchy props 0 rootNode))).sub? q.dropLast with
      | none => simp [hm] at hvalid
      | some m =>
        have hpre : q.dropLast <+: q := List.dropLast_prefix q
        have hne : q.dropLast ≠ q := by
          intro h
          have := congrArg List.length h
          rw [List.length_dropLast] at this
          have := List.length_pos.mpr hqne
          omega
        have hfalse := h2 q.dropLast m hpre hne hm
        rw [hstate, hcol _ m hm] at hfalse
        simp only [decide_eq_false_iff_not, not_le, List.length_dropLast] at hfalse
        omega
    · rintro ⟨h1, h2⟩
      refine ⟨h1, ?_⟩
      intro r m hr hne hm
      rw [hstate, hcol r m hm]
      simp only [decide_eq_false_iff_not, not_le]
      have hle := List.IsPrefix.length_le hr
      have hlt : r.length ≠ q.length := by
        intro h
        exact hne (List.IsPrefix.eq_of_length hr h)
      omega
  · intro q
    have h := congrArg (Option.map (fun x : Bool × String × String ×
      Option (List (String × String)) × Nat => x.2)) (hfacts q)
    simpa [Option.map_map, Function.comp] using h

/-- No node of the example tree is collapsed. -/
theorem exampleRoot_fresh (q : Path) (m : Node) (h : exampleRoot.sub? q = some m) :
    m.fields._collapsed = false := by
  obtain ⟨r, k, hm⟩ := assignNode_sub exampleUuid q exampleRaw 0 m h
  rw [hm]
  exact (assignNode_fields exampleUuid r k).1

/-- After a layout pass over a tree in which no node reads as collapsed, the
`depth` fields are the true depths. -/
theorem get?_hierarchy_depth (props : Props) (root : Node)
    (hall : ∀ (r : Path) (m : Node), root.sub? r = some m →
      getNodeCollapsedState props m = false)
    (p : Path) (n : Node) (h : get? [hierarchy props 0 root] p = some n) :
    n.fields.depth = some (p.length - 1) := by
  cases p with
  | nil => simp [get?] at h
  | cons i q =>
    cases i with
    | succ i => simp [get?_cons] at h
    | zero =>
      have hq : (hierarchy props 0 root).sub? q = some n := by simpa [get?_cons] using h
      have hd := hierarchy_depth props q 0 root hall
      rw [hq] at hd
      rcases map_eq_map_cases _ _ _ _ hd with ⟨hx, _⟩ | ⟨a, b, ha, _, hab⟩
      · cases hx
      · cases ha
        simpa using hab

/-- The three-level tree A(B(D), C) with the initial depth 1: the first pass
lists A, B and C, and D stays in the data without being listed. -/
theorem generateTree_initialDepth_witness :
    examplePropsCapped.externalCollapse = none ∧
    (generateTree examplePropsCapped 0 exampleFirstRender exampleData).toOption.map Prod.snd
      = some [[], [0], [1]] ∧
    (∃ (capped : Node) (nodes : List Path),
      generateTree examplePropsCapped 0 exampleFirstRender exampleData = .ok ([capped], nodes) ∧
      [0, 0] ∉ nodes ∧ (capped.sub? [0, 0]).isSome = true) := by
  obtain ⟨capped, nodes, h1, _, h3, h4⟩ :=
    generateTree_initialDepth examplePropsCapped 0 exampleFirstRender exampleRoot [] 1
      rfl rfl rfl rfl exampleRoot_fresh
  refine ⟨rfl, by decide, capped, nodes, h1, ?_, ?_⟩
  · intro hmem
    have := ((h3 [0, 0]).mp hmem).2
    simp at this
  · have h := congrArg Option.isSome (h4 [0, 0])
    simp only [Option.isSome_map'] at h
    rw [h]
    decide

/-- In the laid-out A(B(D), C), collapsing the neighbours of C collapses B and
D and leaves A and C as they were. -/
theorem collapseNeighborNodes_spec_witness :
    (idsEach exampleLaidOut).Nodup ∧
    (get? exampleLaidOut [0, 1]).isSome = true ∧
    (get? (collapseNeighborNodes [0, 1] exampleLaidOut) [0, 0, 0]).map
        (fun m => (m.fields._collapsed, m.fields._active)) = some (true, some false) ∧
    (get? (collapseNeighborNodes [0, 1] exampleLaidOut) [0, 1]).map Node.fields =
        (get? exampleLaidOut [0, 1]).map Node.fields := by
  have hdepth : ∀ (p : Path) (n : Node), get? exampleLaidOut p = some n →
      n.fields.depth = some (p.length - 1) :=
    get?_hierarchy_depth defaultProps exampleRoot
      (fun r m hm => by
        simp only [getNodeCollapsedState, defaultProps]
        exact exampleRoot_fresh r m hm)
  have h := collapseNeighborNodes_spec exampleLaidOut (by decide) hdepth [0, 1] _ rfl
  refine ⟨by decide, by decide, ?_, h.2.1 []⟩
  have h1 := congrArg (Option.map (fun f : Fields => (f._collapsed, f._active)))
    (h.1 [0, 0] [0] (by decide) (by decide))
  rw [Option.map_map, Option.map_map] at h1
  exact h1.trans (by decide)

/-! ## Auto-expand -/

theorem get?_modifyAt_self (f : Node → Node) (data : List Node) (p : Path) (n : Node)
    (h : get? data p = some n) : get? (modifyAt f p data) p = some (f n) := by
  have := get?_modifyAt_append f data p [] (get?_ne_nil h)
  simpa [h, Node.sub?] using this

theorem modify_congr {α : Type} (f g : α → α) : ∀ (l : List α) (i : Nat),
    (∀ a, l[i]? = some a → f a = g a) → l.modify f i = l.modify g i
  | [], i, _ => by simp
  | a :: l, 0, h => by
    simp only [List.modify_zero_cons]
    rw [h a (by simp)]
  | a :: l, i + 1, h => by
    simp only [List.modify_succ_cons]
    rw [modify_congr f g l i (fun b hb => h b (by simpa using hb))]

/-- Two mutations that agree on the node at the position give the same tree. -/
theorem Node.modifyAt_agree (f g : Node → Node) : ∀ (p : Path) (n : Node),
    (∀ m, n.sub? p = some m → f m = g m) → n.modifyAt f p = n.modifyAt g p
  | [], n, h => by
    simp only [Node.modifyAt]
    exact h n (by simp [Node.sub?])
  | i :: rest, .mk fl cs, h => by
    simp only [Node.modifyAt]
    rw [modify_congr _ _ cs i]
    intro c hc
    apply Node.modifyAt_agree f g rest c
    intro m hm
    apply h m
    simp [Node.sub?, hc, hm]

theorem modifyAt_congr (f g : Node → Node) (data : List Node) (p : Path)
    (h : ∀ m, get? data p = some m → f m = g m) : modifyAt f p data = modifyAt g p data := by
  cases p with
  | nil => rfl
  | cons i rest =>
    simp only [modifyAt]
    apply modify_congr
    intro c hc
    apply Node.modifyAt_agree f g rest c
    intro m hm
    apply h m
    simp [get?_cons, hc, hm]

/-- Two mutations of the same node, one after the other, are one mutation. -/
theorem Node.modifyAt_twice (f g : Node → Node) : ∀ (p : Path) (n : Node),
    (n.modifyAt g p).modifyAt f p = n.modifyAt (f ∘ g) p
  | [], n => rfl
  | i :: rest, .mk fl cs => by
    simp only [Node.modifyAt, List.modify_modify_eq]
    congr 1
    apply modify_congr
    intro c _
    exact Node.modifyAt_twice f g rest c

theorem modifyAt_modifyAt (f g : Node → Node) (data : List Node) (p : Path) :
    modifyAt f p (modifyAt g p data) = modifyAt (f ∘ g) p data := by
  cases p with
  | nil => rfl
  | cons i rest =>
    simp only [modifyAt, List.modify_modify_eq]
    apply modify_congr
    intro c _
    exact Node.modifyAt_twice f g rest c

/-- A mutation further down is a mutation of the node on the way. -/
theorem Node.modifyAt_along (f : Node → Node) : ∀ (p q : Path) (n : Node),
    n.modifyAt f (p ++ q) = n.modifyAt (Node.modifyAt f q) p
  | [], q, n => rfl
  | i :: rest, q, .mk fl cs => by
    simp only [List.cons_append, Node.modifyAt]
    congr 1
    apply modify_congr
    intro c _
    exact Node.modifyAt_along f rest q c

theorem modifyAt_append (f : Node → Node) (data : List Node) (p q : Path) (hp : p ≠ []) :
    modifyAt f (p ++ q) data = modifyAt (Node.modifyAt f q) p data := by
  cases p with
  | nil => exact absurd rfl hp
  | cons i rest =>
    simp only [List.cons_append, modifyAt]
    apply modify_congr
    intro c _
    exact Node.modifyAt_along f rest q c

theorem Node.modifyAt_same : ∀ (p : Path) (n : Node), n.modifyAt (fun m => m) p = n
  | [], n => rfl
  | i :: rest, .mk fl cs => by
    simp only [Node.modifyAt]
    congr 1
    rw [modify_congr _ id cs i (fun c _ => Node.modifyAt_same rest c)]
    exact List.modify_id i cs

theorem modifyAt_id (data : List Node) (p : Path) : modifyAt (fun m => m) p data = data := by
  cases p with
  | nil => rfl
  | cons i rest =>
    simp only [modifyAt]
    rw [modify_congr _ id data i (fun c _ => Node.modifyAt_same rest c)]
    exact List.modify_id i data

theorem markNodeActive_idem (n : Node) : markNodeActive (markNodeActive n) = markNodeActive n := by
  cases n with
  | mk f cs => rfl

theorem expandNode_markNodeActive (n : Node) :
    markNodeActive (expandNode n) = expandNode (markNodeActive n) := by
  cases n with
  | mk f cs => rfl

theorem markAlong_markNodeActive : ∀ (path : Path) (n : Node),
    markAlong path (markNodeActive n) = markAlong path n
  | [], n => by simp [markAlong, markNodeActive_idem]
  | j :: rest, n => by simp [markAlong, markNodeActive_idem]

theorem selectedPath.from_eq (selector : Node → Option Path) : ∀ (cs : List Node) (j : Nat),
    selectedPath.from selector cs j =
      match cs[j]? with
      | some c => c.selectedPath selector
      | none => []
  | [], j => by simp [selectedPath.from]
  | c :: cs, 0 => by simp [selectedPath.from]
  | c :: cs, j + 1 => by
    rw [selectedPath.from, selectedPath.from_eq selector cs j]
    simp

theorem selectedPath_markNodeActive (selector : Node → Option Path) (n : Node) :
    (markNodeActive n).selectedPath selector = n.selectedPath selector := by
  cases n with
  | mk f cs =>
    simp only [markNodeActive, Node.fields, Node._children]
    rw [Node.selectedPath, Node.selectedPath]
    rfl

/-- The path below a node that has children, for a selector that names a child
of every such node: the child named for the node, then the path below it. -/
theorem selectedPath_of_children (selector : Node → Option Path)
    (hsel : ∀ n : Node, n._children.length > 0 →
      ∃ j : Nat, selector n = some [j] ∧ j < n._children.length)
    (n : Node) (h : n._children.length > 0) :
    ∃ (j : Nat) (c : Node), selector (expandNode (markNodeActive n)) = some [j] ∧
      n._children[j]? = some c ∧ n.selectedPath selector = j :: c.selectedPath selector := by
  cases n with
  | mk f cs =>
    obtain ⟨j, hj, hlt⟩ := hsel (expandNode (markNodeActive (.mk f cs))) h
    have hlt2 : j < cs.length := hlt
    refine ⟨j, cs[j], hj, List.getElem?_eq_getElem hlt2, ?_⟩
    rw [Node.selectedPath]
    simp only [Node._children] at h
    rw [if_pos h, hj]
    simp only
    rw [selectedPath.from_eq, List.getElem?_eq_getElem hlt2]

theorem selectedPath_of_leaf (selector : Node → Option Path) (n : Node)
    (h : ¬ n._children.length > 0) : n.selectedPath selector = [] := by
  cases n with
  | mk f cs =>
    rw [Node.selectedPath]
    simp only [Node._children] at h
    rw [if_neg h]

/-- The loop of `autoExpand`, entered at a node that is marked active, with a
selector that names a child of every node that has children and with more fuel
than the path is long: it returns, and what it leaves is `markAlong`. -/
theorem autoExpand.loop_ok (selector : Node → Option Path)
    (hsel : ∀ n : Node, n._children.length > 0 →
      ∃ j : Nat, selector n = some [j] ∧ j < n._children.length) :
    ∀ (fuel : Nat) (data : List Node) (cur : Path) (n : Node),
      get? data cur = some n → markNodeActive n = n →
      (n.selectedPath selector).length < fuel →
      autoExpand.loop selector fuel data cur =
        .ok (modifyAt (markAlong (n.selectedPath selector)) cur data)
  | 0, _, _, _, _, _, hfuel => absurd hfuel (Nat.not_lt_zero _)
  | fuel + 1, data, cur, n, hn, hmark, hfuel => by
    have hcur : cur ≠ [] := get?_ne_nil hn
    rw [autoExpand.loop, hn]
    simp only
    by_cases hkids : n._children.length > 0
    · rw [if_pos hkids]
      obtain ⟨j, c, hj, hc, hpath⟩ := selectedPath_of_children selector hsel n hkids
      rw [hmark] at hj
      have h1 : get? (modifyAt expandNode cur data) cur = some (expandNode n) :=
        get?_modifyAt_self expandNode data cur n hn
      have hchild : get? (modifyAt expandNode cur data) (cur ++ [j]) = some c := by
        rw [get?_append _ cur [j] hcur, h1]
        cases n with
        | mk f cs =>
          simp only [Node._children] at hc
          simp [expandNode, Node.sub?, Node._children, hc]
      have hselect : selectChild selector (modifyAt expandNode cur data) cur
          = some (cur ++ [j]) := by
        simp [selectChild, h1, hj, hchild]
      simp only [hselect]
      have hnext : get? (modifyAt markNodeActive (cur ++ [j]) (modifyAt expandNode cur data))
          (cur ++ [j]) = some (markNodeActive c) :=
        get?_modifyAt_self markNodeActive _ _ c hchild
      have hlen : ((markNodeActive c).selectedPath selector).length < fuel := by
        rw [selectedPath_markNodeActive]
        rw [hpath] at hfuel
        simpa using hfuel
      rw [autoExpand.loop_ok selector hsel fuel _ (cur ++ [j]) (markNodeActive c) hnext
        (markNodeActive_idem c) hlen]
      congr 1
      rw [selectedPath_markNodeActive, modifyAt_modifyAt, modifyAt_append _ _ cur [j] hcur,
        modifyAt_modifyAt, hpath]
      apply modifyAt_congr
      intro m hm
      rw [hn] at hm
      cases hm
      simp only [Function.comp, markAlong, hmark]
      congr 1
      funext x
      exact markAlong_markNodeActive _ x
    · rw [if_neg hkids, selectedPath_of_leaf selector n hkids]
      congr 1
      rw [modifyAt_congr (markAlong []) (fun m => m) data cur, modifyAt_id]
      intro m hm
      rw [hn] at hm
      cases hm
      exact hmark

/-- The method `autoExpand` on a node with children, with a selector that names
a child of every node that has children and with at least as much fuel as the
path is long: it returns, and what it leaves is `markAlong`. -/
theorem autoExpand_ok (selector : Node → Option Path)
    (hsel : ∀ n : Node, n._children.length > 0 →
      ∃ j : Nat, selector n = some [j] ∧ j < n._children.length)
    (fuel : Nat) (data : List Node) (node : Path) (start : Node)
    (h : get? data node = some start) (hkids : start._children.length > 0)
    (hfuel : (start.selectedPath selector).length ≤ fuel) :
    autoExpand selector fuel data node =
      .ok (modifyAt (markAlong (start.selectedPath selector)) node data) := by
  have hnode : node ≠ [] := get?_ne_nil h
  obtain ⟨j, c, hj, hc, hpath⟩ := selectedPath_of_children selector hsel start hkids
  rw [autoExpand, h]
  simp only
  rw [if_neg (by omega)]
  have h1 : get? (modifyAt markNodeActive node (modifyAt expandNode node data)) node =
      some (markNodeActive (expandNode start)) :=
    get?_modifyAt_self markNodeActive _ node _ (get?_modifyAt_self expandNode data node start h)
  have hchild : get? (modifyAt markNodeActive node (modifyAt expandNode node data))
      (node ++ [j]) = some c := by
    rw [get?_append _ node [j] hnode, h1]
    cases start with
    | mk f cs =>
      simp only [Node._children] at hc
      simp [expandNode, markNodeActive, Node.sub?, Node._children, hc]
  have hselect : selectChild selector
      (modifyAt markNodeActive node (modifyAt expandNode node data)) node
      = some (node ++ [j]) := by
    rw [← expandNode_markNodeActive] at hj
    simp [selectChild, h1, hj, hchild]
  simp only [hselect]
  have hnext : get? (modifyAt markNodeActive (node ++ [j])
      (modifyAt markNodeActive node (modifyAt expandNode node data))) (node ++ [j])
      = some (markNodeActive c) :=
    get?_modifyAt_self markNodeActive _ _ c hchild
  have hlen : ((markNodeActive c).selectedPath selector).length < fuel := by
    rw [selectedPath_markNodeActive]
    rw [hpath] at hfuel
    simpa using hfuel
  rw [autoExpand.loop_ok selector hsel fuel _ (node ++ [j]) (markNodeActive c) hnext
    (markNodeActive_idem c) hlen]
  congr 1
  rw [selectedPath_markNodeActive, modifyAt_modifyAt, modifyAt_append _ _ node [j] hnode,
    modifyAt_modifyAt, modifyAt_modifyAt, hpath]
  apply modifyAt_congr
  intro m hm
  simp only [Function.comp, markAlong, expandNode_markNodeActive]
  congr 1
  funext x
  exact markAlong_markNodeActive _ x

mutual
/-- The path that `autoExpand` follows below a node is no longer than the node
is high. -/
theorem selectedPath_length_le (selector : Node → Option Path) : ∀ n : Node,
    (n.selectedPath selector).length ≤ n.height
  | .mk f cs => by
    rw [Node.selectedPath, Node.height]
    split
    · split
      · rename_i j _
        simp only [List.length_cons]
        exact selectedPath.from_length_lt selector cs j (by assumption)
      · simp
    · simp
/-- The path below an element of a non-empty array is shorter than the height
of the array. -/
theorem selectedPath.from_length_lt (selector : Node → Option Path) :
    ∀ (cs : List Node) (j : Nat), cs.length > 0 →
      (selectedPath.from selector cs j).length + 1 ≤ heightEach cs
  | [], _, h => by simp at h
  | c :: cs, 0, _ => by
    rw [selectedPath.from, heightEach]
    have := selectedPath_length_le selector c
    omega
  | c :: cs, j + 1, _ => by
    rw [selectedPath.from, heightEach]
    cases cs with
    | nil =>
      simp [selectedPath.from]
    | cons d ds =>
      have := selectedPath.from_length_lt selector (d :: ds) j (by simp)
      omega
end

theorem Node.modifyAt_single (g : Node → Node) (j : Nat) (fl : Fields) (cs : List Node) :
    (Node.mk fl cs).modifyAt g [j] = .mk fl (cs.modify g j) := by
  simp only [Node.modifyAt]

theorem markAlong_cons (j : Nat) (rest : Path) (f : Fields) (cs : List Node) :
    markAlong (j :: rest) (.mk f cs) =
      .mk { f with _active := some true, _collapsed := false }
        (cs.modify (markAlong rest) j) := by
  rw [markAlong]
  simp only [markNodeActive, expandNode, Node.fields, Node._children]
  rw [Node.modifyAt_single]

/-- The fields of the nodes on the path after `markAlong`: marked active, and
expanded where the path goes on. -/
theorem markAlong_on : ∀ (path : Path) (m : Node) (k : Nat), k ≤ path.length →
    ((markAlong path m).sub? (path.take k)).map Node.fields =
      (m.sub? (path.take k)).map
        (fun x => { x.fields with
                    _active := some true
                    _collapsed := if k < path.length then false else x.fields._collapsed })
  | [], .mk f cs, k, hk => by
    have : k = 0 := by simpa using hk
    subst this
    simp [markAlong, markNodeActive, Node.sub?, Node.fields]
  | j :: rest, .mk f cs, 0, _ => by
    rw [markAlong_cons]
    simp [Node.sub?, Node.fields]
  | j :: rest, .mk f cs, k + 1, hk => by
    rw [markAlong_cons]
    simp only [List.take_succ_cons, Node.sub?, List.getElem?_modify_eq]
    cases cs[j]? with
    | none => rfl
    | some c =>
      have ih := markAlong_on rest c k (by simpa using hk)
      simp only [Option.map_eq_map, Option.map_some']
      rw [ih]
      simp only [List.length_cons, Nat.add_lt_add_iff_right]

/-- The fields of the nodes off the path are untouched by `markAlong`. -/
theorem markAlong_off : ∀ (path : Path) (m : Node) (q : Path),
    (∀ k : Nat, k ≤ path.length → q ≠ path.take k) →
    ((markAlong path m).sub? q).map Node.fields = (m.sub? q).map Node.fields
  | [], .mk f cs, q, h => by
    cases q with
    | nil => exact absurd rfl (h 0 (by simp))
    | cons i r => simp [markAlong, markNodeActive, Node.sub?, Node._children]
  | j :: rest, .mk f cs, q, h => by
    rw [markAlong_cons]
    cases q with
    | nil => exact absurd rfl (h 0 (by simp))
    | cons i r =>
      simp only [Node.sub?]
      by_cases hij : j = i
      · subst hij
        rw [List.getElem?_modify_eq]
        cases cs[j]? with
        | none => rfl
        | some c =>
          simp only [Option.map_eq_map, Option.map_some']
          apply markAlong_off rest c r
          intro k hk heq
          exact h (k + 1) (by simpa using hk) (by simp [heq])
      · rw [List.getElem?_modify_ne _ _ hij]

/-- The nodes keep their number of children under `markAlong`. -/
theorem markAlong_shape : ∀ (path : Path) (m : Node) (q : Path),
    ((markAlong path m).sub? q).map (fun x => x._children.length) =
      (m.sub? q).map (fun x => x._children.length)
  | [], .mk f cs, q => by
    cases q with
    | nil => rfl
    | cons i r => rfl
  | j :: rest, .mk f cs, q => by
    rw [markAlong_cons]
    cases q with
    | nil => simp [Node.sub?, Node._children]
    | cons i r =>
      simp only [Node.sub?]
      by_cases hij : j = i
      · subst hij
        rw [List.getElem?_modify_eq]
        cases cs[j]? with
        | none => rfl
        | some c =>
          simp only [Option.map_eq_map, Option.map_some']
          exact markAlong_shape rest c r
      · rw [List.getElem?_modify_ne _ _ hij]

/-- The nodes on the path of a selector that names a child of every node that
has children: each is there, and it has children exactly when the path goes
on below it. -/
theorem selectedPath_children (selector : Node → Option Path)
    (hsel : ∀ n : Node, n._children.length > 0 →
      ∃ j : Nat, selector n = some [j] ∧ j < n._children.length) :
    ∀ (k : Nat) (n : Node), k ≤ (n.selectedPath selector).length →
      ∃ m : Node, n.sub? ((n.selectedPath selector).take k) = some m ∧
        (m._children.length > 0 ↔ k < (n.selectedPath selector).length)
  | 0, n, _ => by
    refine ⟨n, by simp [Node.sub?], ?_⟩
    by_cases hkids : n._children.length > 0
    · obtain ⟨j, c, _, _, hpath⟩ := selectedPath_of_children selector hsel n hkids
      simp [hkids, hpath]
    · simp [hkids, selectedPath_of_leaf selector n hkids]
  | k + 1, n, hk => by
    have hkids : n._children.length > 0 := by
      by_contra h
      rw [selectedPath_of_leaf selector n h] at hk
      simp at hk
    obtain ⟨j, c, _, hc, hpath⟩ := selectedPath_of_children selector hsel n hkids
    rw [hpath] at hk ⊢
    obtain ⟨m, hm, hiff⟩ := selectedPath_children selector hsel k c (by simpa using hk)
    refine ⟨m, ?_, by simpa using hiff⟩
    cases n with
    | mk f cs =>
      simp only [Node._children] at hc
      simp [Node.sub?, hc, hm]

/-- C14 at a failing input: on A(B(D), C), where A has children, a selector
that returns nothing makes `autoExpand` raise a type error, whatever the fuel,
where the claim says that it completes. -/
theorem autoExpand_none_counterexample :
    (get? exampleData [0]).map (fun n => decide (n._children.length > 0)) = some true ∧
    autoExpand (fun _ => none) 5 exampleData [0] = .error .typeError ∧
    (∀ fuel : Nat, ∀ data : List Node,
      autoExpand (fun _ => none) fuel exampleData [0] ≠ .ok data) := by
  refine ⟨by decide, rfl, ?_⟩
  intro fuel data h
  have : autoExpand (fun _ => none) fuel exampleData [0] = .error .typeError := rfl
  rw [this] at h
  cases h

/-- What the code does when the selector returns nothing: if it returns
nothing for the start node, which has children, `autoExpand` raises a type
error (it marks the selection active before it tests it); and if it returns
nothing for a later node that has children, the loop raises the same error
when it reaches that node. -/
theorem autoExpand_selector_none (selector : Node → Option Path) (fuel : Nat)
    (data : List Node) (ref : Path) (n : Node) (h : get? data ref = some n)
    (hkids : n._children.length > 0) :
    (selector (markNodeActive (expandNode n)) = none →
      autoExpand selector fuel data ref = .error .typeError) ∧
    (selector (expandNode n) = none →
      autoExpand.loop selector (fuel + 1) data ref = .error .typeError) := by
  refine ⟨?_, ?_⟩
  · intro hnone
    have h1 : get? (modifyAt markNodeActive ref (modifyAt expandNode ref data)) ref =
        some (markNodeActive (expandNode n)) :=
      get?_modifyAt_self markNodeActive _ ref _ (get?_modifyAt_self expandNode data ref n h)
    rw [autoExpand, h]
    simp only
    rw [if_neg (by omega)]
    simp [selectChild, h1, hnone]
  · intro hnone
    have h1 : get? (modifyAt expandNode ref data) ref = some (expandNode n) :=
      get?_modifyAt_self expandNode data ref n h
    rw [autoExpand.loop, h]
    simp only
    rw [if_pos hkids]
    simp [selectChild, h1, hnone]

/-- On A(B(D), C) a selector that returns nothing fails at the start node A and
would fail at B inside the loop. -/
theorem autoExpand_selector_none_witness :
    (get? exampleData [0]).isSome = true ∧
    autoExpand (fun _ => none) 3 exampleData [0] = .error .typeError ∧
    autoExpand.loop (fun _ => none) (3 + 1) exampleData [0, 0] = .error .typeError :=
  ⟨by decide,
   (autoExpand_selector_none (fun _ => none) 3 exampleData [0] _ rfl (by decide)).1 rfl,
   (autoExpand_selector_none (fun _ => none) 3 exampleData [0, 0] _ rfl (by decide)).2 rfl⟩

/-- C20: for a selector that returns, for every node having children, one of
that node's own children, `autoExpand` terminates: every iteration of its loop
moves one level down, so a number of iterations equal to the height of the
start node's subtree is enough, and the call returns the expected tree. -/
theorem autoExpand_terminates (selector : Node → Option Path)
    (hsel : ∀ n : Node, n._children.length > 0 →
      ∃ j : Nat, selector n = some [j] ∧ j < n._children.length)
    (data : List Node) (node : Path) (start : Node) (h : get? data node = some start)
    (fuel : Nat) (hfuel : start.height ≤ fuel) :
    (start.selectedPath selector).length ≤ start.height ∧
    ∃ result : List Node, autoExpand selector fuel data node = .ok result := by
  have hlen := selectedPath_length_le selector start
  refine ⟨hlen, ?_⟩
  by_cases hkids : start._children.length > 0
  · exact ⟨_, autoExpand_ok selector hsel fuel data node start h hkids (le_trans hlen hfuel)⟩
  · refine ⟨data, ?_⟩
    rw [autoExpand, h]
    simp only
    rw [if_pos (by omega)]

/-- The example selector names the first child of every node that has
children. -/
theorem exampleSelector_child (n : Node) (h : n._children.length > 0) :
    ∃ j : Nat, exampleSelector n = some [j] ∧ j < n._children.length :=
  ⟨0, by simp [exampleSelector, h], h⟩

/-- On A(B(D), C), of height 2, two iterations are enough from A. -/
theorem autoExpand_terminates_witness :
    exampleRoot.height = 2 ∧
    (exampleRoot.selectedPath exampleSelector).length ≤ exampleRoot.height ∧
    ∃ result : List Node, autoExpand exampleSelector 2 exampleData [0] = .ok result :=
  ⟨by decide,
   (autoExpand_terminates exampleSelector exampleSelector_child exampleData [0] exampleRoot rfl
      2 (by decide)).1,
   (autoExpand_terminates exampleSelector exampleSelector_child exampleData [0] exampleRoot rfl
      2 (by decide)).2⟩

/-- C15: for a start node with at least one child and a selector that maps
every node having children to one of its own children, let the path be the
children that the selector names in turn, down to the first node without
children. With fuel for that many iterations `autoExpand` returns; afterwards
every node on the path is marked active, has `_collapsed = false` when it has
children and keeps its `_collapsed` flag when it has none (the last node of the
path, and only that one), with its other fields as before; the fields of every
node off the path are unchanged; and every node keeps its number of children. -/
theorem autoExpand_spec (selector : Node → Option Path)
    (hsel : ∀ n : Node, n._children.length > 0 →
      ∃ j : Nat, selector n = some [j] ∧ j < n._children.length)
    (fuel : Nat) (data : List Node) (node : Path) (start : Node)
    (h : get? data node = some start) (hkids : start._children.length > 0)
    (hfuel : (start.selectedPath selector).length ≤ fuel) :
    ∃ result : List Node, autoExpand selector fuel data node = .ok result ∧
      (∀ k : Nat, k ≤ (start.selectedPath selector).length →
        ∃ old new : Node,
          get? data (node ++ (start.selectedPath selector).take k) = some old ∧
          get? result (node ++ (start.selectedPath selector).take k) = some new ∧
          (old._children.length > 0 ↔ k < (start.selectedPath selector).length) ∧
          new.fields =
            { old.fields with
              _active := some true
              _collapsed := if old._children.length > 0 then false
                            else old.fields._collapsed }) ∧
      (∀ q : Path, (∀ k : Nat, k ≤ (start.selectedPath selector).length →
          q ≠ node ++ (start.selectedPath selector).take k) →
        (get? result q).map Node.fields = (get? data q).map Node.fields) ∧
      (∀ q : Path, (get? result q).map (fun x => x._children.length) =
        (get? data q).map (fun x => x._children.length)) := by
  have hnode : node ≠ [] := get?_ne_nil h
  refine ⟨_, autoExpand_ok selector hsel fuel data node start h hkids hfuel, ?_, ?_, ?_⟩
  · intro k hk
    obtain ⟨old, hold, hiff⟩ := selectedPath_children selector hsel k start hk
    have hon := markAlong_on (start.selectedPath selector) start k hk
    rw [hold] at hon
    have hget : get? data (node ++ (start.selectedPath selector).take k) = some old := by
      rw [get?_append data node _ hnode, h]
      exact hold
    have hres : get? (modifyAt (markAlong (start.selectedPath selector)) node data)
        (node ++ (start.selectedPath selector).take k) =
        (markAlong (start.selectedPath selector) start).sub?
          ((start.selectedPath selector).take k) := by
      rw [get?_modifyAt_append _ data node _ hnode, h]
      rfl
    rcases map_eq_map_cases _ _ _ _ hon with ⟨_, hy⟩ | ⟨new, b, hnew, hb, hab⟩
    · cases hy
    · cases hb
      refine ⟨old, new, hget, by rw [hres]; exact hnew, hiff, ?_⟩
      rw [hab]
      by_cases hlt : k < (start.selectedPath selector).length
      · simp [hlt, hiff.mpr hlt]
      · have : ¬ old._children.length > 0 := fun hc => hlt (hiff.mp hc)
        simp [hlt, this]
  · intro q hq
    by_cases hpre : node <+: q
    · obtain ⟨rel, rfl⟩ := hpre
      rw [get?_modifyAt_append _ data node rel hnode, get?_append data node rel hnode, h]
      simp only [Option.some_bind]
      apply markAlong_off
      intro k hk heq
      exact hq k hk (by rw [heq])
    · exact get?_modifyAt_fields _ data node q hpre
  · intro q
    exact get?_modifyAt_shape _ (markAlong_shape _) data node q

/-- On A(B(D), C) with the selector of the first child, `autoExpand` from A
follows A, B, D: all three end marked active, A and B expanded, and C, off the
path, is untouched. -/
theorem autoExpand_spec_witness :
    exampleRoot.selectedPath exampleSelector = [0, 0] ∧
    ∃ result : List Node, autoExpand exampleSelector 2 exampleData [0] = .ok result ∧
      (get? result [0, 0, 0]).map (fun m => m.fields._active) = some (some true) ∧
      (get? result [0, 1]).map Node.fields = (get? exampleData [0, 1]).map Node.fields := by
  obtain ⟨result, h1, h2, h3, _⟩ :=
    autoExpand_spec exampleSelector exampleSelector_child 2 exampleData [0] exampleRoot rfl
      (by decide) (by decide)
  refine ⟨by decide, result, h1, ?_, ?_⟩
  · obtain ⟨old, new, _, hnew, _, hf⟩ := h2 2 (by decide)
    have hp : ([0] : Path) ++ (exampleRoot.selectedPath exampleSelector).take 2 = [0, 0, 0] := by
      decide
    rw [hp] at hnew
    rw [hnew]
    simp [hf]
  · apply h3
    intro k hk
    have hk2 : k ≤ 2 := by
      have : (exampleRoot.selectedPath exampleSelector).length = 2 := by decide
      omega
    have hpath : exampleRoot.selectedPath exampleSelector = [0, 0] := by decide
    rw [hpath]
    interval_cases k <;> decide

/-! ## Flattening a tree by name -/

theorem lookup_cons_eq (s k : String) (v : Path) (rest : NameMap) :
    List.lookup s ((k, v) :: rest) = if s = k then some v else List.lookup s rest := by
  rw [List.lookup_cons]
  by_cases h : s = k
  · subst h; simp
  · have : (s == k) = false := by simpa using h
    simp [this, h]

theorem lookup_replace_ne (name : String) (node : Path) (s : String) (hs : s ≠ name) :
    ∀ map : NameMap,
      List.lookup s (map.map (fun e => if e.1 == name then (name, node) else e)) =
        List.lookup s map
  | [] => rfl
  | (k, v) :: rest => by
    rw [List.map_cons]
    by_cases hk : k = name
    · subst hk
      simp only [beq_self_eq_true, if_true]
      rw [lookup_cons_eq, lookup_cons_eq, if_neg hs, if_neg hs]
      exact lookup_replace_ne k node s hs rest
    · have hk2 : (k == name) = false := by simpa using hk
      simp only [hk2, Bool.false_eq_true, if_false]
      rw [lookup_cons_eq, lookup_cons_eq, lookup_replace_ne name node s hs rest]

theorem lookup_replace_self (name : String) (node : Path) :
    ∀ map : NameMap, map.any (fun e => e.1 == name) = true →
      List.lookup name (map.map (fun e => if e.1 == name then (name, node) else e)) = some node
  | [], h => by simp at h
  | (k, v) :: rest, h => by
    rw [List.map_cons]
    by_cases hk : k = name
    · subst hk
      simp only [beq_self_eq_true, if_true]
      rw [lookup_cons_eq, if_pos rfl]
    · have hk2 : (k == name) = false := by simpa using hk
      have hrest : rest.any (fun e => e.1 == name) = true := by
        simpa [List.any_cons, hk2] using h
      simp only [hk2, Bool.false_eq_true, if_false]
      rw [lookup_cons_eq, if_neg (fun h => hk h.symm)]
      exact lookup_replace_self name node rest hrest

theorem lookup_append_single (name : String) (node : Path) (s : String) :
    ∀ map : NameMap, map.any (fun e => e.1 == name) = false →
      List.lookup s (map ++ [(name, node)]) = if s = name then some node else List.lookup s map
  | [], _ => by
    rw [List.nil_append, lookup_cons_eq]
  | (k, v) :: rest, h => by
    have hk2 : (k == name) = false := by
      simp only [List.any_cons, Bool.or_eq_false_iff] at h
      exact h.1
    have hk : k ≠ name := by simpa using hk2
    have hrest : rest.any (fun e => e.1 == name) = false := by
      simp only [List.any_cons, Bool.or_eq_false_iff] at h
      exact h.2
    rw [List.cons_append, lookup_cons_eq, lookup_cons_eq,
      lookup_append_single name node s rest hrest]
    by_cases hs : s = k
    · subst hs
      simp [hk]
    · simp [hs]

/-- Reading a property after `name` has been defined as an own property. -/
theorem NameMap.lookup_put (map : NameMap) (name : String) (node : Path) (s : String) :
    List.lookup s (NameMap.put map name node) =
      if s = name then some node else List.lookup s map := by
  unfold NameMap.put
  split
  · rename_i hany
    by_cases hs : s = name
    · subst hs
      rw [if_pos rfl]
      exact lookup_replace_self s node map hany
    · rw [if_neg hs]
      exact lookup_replace_ne name node s hs map
  · rename_i hany
    exact lookup_append_single name node s map ((Bool.not_eq_true _).mp hany)

/-- The names of the properties after `name` has been defined as one. -/
theorem NameMap.keys_put (map : NameMap) (name : String) (node : Path) :
    (NameMap.put map name node).map Prod.fst =
      if name ∈ map.map Prod.fst then map.map Prod.fst else map.map Prod.fst ++ [name] := by
  have hiff : map.any (fun e => e.1 == name) = true ↔ name ∈ map.map Prod.fst := by
    simp only [List.any_eq_true, beq_iff_eq, List.mem_map]
  unfold NameMap.put
  split
  · rename_i hany
    rw [if_pos (hiff.mp hany), List.map_map]
    apply List.map_congr_left
    intro e _
    by_cases he : e.1 = name
    · simp [he]
    · simp [he]
  · rename_i hany
    rw [if_neg (fun h => hany (hiff.mpr h))]
    simp

mutual
/-- The method `flatTreeStructure` makes the assignments `map[name] = node` for
the nodes of the tree in pre-order. -/
theorem flatTreeStructure_eq_foldl : ∀ (t : NameTree) (ref : Path) (map : NameMap),
    flatTreeStructure t ref map =
      (t.preorder ref).foldl (fun m e => NameMap.set m e.1 e.2) map
  | .mk name kids, ref, map => by
    rw [flatTreeStructure, NameTree.preorder, List.foldl_cons]
    exact flatTreeStructure.forEach_eq_foldl kids ref 0 _
/-- The same for the `forEach` over the children. -/
theorem flatTreeStructure.forEach_eq_foldl : ∀ (kids : List NameTree) (ref : Path) (i : Nat)
    (map : NameMap),
    flatTreeStructure.forEach kids ref i map =
      (preorderEach kids ref i).foldl (fun m e => NameMap.set m e.1 e.2) map
  | [], _, _, _ => by rw [flatTreeStructure.forEach, preorderEach, List.foldl_nil]
  | c :: cs, ref, i, map => by
    rw [flatTreeStructure.forEach, preorderEach, List.foldl_append,
      flatTreeStructure_eq_foldl c (ref ++ [i]) map]
    exact flatTreeStructure.forEach_eq_foldl cs ref (i + 1) _
end

/-- Reading a property after a sequence of definitions: the value of the last
definition of that name, or what was there before when there is none. -/
theorem lookup_foldl_put (s : String) : ∀ (entries : List (String × Path)) (map : NameMap),
    List.lookup s (entries.foldl (fun m e => NameMap.put m e.1 e.2) map) =
      match (entries.filter (fun e => e.1 == s)).getLast? with
      | some e => some e.2
      | none => List.lookup s map
  | [], map => rfl
  | (k, v) :: rest, map => by
    rw [List.foldl_cons, lookup_foldl_put s rest (NameMap.put map k v), NameMap.lookup_put]
    by_cases hk : k = s
    · subst hk
      simp only [List.filter_cons, beq_self_eq_true, if_true]
      cases hf : rest.filter (fun e => e.1 == k) with
      | nil => simp
      | cons e es =>
        rw [List.getLast?_cons_cons]
        cases hl : (e :: es).getLast? with
        | none => simp at hl
        | some x => rfl
    · have hk2 : (k == s) = false := by simpa using hk
      simp only [List.filter_cons, hk2, Bool.false_eq_true, if_false]
      rw [if_neg (fun h => hk h.symm)]

/-- The names of the properties stay pairwise distinct under definitions. -/
theorem keys_foldl_put_nodup : ∀ (entries : List (String × Path)) (map : NameMap),
    (map.map Prod.fst).Nodup →
      ((entries.foldl (fun m e => NameMap.put m e.1 e.2) map).map Prod.fst).Nodup
  | [], map, h => h
  | (k, v) :: rest, map, h => by
    rw [List.foldl_cons]
    apply keys_foldl_put_nodup rest
    rw [NameMap.keys_put]
    split
    · exact h
    · rename_i hk
      rw [List.nodup_append]
      refine ⟨h, List.nodup_singleton k, ?_⟩
      intro a ha hb
      rw [List.mem_singleton] at hb
      subst hb
      exact hk ha

/-- The number of properties after a sequence of definitions: one more for each
definition exactly when the defined names are new and pairwise distinct. -/
theorem length_foldl_put : ∀ (entries : List (String × Path)) (map : NameMap),
    (entries.foldl (fun m e => NameMap.put m e.1 e.2) map).length ≤
        map.length + entries.length ∧
    ((entries.foldl (fun m e => NameMap.put m e.1 e.2) map).length =
        map.length + entries.length ↔
      (entries.map Prod.fst).Nodup ∧ ∀ k ∈ entries.map Prod.fst, k ∉ map.map Prod.fst)
  | [], map => by simp
  | (k, v) :: rest, map => by
    obtain ⟨ihle, iheq⟩ := length_foldl_put rest (NameMap.put map k v)
    have hkeys := NameMap.keys_put map k v
    have hlen : (NameMap.put map k v).length =
        if k ∈ map.map Prod.fst then map.length else map.length + 1 := by
      have := congrArg List.length hkeys
      rw [List.length_map] at this
      rw [this]
      split <;> simp
    rw [List.foldl_cons]
    by_cases hk : k ∈ map.map Prod.fst
    · rw [if_pos hk] at hlen
      rw [hlen] at ihle iheq
      refine ⟨by simp only [List.length_cons]; omega, ?_⟩
      constructor
      · intro h
        simp only [List.length_cons] at h
        omega
      · rintro ⟨_, h2⟩
        exact absurd hk (h2 k (by simp))
    · rw [if_neg hk] at hlen hkeys
      rw [hlen] at ihle iheq
      refine ⟨by simp only [List.length_cons]; omega, ?_⟩
      rw [show map.length + ((k, v) :: rest).length = map.length + 1 + rest.length by
        simp only [List.length_cons]; omega, iheq, hkeys]
      simp only [List.map_cons, List.nodup_cons, List.mem_cons, List.mem_append,
        List.mem_singleton, forall_eq_or_imp, List.not_mem_nil, or_false]
      constructor
      · rintro ⟨h1, h2⟩
        refine ⟨⟨fun hmem => (h2 k hmem) (Or.inr rfl), h1⟩, hk, fun a ha hmem =>
          h2 a ha (Or.inl hmem)⟩
      · rintro ⟨⟨h1, h2⟩, _, h4⟩
        refine ⟨h2, fun a ha hor => ?_⟩
        rcases hor with hor | hor
        · exact h4 a ha hor
        · subst hor
          exact h1 ha

/-- The assignments of `flatTreeStructure` define an own property for every
entry but those named `__proto__`. -/
theorem foldl_set_eq_foldl_put : ∀ (entries : List (String × Path)) (map : NameMap),
    entries.foldl (fun m e => NameMap.set m e.1 e.2) map =
      (entries.filter (fun e => e.1 != "__proto__")).foldl
        (fun m e => NameMap.put m e.1 e.2) map
  | [], _ => rfl
  | (k, v) :: rest, map => by
    rw [List.foldl_cons, List.filter_cons]
    by_cases hk : k = "__proto__"
    · subst hk
      simp only [NameMap.set, if_true, bne_self_eq_false, Bool.false_eq_true, if_false]
      exact foldl_set_eq_foldl_put rest map
    · have hk2 : (k != "__proto__") = true := by simpa using hk
      simp only [NameMap.set, if_neg hk, hk2, if_true, List.foldl_cons]
      exact foldl_set_eq_foldl_put rest _

/-- What a sequence of definitions of own properties, starting from the empty
object, leaves: the defined names, each once, every name with the value of
its last definition, and as many properties as definitions exactly when the
names are pairwise distinct. -/
theorem foldl_put_facts (entries : List (String × Path)) :
    (∀ s : String,
      (List.lookup s (entries.foldl (fun m e => NameMap.put m e.1 e.2) [])).isSome = true ↔
        s ∈ entries.map Prod.fst) ∧
    (∀ s : String, List.lookup s (entries.foldl (fun m e => NameMap.put m e.1 e.2) []) =
      ((entries.filter (fun e => e.1 == s)).getLast?).map Prod.snd) ∧
    ((entries.foldl (fun m e => NameMap.put m e.1 e.2) []).map Prod.fst).Nodup ∧
    (∀ s : String, s ∈ (entries.foldl (fun m e => NameMap.put m e.1 e.2) []).map Prod.fst ↔
      s ∈ entries.map Prod.fst) ∧
    (entries.foldl (fun m e => NameMap.put m e.1 e.2) []).length ≤ entries.length ∧
    ((entries.foldl (fun m e => NameMap.put m e.1 e.2) []).length = entries.length ↔
      (entries.map Prod.fst).Nodup) := by
  have hval : ∀ s : String,
      List.lookup s (entries.foldl (fun m e => NameMap.put m e.1 e.2) []) =
        ((entries.filter (fun e => e.1 == s)).getLast?).map Prod.snd := by
    intro s
    rw [lookup_foldl_put]
    cases (entries.filter (fun e => e.1 == s)).getLast? with
    | none => rfl
    | some e => rfl
  have hlast : ∀ s : String,
      ((entries.filter (fun e => e.1 == s)).getLast?).isSome = true ↔
        s ∈ entries.map Prod.fst := by
    intro s
    rw [List.mem_map]
    constructor
    · intro h
      cases hl : (entries.filter (fun e => e.1 == s)).getLast? with
      | none => simp [hl] at h
      | some e =>
        have hmem := List.mem_of_getLast?_eq_some hl
        rw [List.mem_filter] at hmem
        exact ⟨e, hmem.1, by simpa using hmem.2⟩
    · rintro ⟨e, he, hs⟩
      have hmem : e ∈ entries.filter (fun e => e.1 == s) :=
        List.mem_filter.mpr ⟨he, by simpa using hs⟩
      cases hl : (entries.filter (fun e => e.1 == s)).getLast? with
      | none =>
        rw [List.getLast?_eq_none_iff] at hl
        rw [hl] at hmem
        simp at hmem
      | some e => rfl
  have hkey : ∀ s : String,
      (List.lookup s (entries.foldl (fun m e => NameMap.put m e.1 e.2) [])).isSome = true ↔
        s ∈ entries.map Prod.fst := by
    intro s
    rw [hval, Option.isSome_map']
    exact hlast s
  refine ⟨hkey, hval, keys_foldl_put_nodup _ [] (by simp), ?_, ?_, ?_⟩
  · intro s
    rw [← hkey s]
    constructor
    · intro h
      obtain ⟨e, he, hs⟩ := List.mem_map.mp h
      cases hl : List.lookup s (entries.foldl (fun m e => NameMap.put m e.1 e.2) []) with
      | some v => rfl
      | none =>
        rw [List.lookup_eq_none_iff] at hl
        have := hl e he
        simp [hs] at this
    · intro h
      cases hl : List.lookup s (entries.foldl (fun m e => NameMap.put m e.1 e.2) []) with
      | none => simp [hl] at h
      | some v =>
        obtain ⟨l1, l2, hsplit, _⟩ := List.lookup_eq_some_iff.mp hl
        exact List.mem_map.mpr ⟨(s, v), by rw [hsplit]; simp, rfl⟩
  · have := (length_foldl_put entries []).1
    simpa using this
  · have := (length_foldl_put entries []).2
    simp only [List.length_nil, Nat.zero_add, List.map_nil, List.not_mem_nil, not_false_eq_true,
      implies_true, and_true] at this
    exact this

/-- C18 as stated fails: in R(`__proto__`, b), read under `children`, the three
names are pairwise distinct, and the mapping that `flatTreeStructure` returns
has the two properties `R` and `b`: the assignment to `__proto__` made none. -/
theorem flatTreeStructure_proto_counterexample :
    ((exampleRawProto.keyed ChildrenKey.children).preorder [0]).map Prod.fst =
      ["R", "__proto__", "b"] ∧
    (((exampleRawProto.keyed ChildrenKey.children).preorder [0]).map Prod.fst).Nodup ∧
    flatTreeStructure (exampleRawProto.keyed ChildrenKey.children) [0] [] =
      [("R", [0]), ("b", [0, 1])] := by
  refine ⟨by decide, by decide, by decide⟩

/-- C18, amended: `flatTreeStructure(root, {}, key)` returns a mapping whose
property names are exactly the names occurring in the tree (as read under the
children key) other than `__proto__`, each once; it maps every such name to
the last node bearing that name in pre-order; and it has as many entries as
the tree has nodes exactly when the names are pairwise distinct and no node is
named `__proto__`. -/
theorem flatTreeStructure_spec (t : NameTree) (ref : Path) :
    (∀ s : String, (List.lookup s (flatTreeStructure t ref [])).isSome = true ↔
      (s ∈ (t.preorder ref).map Prod.fst ∧ s ≠ "__proto__")) ∧
    (∀ s : String, s ≠ "__proto__" → List.lookup s (flatTreeStructure t ref []) =
      (((t.preorder ref).filter (fun e => e.1 == s)).getLast?).map Prod.snd) ∧
    ((flatTreeStructure t ref []).map Prod.fst).Nodup ∧
    (∀ s : String, s ∈ (flatTreeStructure t ref []).map Prod.fst ↔
      (s ∈ (t.preorder ref).map Prod.fst ∧ s ≠ "__proto__")) ∧
    ((flatTreeStructure t ref []).length = (t.preorder ref).length ↔
      (((t.preorder ref).map Prod.fst).Nodup ∧ "__proto__" ∉ (t.preorder ref).map Prod.fst)) := by
  obtain ⟨hkey, hval, hnodup, hmem, hle, hlen⟩ :=
    foldl_put_facts ((t.preorder ref).filter (fun e => e.1 != "__proto__"))
  have hown : ∀ s : String,
      s ∈ ((t.preorder ref).filter (fun e => e.1 != "__proto__")).map Prod.fst ↔
        (s ∈ (t.preorder ref).map Prod.fst ∧ s ≠ "__proto__") := by
    intro s
    simp only [List.mem_map, List.mem_filter, bne_iff_ne, ne_eq]
    constructor
    · rintro ⟨e, ⟨he, hp⟩, hs⟩
      exact ⟨⟨e, he, hs⟩, by rw [← hs]; exact hp⟩
    · rintro ⟨⟨e, he, hs⟩, hp⟩
      exact ⟨e, ⟨he, by rw [hs]; exact hp⟩, hs⟩
  have hfilter : ∀ s : String, s ≠ "__proto__" →
      ((t.preorder ref).filter (fun e => e.1 != "__proto__")).filter (fun e => e.1 == s) =
        (t.preorder ref).filter (fun e => e.1 == s) := by
    intro s hs
    rw [List.filter_filter]
    apply List.filter_congr
    intro e _
    by_cases he : e.1 = s
    · simp [he, hs]
    · simp [he]
  have hflen : ((t.preorder ref).filter (fun e => e.1 != "__proto__")).length ≤
      (t.preorder ref).length := List.length_filter_le _ _
  have hfeq : ((t.preorder ref).filter (fun e => e.1 != "__proto__")).length =
      (t.preorder ref).length ↔ "__proto__" ∉ (t.preorder ref).map Prod.fst := by
    rw [List.filter_length_eq_length]
    simp only [List.mem_map, bne_iff_ne, ne_eq, not_exists, not_and]
  rw [flatTreeStructure_eq_foldl, foldl_set_eq_foldl_put]
  refine ⟨fun s => (hkey s).trans (hown s), ?_, hnodup, fun s => (hmem s).trans (hown s), ?_⟩
  · intro s hs
    rw [hval s, hfilter s hs]
  · constructor
    · intro h
      have h1 : ((t.preorder ref).filter (fun e => e.1 != "__proto__")).length =
          (t.preorder ref).length := by omega
      have hno := hfeq.mp h1
      have hall : (t.preorder ref).filter (fun e => e.1 != "__proto__") = t.preorder ref :=
        List.filter_eq_self.mpr (fun e he => by
          have : e.1 ≠ "__proto__" := fun hp => hno (List.mem_map.mpr ⟨e, he, hp⟩)
          simpa using this)
      rw [hall] at hlen
      rw [hall] at h
      exact ⟨hlen.mp h, hno⟩
    · rintro ⟨hnd, hno⟩
      have hall : (t.preorder ref).filter (fun e => e.1 != "__proto__") = t.preorder ref :=
        List.filter_eq_self.mpr (fun e he => by
          have : e.1 ≠ "__proto__" := fun hp => hno (List.mem_map.mpr ⟨e, he, hp⟩)
          simpa using this)
      rw [hall] at hlen ⊢
      exact hlen.mpr hnd


/-! ## Reconciliation -/

/-- In A(B(D), C) read under `_children`, the names map to the four nodes. -/
theorem flatTreeStructure_spec_witness :
    flatTreeStructure (exampleRoot.keyed ChildrenKey._children) [0] [] =
      [("A", [0]), ("B", [0, 0]), ("D", [0, 0, 0]), ("C", [0, 1])] ∧
    ((flatTreeStructure (exampleRoot.keyed ChildrenKey._children) [0] []).length =
        ((exampleRoot.keyed ChildrenKey._children).preorder [0]).length ↔
      ((((exampleRoot.keyed ChildrenKey._children).preorder [0]).map Prod.fst).Nodup ∧
        "__proto__" ∉ ((exampleRoot.keyed ChildrenKey._children).preorder [0]).map Prod.fst)) :=
  ⟨by decide, (flatTreeStructure_spec (exampleRoot.keyed ChildrenKey._children) [0]).2.2.2.2⟩

/-- C16 at a failing input: the live tree Box(length, width) and the new raw
tree of the same names (pairwise distinct, the same set) with the bound field
of Box changed. A node is named `"length"`, so `.length` of each mapping is a
node object, the two differ, and the tree is replaced: the ids `"u"`, `"uu"`,
`"uuu"` are gone and fresh ones are assigned. -/
theorem componentWillReceiveProps_length_name :
    idsEach exampleBoxData = ["u", "uu", "uuu"] ∧
    (toRawEach exampleBoxData).map (fun r => (r.keyed ChildrenKey.children).preorder [0])
      = [exampleRawBox true].map (fun r => (r.keyed ChildrenKey.children).preorder [0]) ∧
    (((exampleRawBox true).keyed ChildrenKey.children).preorder [0]).map Prod.fst
      = ["Box", "length", "width"] ∧
    (componentWillReceiveProps exampleUuid examplePropsBound true [exampleRawBox true] 3
        ⟨exampleBoxData, false⟩ exampleLater).toOption.map
      (fun r => (idsEach r.1.data, r.2.1.isRerendered)) =
      some (["uuuu", "uuuuu", "uuuuuu"], true) := by
  refine ⟨by decide, by decide, by decide, by decide⟩

/-- C17 at a failing input: the live tree A(B(D), C), four names, and the new
raw tree A(B), two names. The flattened mappings differ in size, yet `.length`
of both is `undefined`, no replacement is made, and the old tree stays with
its four nodes and their ids; the claim asks for the tree of the two new nodes
with fresh ids. -/
theorem componentWillReceiveProps_size_differs :
    (flatTreeStructure (exampleRoot.keyed ChildrenKey._children) [0] []).length = 4 ∧
    (flatTreeStructure (exampleRawSmall.keyed ChildrenKey.children) [0] []).length = 2 ∧
    (componentWillReceiveProps exampleUuid examplePropsBound true [exampleRawSmall] 4
        ⟨exampleData, false⟩ exampleLater).toOption.map
      (fun r => (idsEach r.1.data, sizeEach r.1.data, r.2.1.isRerendered)) =
      some (["u", "uu", "uuu", "uuuu"], 4, false) ∧
    idsEach (assignInternalProperties exampleUuid [exampleRawSmall] 4).1 = ["uuuuu", "uuuuuu"] ∧
    sizeEach (assignInternalProperties exampleUuid [exampleRawSmall] 4).1 = 2 := by
  refine ⟨by decide, by decide, by decide, by decide, by decide⟩

theorem idsEach_modify (g : Node → Node) (hg : ∀ c : Node, (g c).ids = c.ids) :
    ∀ (cs : List Node) (i : Nat), idsEach (cs.modify g i) = idsEach cs
  | [], i => by simp
  | c :: cs, 0 => by
    rw [List.modify_zero_cons, idsEach_cons, idsEach_cons, hg]
  | c :: cs, i + 1 => by
    rw [List.modify_succ_cons, idsEach_cons, idsEach_cons, idsEach_modify g hg cs i]

/-- A mutation that keeps the ids of the node it is given keeps the ids of the
tree. -/
theorem Node.ids_modifyAt (f : Node → Node) (hf : ∀ m : Node, (f m).ids = m.ids) :
    ∀ (p : Path) (n : Node), (n.modifyAt f p).ids = n.ids
  | [], n => hf n
  | i :: rest, .mk fl cs => by
    simp only [Node.modifyAt]
    rw [Node.ids, Node.ids, idsEach_modify _ (Node.ids_modifyAt f hf rest) cs i]

theorem idsEach_modifyAt (f : Node → Node) (hf : ∀ m : Node, (f m).ids = m.ids)
    (p : Path) (data : List Node) : idsEach (modifyAt f p data) = idsEach data := by
  cases p with
  | nil => rfl
  | cons i rest =>
    simp only [modifyAt]
    exact idsEach_modify _ (Node.ids_modifyAt f hf rest) data i

theorem mergeNode_ids (nextProps : Props) (key : String) (found : RawFields) (m : Node) :
    (mergeNode nextProps key found m).ids = m.ids := by
  cases m with
  | mk f cs =>
    rw [Node.ids_eq, Node.ids_eq]
    simp only [mergeNode, Node.fields, Node._children]
    split <;> split <;> (try split) <;> rfl

/-- The merge of `componentWillReceiveProps` keeps every id of the old tree,
whatever the new mapping holds. -/
theorem idsEach_merge (nextProps : Props) (key : String) (newPropsNodes : NameMap)
    (newPropsData : List RawNode) : ∀ (entries : NameMap) (data : List Node),
    idsEach (entries.foldl
      (fun data entry =>
        match (newPropsNodes.lookup entry.1).bind (rawGet? newPropsData) with
        | some found => modifyAt (mergeNode nextProps key found.fields) entry.2 data
        | none => data) data) = idsEach data
  | [], data => rfl
  | e :: rest, data => by
    rw [List.foldl_cons, idsEach_merge nextProps key newPropsNodes newPropsData rest]
    split
    · exact idsEach_modifyAt _ (mergeNode_ids nextProps key _) e.2 data
    · rfl

/-- With a collapse binding configured and no node named `"length"` in either
tree, `componentWillReceiveProps` never replaces the tree, whatever the sizes
of the two flattened mappings: it returns, makes no call of the id generator,
and the data keeps every id of the old tree. -/
theorem componentWillReceiveProps_keeps_ids (uuid : Nat → String) (nextProps : Props)
    (key : String) (hkey : nextProps.externalCollapse = some key) (hne : key ≠ "")
    (rootNode : Node) (rest : List Node) (newRoot : RawNode) (newRest : List RawNode)
    (k : Nat) (isTransitioning : Bool) (internalState : InternalState)
    (hold : List.lookup "length"
      (flatTreeStructure (rootNode.keyed ChildrenKey._children) [0] []) = none)
    (hnew : List.lookup "length"
      (flatTreeStructure (newRoot.keyed ChildrenKey.children) [0] []) = none) :
    ∃ merged : List Node,
      componentWillReceiveProps uuid nextProps true (newRoot :: newRest) k
          ⟨rootNode :: rest, isTransitioning⟩ internalState =
        .ok (⟨merged, isTransitioning⟩,
             { internalState with d3 := calculateD3Geometry nextProps }, k) ∧
      idsEach merged = idsEach (rootNode :: rest) := by
  have hbind : nextProps.externalCollapse.filter (fun key => key != "") = some key := by
    rw [hkey]
    simp [Option.filter, hne]
  refine ⟨_, ?_, idsEach_merge nextProps key
    (flatTreeStructure (newRoot.keyed ChildrenKey.children) [0] []) (newRoot :: newRest)
    (flatTreeStructure (rootNode.keyed ChildrenKey._children) [0] []) (rootNode :: rest)⟩
  simp only [componentWillReceiveProps, hbind, hold, hnew, Option.isSome_none, Bool.or_self,
    Bool.false_eq_true, if_false]
/-! ## Numbers: rounding -/

theorem roundHalfEven_of_near (t : ℚ) (k : ℤ) (h : |t - k| < 1 / 2) : roundHalfEven t = k := by
  rw [abs_lt] at h
  obtain ⟨h1, h2⟩ := h
  have hf : ⌊t⌋ = k ∨ ⌊t⌋ = k - 1 := by
    have ha : k - 1 ≤ ⌊t⌋ := by
      rw [Int.le_floor]
      push_cast
      linarith
    have hb : ⌊t⌋ < k + 1 := by
      rw [Int.floor_lt]
      push_cast
      linarith
    omega
  rcases hf with hf | hf
  · simp only [roundHalfEven, hf, h2, if_true]
  · have h3 : ¬ (t - ((k - 1 : ℤ) : ℚ) < 1 / 2) := by
      push_cast; linarith
    have h4 : 1 / 2 < t - ((k - 1 : ℤ) : ℚ) := by
      push_cast; linarith
    simp only [roundHalfEven, hf, h3, h4, if_true, if_false, sub_add_cancel]

/-- A tie goes to the even neighbour. -/
theorem roundHalfEven_of_tie (t : ℚ) (f : ℤ) (h : t = f + 1 / 2) (hf : f % 2 = 0) :
    roundHalfEven t = f := by
  have hfl : ⌊t⌋ = f := by
    rw [Int.floor_eq_iff, h]
    constructor <;> linarith
  have h1 : ¬ (t - (f : ℚ) < 1 / 2) := by rw [h]; simp
  have h2 : ¬ (1 / 2 < t - (f : ℚ)) := by rw [h]; simp
  simp only [roundHalfEven, hfl, h1, h2, hf, if_true, if_false]

/-- The double that a positive `q` rounds to, from its binade `e` and the
multiple `k` of the spacing `2 ^ (e - 52)` that `roundHalfEven` picks. -/
theorem Num.round_eq (q : ℚ) (e k : ℤ) (hlo : (2 : ℚ) ^ e ≤ q) (hhi : q < (2 : ℚ) ^ (e + 1))
    (hmin : -1022 ≤ e) (hk : roundHalfEven (q / 2 ^ (e - 52)) = k)
    (hr : |(k : ℚ) * 2 ^ (e - 52)| < 2 ^ 1024) :
    Num.round q = .fin (k * 2 ^ (e - 52)) := by
  have hq : 0 < q := lt_of_lt_of_le (by positivity) hlo
  have habs : |q| = q := abs_of_pos hq
  have h0 : q ≠ 0 := ne_of_gt hq
  have hlog : Int.log 2 |q| = e := by
    rw [habs]
    apply le_antisymm
    · have := (Int.lt_zpow_iff_log_lt (b := 2) (by norm_num) hq).mp (by exact_mod_cast hhi)
      omega
    · exact (Int.zpow_le_iff_le_log (b := 2) (by norm_num) hq).mp (by exact_mod_cast hlo)
  simp only [Num.round, h0, if_false, hlog, max_eq_left hmin, hk, not_le.mpr hr]

/-- A half-integer of magnitude below `2 ^ 52` is a double: rounding leaves it
as it is. -/
theorem Num.round_half (m : ℤ) (hm : |m| < 2 ^ 53) :
    Num.round ((m : ℚ) / 2) = .fin ((m : ℚ) / 2) := by
  by_cases h0 : m = 0
  · subst h0
    simp [Num.round]
  have hq0 : (m : ℚ) / 2 ≠ 0 := by
    have : (m : ℚ) ≠ 0 := by exact_mod_cast h0
    exact div_ne_zero this (by norm_num)
  have hpos : 0 < |(m : ℚ) / 2| := abs_pos.mpr hq0
  have habs : |(m : ℚ) / 2| = (|m| : ℤ) / 2 := by
    rw [abs_div]
    simp
  have hm1 : (1 : ℤ) ≤ |m| := Int.one_le_abs h0
  -- the binade lies between -1 and 51
  have hL1 : (-1 : ℤ) ≤ Int.log 2 |(m : ℚ) / 2| := by
    apply (Int.zpow_le_iff_le_log (b := 2) (by norm_num) hpos).mp
    rw [habs]
    have : ((1 : ℤ) : ℚ) ≤ ((|m| : ℤ) : ℚ) := by exact_mod_cast hm1
    norm_num
    norm_num at this
    linarith
  have hL2 : Int.log 2 |(m : ℚ) / 2| < 52 := by
    apply (Int.lt_zpow_iff_log_lt (b := 2) (by norm_num) hpos).mp
    rw [habs]
    have : ((|m| : ℤ) : ℚ) < ((2 ^ 53 : ℤ) : ℚ) := by exact_mod_cast hm
    norm_num
    norm_num at this
    linarith
  obtain ⟨t, ht⟩ : ∃ t : ℕ, (t : ℤ) = 51 - Int.log 2 |(m : ℚ) / 2| :=
    ⟨(51 - Int.log 2 |(m : ℚ) / 2|).toNat, Int.toNat_of_nonneg (by omega)⟩
  have he : Int.log 2 |(m : ℚ) / 2| = 51 - t := by omega
  have hq : (m : ℚ) / 2 = ((m * 2 ^ t : ℤ) : ℚ) * 2 ^ ((51 - (t : ℤ)) - 52) := by
    have h2 : ((51 - (t : ℤ)) - 52) = -1 - (t : ℤ) := by ring
    rw [h2, zpow_sub₀ (by norm_num : (2 : ℚ) ≠ 0), zpow_natCast]
    push_cast
    field_simp
    ring
  have hk : ((m : ℚ) / 2) / 2 ^ ((51 - (t : ℤ)) - 52) = ((m * 2 ^ t : ℤ) : ℚ) := by
    rw [div_eq_iff (by positivity)]
    exact hq
  have hround : roundHalfEven (((m : ℚ) / 2) / 2 ^ ((51 - (t : ℤ)) - 52)) = m * 2 ^ t := by
    apply roundHalfEven_of_near
    rw [hk]
    simp
  have hfin : ¬ ((2 : ℚ) ^ 1024 ≤ |(m : ℚ) / 2|) := by
    rw [habs, not_le]
    have : ((|m| : ℤ) : ℚ) < ((2 ^ 53 : ℤ) : ℚ) := by exact_mod_cast hm
    norm_num
    norm_num at this
    linarith
  simp only [Num.round, hq0, if_false, he, max_eq_left (by omega : (-1022 : ℤ) ≤ 51 - (t : ℤ)),
    hround, ← hq, hfin]

/-! ## Numbers: arithmetic that is exact -/

/-- With `nodeSize.y` an integer `n` of magnitude at most `2 ^ 50`, every
multiple `c * n / 2` with `|c| ≤ 6` is a double. -/
theorem Num.round_multiple (n : ℤ) (hn : |n| ≤ 2 ^ 50) (c : ℤ) (hc : |c| ≤ 6) :
    Num.round ((c : ℚ) * n / 2) = .fin ((c : ℚ) * n / 2) := by
  have hb : |c * n| < 2 ^ 53 := by
    rw [abs_mul]
    calc |c| * |n| ≤ 6 * 2 ^ 50 := mul_le_mul hc hn (abs_nonneg n) (by norm_num)
      _ < 2 ^ 53 := by norm_num
  have := Num.round_half (c * n) hb
  push_cast at this
  exact this

theorem Num.mul_multiple (n : ℤ) (hn : |n| ≤ 2 ^ 50) (a b : ℚ) (c : ℤ) (hc : |c| ≤ 6)
    (h : a * b = (c : ℚ) * n / 2) : (Num.fin a).mul (.fin b) = .fin ((c : ℚ) * n / 2) := by
  show Num.round (a * b) = _
  rw [h, Num.round_multiple n hn c hc]

theorem Num.div_multiple (n : ℤ) (hn : |n| ≤ 2 ^ 50) (a d : ℚ) (c : ℤ) (hc : |c| ≤ 6)
    (h : a / d = (c : ℚ) * n / 2) : (Num.fin a).div d = .fin ((c : ℚ) * n / 2) := by
  show Num.round (a / d) = _
  rw [h, Num.round_multiple n hn c hc]

theorem Num.add_multiple (n : ℤ) (hn : |n| ≤ 2 ^ 50) (a b : ℚ) (c : ℤ) (hc : |c| ≤ 6)
    (h : a + b = (c : ℚ) * n / 2) : (Num.fin a).add (.fin b) = .fin ((c : ℚ) * n / 2) := by
  show Num.round (a + b) = _
  rw [h, Num.round_multiple n hn c hc]

theorem Num.sub_multiple (n : ℤ) (hn : |n| ≤ 2 ^ 50) (a b : ℚ) (c : ℤ) (hc : |c| ≤ 6)
    (h : a - b = (c : ℚ) * n / 2) : (Num.fin a).sub (.fin b) = .fin ((c : ℚ) * n / 2) := by
  show Num.round (a + -b) = _
  rw [← sub_eq_add_neg, h, Num.round_multiple n hn c hc]

/-- The comparison `a === b` with a finite `b` holds exactly when `a` is that
number. -/
theorem Num.strictEq_fin (a : Num) (q : ℚ) : a.strictEq (.fin q) = true ↔ a = .fin q := by
  cases a with
  | nan => simp [Num.strictEq]
  | inf s => simp [Num.strictEq]
  | fin v => simp [Num.strictEq]

/-- With `nodeSize.y` an integer `n` of magnitude at most `2 ^ 50` and 2, 3 or
4 children counted on the parent, every operation of the `if` chain is exact:
the child of index `i` is put at `(2 * i + c0) * n / 2`, where `c0` is read
off the number of children and the parent's `x`. -/
theorem restrictedX_of_int (nodeSize : NodeSize) (n : ℤ) (hy : nodeSize.y = .fin n)
    (hn : |n| ≤ 2 ^ 50) (parent : Placement) (k : Nat) (hc : parent.childrenCount = some k)
    (hk : k = 2 ∨ k = 3 ∨ k = 4) :
    ∃ c0 : ℤ,
      (k = 2 → c0 = if parent.x = .fin (((-3 : ℤ) : ℚ) * n / 2) then -3
        else if parent.x = .fin (((3 : ℤ) : ℚ) * n / 2) then 1 else -1) ∧
      (k = 3 → c0 = if parent.x = .fin (((1 : ℤ) : ℚ) * n / 2) ∨
          parent.x = .fin (((3 : ℤ) : ℚ) * n / 2) then -1 else -3) ∧
      (k = 4 → c0 = -3) ∧
      ∀ (depth : Option Nat) (x : Num) (i : Nat), i < k →
        restrictedX nodeSize depth x parent ((i : Nat) : ℤ) =
          .fin (((2 * (i : ℤ) + c0 : ℤ) : ℚ) * n / 2) := by
  have hidx : ∀ i : Nat, i < 4 →
      (Num.fin (((i : Nat) : ℤ) : ℚ)).mul (.fin (n : ℚ)) = .fin (((2 * (i : ℤ) : ℤ) : ℚ) * n / 2) := by
    intro i hi
    exact Num.mul_multiple n hn _ _ (2 * (i : ℤ)) (abs_le.mpr ⟨by omega, by omega⟩)
      (by push_cast; ring)
  have hhalf : (Num.fin (n : ℚ)).div 2 = .fin (((1 : ℤ) : ℚ) * n / 2) :=
    Num.div_multiple n hn _ _ 1 (by norm_num) (by push_cast; ring)
  have h15 : (Num.fin (n : ℚ)).mul (.fin 1.5) = .fin (((3 : ℤ) : ℚ) * n / 2) :=
    Num.mul_multiple n hn _ _ 3 (by norm_num) (by push_cast; norm_num; ring)
  have hm15 : (Num.fin (n : ℚ)).mul (.fin (-1.5)) = .fin (((-3 : ℤ) : ℚ) * n / 2) :=
    Num.mul_multiple n hn _ _ (-3) (by norm_num) (by push_cast; norm_num; ring)
  have h15b : (Num.fin 1.5).mul (.fin (n : ℚ)) = .fin (((3 : ℤ) : ℚ) * n / 2) :=
    Num.mul_multiple n hn _ _ 3 (by norm_num) (by push_cast; norm_num; ring)
  have hsub : ∀ (a b c : ℤ), |c| ≤ 6 → a - b = c →
      (Num.fin ((a : ℚ) * n / 2)).sub (.fin ((b : ℚ) * n / 2)) = .fin ((c : ℚ) * n / 2) := by
    intro a b c hc6 hab
    exact Num.sub_multiple n hn _ _ c hc6 (by rw [← hab]; push_cast; ring)
  have hsuby : ∀ (a c : ℤ), |c| ≤ 6 → a - 2 = c →
      (Num.fin ((a : ℚ) * n / 2)).sub (.fin (n : ℚ)) = .fin ((c : ℚ) * n / 2) := by
    intro a c hc6 hab
    exact Num.sub_multiple n hn _ _ c hc6 (by rw [← hab]; push_cast; ring)
  have haddy : ∀ (a c : ℤ), |c| ≤ 6 → a + 2 = c →
      (Num.fin ((a : ℚ) * n / 2)).add (.fin (n : ℚ)) = .fin ((c : ℚ) * n / 2) := by
    intro a c hc6 hab
    exact Num.add_multiple n hn _ _ c hc6 (by rw [← hab]; push_cast; ring)
  have e1 : parent.x.strictEq (nodeSize.y.mul (.fin (-1.5))) = true ↔
      parent.x = .fin (((-3 : ℤ) : ℚ) * n / 2) := by
    rw [hy, hm15, Num.strictEq_fin]
  have e2 : parent.x.strictEq (nodeSize.y.mul (.fin 1.5)) = true ↔
      parent.x = .fin (((3 : ℤ) : ℚ) * n / 2) := by
    rw [hy, h15, Num.strictEq_fin]
  have e3 : parent.x.strictEq (nodeSize.y.div 2) = true ↔
      parent.x = .fin (((1 : ℤ) : ℚ) * n / 2) := by
    rw [hy, hhalf, Num.strictEq_fin]
  rcases hk with rfl | rfl | rfl
  · -- two children
    by_cases h1 : parent.x = .fin (((-3 : ℤ) : ℚ) * n / 2)
    · refine ⟨-3, fun _ => by rw [if_pos h1], fun h => absurd h (by decide),
        fun h => absurd h (by decide), ?_⟩
      intro depth x i hi
      simp only [restrictedX, hc, Option.some.injEq, OfNat.ofNat_ne_one, false_and, if_false,
        if_true, e1.mpr h1]
      rw [hy, hidx i (by omega), hhalf,
        hsub (2 * i) 1 (2 * i - 1) (abs_le.mpr ⟨by omega, by omega⟩) rfl,
        hsuby (2 * i - 1) (2 * i + -3) (abs_le.mpr ⟨by omega, by omega⟩) (by ring)]
    · have h1b : ¬ (parent.x.strictEq (nodeSize.y.mul (.fin (-1.5))) = true) :=
        fun h => h1 (e1.mp h)
      by_cases h2 : parent.x = .fin (((3 : ℤ) : ℚ) * n / 2)
      · refine ⟨1, fun _ => by rw [if_neg h1, if_pos h2], fun h => absurd h (by decide),
          fun h => absurd h (by decide), ?_⟩
        intro depth x i hi
        simp only [restrictedX, hc, Option.some.injEq, OfNat.ofNat_ne_one, false_and, if_false,
          if_true, h1b, e2.mpr h2]
        rw [hy, hidx i (by omega), hhalf,
          hsub (2 * i) 1 (2 * i - 1) (abs_le.mpr ⟨by omega, by omega⟩) rfl,
          haddy (2 * i - 1) (2 * i + 1) (abs_le.mpr ⟨by omega, by omega⟩) (by ring)]
        simp
      · have h2b : ¬ (parent.x.strictEq (nodeSize.y.mul (.fin 1.5)) = true) :=
          fun h => h2 (e2.mp h)
        refine ⟨-1, fun _ => by rw [if_neg h1, if_neg h2], fun h => absurd h (by decide),
          fun h => absurd h (by decide), ?_⟩
        intro depth x i hi
        simp only [restrictedX, hc, Option.some.injEq, OfNat.ofNat_ne_one, false_and, if_false,
          if_true, h1b, h2b]
        rw [hy, hidx i (by omega), hhalf,
          hsub (2 * i) 1 (2 * i + -1) (abs_le.mpr ⟨by omega, by omega⟩) (by ring)]
        simp
  · -- three children
    by_cases h1 : parent.x = .fin (((1 : ℤ) : ℚ) * n / 2) ∨
        parent.x = .fin (((3 : ℤ) : ℚ) * n / 2)
    · refine ⟨-1, fun h => absurd h (by decide), fun _ => by rw [if_pos h1],
        fun h => absurd h (by decide), ?_⟩
      intro depth x i hi
      have hx : (if parent.x.strictEq (nodeSize.y.div 2) = true then
            (((Num.fin (((i : Nat) : ℤ) : ℚ)).mul nodeSize.y).sub
              (nodeSize.y.mul (.fin 1.5))).add nodeSize.y
          else if parent.x.strictEq (nodeSize.y.mul (.fin 1.5)) = true then
            (((Num.fin (((i : Nat) : ℤ) : ℚ)).mul nodeSize.y).sub
              (nodeSize.y.mul (.fin 1.5))).add nodeSize.y
          else ((Num.fin (((i : Nat) : ℤ) : ℚ)).mul nodeSize.y).sub
              (nodeSize.y.mul (.fin 1.5))) =
          (((Num.fin (((i : Nat) : ℤ) : ℚ)).mul nodeSize.y).sub
              (nodeSize.y.mul (.fin 1.5))).add nodeSize.y := by
        rcases h1 with h1 | h1
        · rw [if_pos (e3.mpr h1)]
        · rw [if_pos (e2.mpr h1)]
          split_ifs <;> rfl
      simp only [restrictedX, hc, Option.some.injEq, OfNat.ofNat_ne_one, false_and, if_false,
        if_true, Nat.reduceEqDiff]
      rw [hx, hy, hidx i (by omega), h15,
        hsub (2 * i) 3 (2 * i - 3) (abs_le.mpr ⟨by omega, by omega⟩) rfl,
        haddy (2 * i - 3) (2 * i + -1) (abs_le.mpr ⟨by omega, by omega⟩) (by ring)]
    · refine ⟨-3, fun h => absurd h (by decide), fun _ => by rw [if_neg h1],
        fun h => absurd h (by decide), ?_⟩
      intro depth x i hi
      push_neg at h1
      have h1a : ¬ (parent.x.strictEq (nodeSize.y.div 2) = true) := fun h => h1.1 (e3.mp h)
      have h1b : ¬ (parent.x.strictEq (nodeSize.y.mul (.fin 1.5)) = true) :=
        fun h => h1.2 (e2.mp h)
      simp only [restrictedX, hc, Option.some.injEq, OfNat.ofNat_ne_one, false_and, if_false,
        if_true, Nat.reduceEqDiff, h1a, h1b]
      rw [hy, hidx i (by omega), h15,
        hsub (2 * i) 3 (2 * i + -3) (abs_le.mpr ⟨by omega, by omega⟩) (by ring)]
      simp
  · -- four children
    refine ⟨-3, fun h => absurd h (by decide), fun h => absurd h (by decide), fun _ => rfl, ?_⟩
    intro depth x i hi
    simp only [restrictedX, hc, Option.some.injEq, OfNat.ofNat_ne_one, false_and, if_false,
      if_true, Nat.reduceEqDiff]
    rw [hy, hidx i (by omega), h15b,
      hsub (2 * i) 3 (2 * i + -3) (abs_le.mpr ⟨by omega, by omega⟩) (by ring)]

/-! ## Height restriction: spacing of siblings -/

theorem findIndex_of_nodup (id : String) : ∀ (children : List Node) (i j : Nat) (c : Node),
    (children.map (fun elem => elem.fields.id)).Nodup → children[j]? = some c →
      c.fields.id = id → findIndex id children i = ((i + j : Nat) : ℤ)
  | [], i, j, c, _, h, _ => by simp at h
  | elem :: rest, i, 0, c, _, h, hid => by
    simp only [List.getElem?_cons_zero, Option.some.injEq] at h
    subst h
    simp [findIndex, hid]
  | elem :: rest, i, j + 1, c, hn, h, hid => by
    simp only [List.getElem?_cons_succ] at h
    simp only [List.map_cons, List.nodup_cons] at hn
    have hne : elem.fields.id ≠ id := by
      intro he
      apply hn.1
      rw [he, ← hid]
      exact List.mem_map_of_mem _ (List.getElem?_mem h)
    rw [findIndex, if_neg hne, findIndex_of_nodup id rest (i + 1) j c hn.2 h hid]
    congr 1
    omega

theorem restrictNodeHeightGrowth_nil (nodeSize : NodeSize) (rootNode : Node)
    (placed : Path → Placement) :
    restrictNodeHeightGrowth [] nodeSize rootNode placed = .ok placed := by
  rw [restrictNodeHeightGrowth]

theorem restrictNodeHeightGrowth_concat (nodeSize : NodeSize) (rootNode : Node) :
    ∀ (nodes : List Path) (last : Path) (placed : Path → Placement),
      restrictNodeHeightGrowth (nodes ++ [last]) nodeSize rootNode placed =
        match restrictNodeHeightGrowth nodes nodeSize rootNode placed with
        | .error e => .error e
        | .ok placed => restrictNodeHeightGrowth.visit nodeSize rootNode placed last
  | [], last, placed => by
    simp only [List.nil_append, restrictNodeHeightGrowth]
    cases restrictNodeHeightGrowth.visit nodeSize rootNode placed last <;> rfl
  | node :: rest, last, placed => by
    simp only [List.cons_append, restrictNodeHeightGrowth]
    cases restrictNodeHeightGrowth.visit nodeSize rootNode placed node with
    | error e => rfl
    | ok placed2 => exact restrictNodeHeightGrowth_concat nodeSize rootNode rest last placed2

/-- A visit of the root, or of any node whose depth is 0, writes its
`childrenCount` and nothing else. -/
theorem restrictNodeHeightGrowth.visit_of_root (nodeSize : NodeSize) (rootNode : Node)
    (placed : Path → Placement) (ref : Path) (node : Node)
    (h : rootNode.sub? ref = some node) (hd : node.fields.depth = some 0) :
    restrictNodeHeightGrowth.visit nodeSize rootNode placed ref =
      .ok (Function.update placed ref
        { placed ref with childrenCount := some node.children.length }) := by
  simp only [restrictNodeHeightGrowth.visit, h, hd, if_true]

/-- A visit of a node below the root writes its `childrenCount` and then its
`x`, from the placement of the parent. -/
theorem restrictNodeHeightGrowth.visit_of_child (nodeSize : NodeSize) (rootNode : Node)
    (placed : Path → Placement) (p : Path) (i : Nat) (node parent : Node)
    (h : rootNode.sub? (p ++ [i]) = some node) (hp : rootNode.sub? p = some parent)
    (hd : node.fields.depth ≠ some 0) (hs : parent.fields.children = ChildrenField.shared) :
    restrictNodeHeightGrowth.visit nodeSize rootNode placed (p ++ [i]) =
      .ok (Function.update placed (p ++ [i])
        { x := restrictedX nodeSize node.fields.depth (placed (p ++ [i])).x (placed p)
            (findIndex node.fields.id parent.children 0),
          y := (placed (p ++ [i])).y,
          childrenCount := some node.children.length }) := by
  have hne : p ≠ p ++ [i] := by
    intro he
    have := congrArg List.length he
    simp at this
  simp only [restrictNodeHeightGrowth.visit, h, hd, if_false, List.getLast?_concat,
    List.dropLast_concat, hp, hs, Function.update_same, Function.update_noteq hne,
    Function.update_idem]
  rw [List.dropLast_concat, Function.update_noteq hne]


/-- What one visit does to the placements, for a node whose `depth` is the
true one and whose parent, if it has one, holds it in `children`. -/
theorem restrictNodeHeightGrowth.visit_update (nodeSize : NodeSize) (rootNode : Node)
    (placed : Path → Placement) (ref : Path) (node : Node)
    (h : rootNode.sub? ref = some node) (hd : node.fields.depth = some ref.length)
    (hs : ∀ (p : Path) (i : Nat) (m : Node), ref = p ++ [i] → rootNode.sub? p = some m →
      m.fields.children = ChildrenField.shared) :
    ∃ v : Placement,
      restrictNodeHeightGrowth.visit nodeSize rootNode placed ref =
        .ok (Function.update placed ref v) ∧
      v.y = (placed ref).y ∧
      v.childrenCount = some node.children.length ∧
      (ref = [] → v.x = (placed ref).x) ∧
      (∀ (p : Path) (i : Nat) (m : Node), ref = p ++ [i] → rootNode.sub? p = some m →
        v.x = restrictedX nodeSize node.fields.depth (placed ref).x (placed p)
          (findIndex node.fields.id m.children 0)) := by
  rcases List.eq_nil_or_concat ref with rfl | ⟨p, i, rfl⟩
  · refine ⟨_, restrictNodeHeightGrowth.visit_of_root nodeSize rootNode placed [] node h
      (by simpa using hd), rfl, rfl, fun _ => rfl, ?_⟩
    intro p i m he
    exact absurd he (by simp)
  · rw [List.concat_eq_append] at h hd hs ⊢
    have hpar : ∃ parent, rootNode.sub? p = some parent := by
      rw [Node.sub?_append] at h
      cases hp : rootNode.sub? p with
      | none => rw [hp] at h; simp at h
      | some parent => exact ⟨parent, rfl⟩
    obtain ⟨parent, hp⟩ := hpar
    have hd0 : node.fields.depth ≠ some 0 := by
      rw [hd]
      simp
    refine ⟨_, restrictNodeHeightGrowth.visit_of_child nodeSize rootNode placed p i node parent h hp
      hd0 (hs p i parent rfl hp), rfl, rfl, fun he => absurd he (by simp), ?_⟩
    intro p2 i2 m he hm
    obtain ⟨hpe, _⟩ := List.append_inj' he rfl
    subst hpe
    rw [hp] at hm
    cases hm
    rfl

/-- The state after `restrictNodeHeightGrowth` over a list of references that
names no node twice and names every parent before its children, when the
`depth` fields are the true depths and every listed node below the root is in
the `children` of its parent: the call returns; only the listed nodes are
touched; no `y` changes; the root keeps its `x`; every listed node has its
`childrenCount`; and the `x` of a listed node below the root is the value of
the `if` chain at the final placement of its parent. -/
theorem restrictNodeHeightGrowth_facts (nodeSize : NodeSize) (rootNode : Node)
    (placed : Path → Placement) : ∀ nodes : List Path, nodes.Nodup →
    (∀ (l1 l2 : List Path) (q : Path), nodes = l1 ++ q :: l2 → q ≠ [] → q.dropLast ∈ l1) →
    (∀ q ∈ nodes, ∀ n ∈ rootNode.sub? q, n.fields.depth = some q.length) →
    (∀ q ∈ nodes, q ≠ [] → ∀ m ∈ rootNode.sub? q.dropLast,
      m.fields.children = ChildrenField.shared) →
    ∃ placed2 : Path → Placement,
      restrictNodeHeightGrowth nodes nodeSize rootNode placed = .ok placed2 ∧
      (∀ q, q ∉ nodes → placed2 q = placed q) ∧
      (∀ q, (placed2 q).y = (placed q).y) ∧
      (placed2 []).x = (placed []).x ∧
      (∀ q ∈ nodes, ∀ n, rootNode.sub? q = some n →
        (placed2 q).childrenCount = some n.children.length) ∧
      (∀ (p : Path) (i : Nat), p ++ [i] ∈ nodes → ∀ n m : Node,
        rootNode.sub? (p ++ [i]) = some n → rootNode.sub? p = some m →
          (placed2 (p ++ [i])).x =
            restrictedX nodeSize n.fields.depth (placed (p ++ [i])).x (placed2 p)
              (findIndex n.fields.id m.children 0)) := by
  intro nodes
  induction nodes using List.reverseRecOn with
  | nil =>
    intro _ _ _ _
    refine ⟨placed, restrictNodeHeightGrowth_nil _ _ _, fun _ _ => rfl, fun _ => rfl, rfl,
      fun q hq => absurd hq (List.not_mem_nil q), fun p i hq => absurd hq (List.not_mem_nil _)⟩
  | append_singleton l q0 ih =>
    intro hnodup hfirst hdepth hshared
    have hl : l.Nodup := (List.nodup_append.mp hnodup).1
    have hq0 : q0 ∉ l := by
      intro hmem
      exact (List.nodup_append.mp hnodup).2.2 hmem (List.mem_singleton_self q0)
    have hfirstl : ∀ (l1 l2 : List Path) (q : Path), l = l1 ++ q :: l2 → q ≠ [] →
        q.dropLast ∈ l1 := by
      intro l1 l2 q he hq
      exact hfirst l1 (l2 ++ [q0]) q (by rw [he]; simp) hq
    have hparent : ∀ q ∈ l, q ≠ [] → q.dropLast ∈ l := by
      intro q hq hne
      obtain ⟨s, t, he⟩ := List.append_of_mem hq
      have := hfirstl s t q he hne
      rw [he]
      exact List.mem_append_left _ this
    obtain ⟨placed1, hrun, hout, hy, hroot, hcount, hx⟩ := ih hl hfirstl
      (fun q hq => hdepth q (List.mem_append_left _ hq))
      (fun q hq => hshared q (List.mem_append_left _ hq))
    rw [restrictNodeHeightGrowth_concat, hrun]
    cases hsub : rootNode.sub? q0 with
    | none =>
      refine ⟨placed1, by simp [restrictNodeHeightGrowth.visit, hsub], ?_, hy, hroot, ?_, ?_⟩
      · intro q hq
        exact hout q (fun hm => hq (List.mem_append_left _ hm))
      · intro q hq n hn
        rcases List.mem_append.mp hq with hm | hm
        · exact hcount q hm n hn
        · rw [List.mem_singleton.mp hm, hsub] at hn
          cases hn
      · intro p i hq n m hn hm
        rcases List.mem_append.mp hq with hmem | hmem
        · exact hx p i hmem n m hn hm
        · rw [List.mem_singleton.mp hmem, hsub] at hn
          cases hn
    | some n0 =>
      have hmem0 : q0 ∈ l ++ [q0] := List.mem_append_right _ (List.mem_singleton_self q0)
      obtain ⟨v, hvisit, hvy, hvc, hvroot, hvx⟩ :=
        restrictNodeHeightGrowth.visit_update nodeSize rootNode placed1 q0 n0 hsub
          (hdepth q0 hmem0 n0 hsub)
          (by
            intro p i m he hm
            have hne : q0 ≠ [] := by rw [he]; simp
            exact hshared q0 hmem0 hne m (by rw [he, List.dropLast_concat]; exact hm))
      have hpar0 : q0 ≠ [] → q0.dropLast ∈ l := by
        intro hne
        have := hfirst l [] q0 rfl hne
        exact this
      refine ⟨Function.update placed1 q0 v, hvisit, ?_, ?_, ?_, ?_, ?_⟩
      · intro q hq
        have hne : q ≠ q0 := fun he => hq (he ▸ hmem0)
        rw [Function.update_noteq hne]
        exact hout q (fun hm => hq (List.mem_append_left _ hm))
      · intro q
        by_cases he : q = q0
        · subst he
          rw [Function.update_same, hvy, hy]
        · rw [Function.update_noteq he, hy]
      · by_cases he : ([] : Path) = q0
        · subst he
          rw [Function.update_same, hvroot rfl, hroot]
        · rw [Function.update_noteq he, hroot]
      · intro q hq n hn
        by_cases he : q = q0
        · subst he
          rw [Function.update_same, hvc]
          rw [hsub] at hn
          cases hn
          rfl
        · rw [Function.update_noteq he]
          rcases List.mem_append.mp hq with hm | hm
          · exact hcount q hm n hn
          · exact absurd (List.mem_singleton.mp hm) he
      · intro p i hq n m hn hm
        by_cases he : p ++ [i] = q0
        · have hpl : p ∈ l := by
            have := hpar0 (by rw [← he]; simp)
            rwa [← he, List.dropLast_concat] at this
          have hpne : p ≠ q0 := fun h2 => hq0 (h2 ▸ hpl)
          rw [Function.update_noteq hpne, he, Function.update_same,
            hvx p i m he.symm hm, hout q0 hq0]
          rw [← he] at hsub
          rw [hsub] at hn
          cases hn
          rfl
        · have hml : p ++ [i] ∈ l := by
            rcases List.mem_append.mp hq with hm2 | hm2
            · exact hm2
            · exact absurd (List.mem_singleton.mp hm2) he
          have hpl : p ∈ l := by
            have := hparent (p ++ [i]) hml (by simp)
            rwa [List.dropLast_concat] at this
          have hpne : p ≠ q0 := fun h2 => hq0 (h2 ▸ hpl)
          rw [Function.update_noteq he, Function.update_noteq hpne]
          exact hx p i hml n m hn hm

/-- Each parent before its children, read off positions: every listed
reference below the root has the reference one step up earlier in the list. -/
theorem dropLast_mem_of_take (nodes : List Path)
    (hfirst : ∀ (k : Nat) (h : k < nodes.length), nodes[k] ≠ [] →
      nodes[k].dropLast ∈ nodes.take k)
    (l1 l2 : List Path) (q : Path) (he : nodes = l1 ++ q :: l2) (hq : q ≠ []) :
    q.dropLast ∈ l1 := by
  subst he
  have hk : l1.length < (l1 ++ q :: l2).length := by simp
  have hget : (l1 ++ q :: l2)[l1.length] = q := List.getElem_of_append rfl rfl
  have h1 := hfirst l1.length hk
  rw [hget, List.take_left' rfl] at h1
  exact h1 hq

/-- In a list that names each parent before its children, the parent of a
listed reference is listed. -/
theorem mem_of_concat_mem (nodes : List Path)
    (hfirst : ∀ (k : Nat) (h : k < nodes.length), nodes[k] ≠ [] →
      nodes[k].dropLast ∈ nodes.take k)
    (p : Path) (i : Nat) (h : p ++ [i] ∈ nodes) : p ∈ nodes := by
  obtain ⟨s, t, he⟩ := List.append_of_mem h
  have h1 := dropLast_mem_of_take nodes hfirst s t (p ++ [i]) he (by simp)
  rw [List.dropLast_concat] at h1
  rw [he]
  exact List.mem_append_left _ h1

theorem Node.sub?_single (m : Node) (i : Nat) : m.sub? [i] = m._children[i]? := by
  cases m with
  | mk f cs =>
    simp only [Node.sub?, Node._children]
    cases cs[i]? <;> rfl

/-- The `x` of a listed child after `restrictNodeHeightGrowth`, under the
conditions of `restrictNodeHeightGrowth_facts` and with sibling ids pairwise
distinct: the parent carries its number of children, and the child's `x` is
the value of the `if` chain at its own index. -/
theorem restrictNodeHeightGrowth_children (nodes : List Path) (nodeSize : NodeSize)
    (rootNode : Node) (placed : Path → Placement)
    (hnodup : nodes.Nodup)
    (hfirst : ∀ (k : Nat) (h : k < nodes.length), nodes[k] ≠ [] →
      nodes[k].dropLast ∈ nodes.take k)
    (hdepth : ∀ q ∈ nodes, ∀ n ∈ rootNode.sub? q, n.fields.depth = some q.length)
    (hshared : ∀ q ∈ nodes, q ≠ [] → ∀ m ∈ rootNode.sub? q.dropLast,
      m.fields.children = ChildrenField.shared)
    (hids : ∀ q ∈ nodes, ∀ m ∈ rootNode.sub? q,
      (m.children.map (fun elem => elem.fields.id)).Nodup) :
    ∃ placed2 : Path → Placement,
      restrictNodeHeightGrowth nodes nodeSize rootNode placed = .ok placed2 ∧
      (∀ q, (placed2 q).y = (placed q).y) ∧
      (placed2 []).x = (placed []).x ∧
      (∀ (p : Path) (i : Nat) (m : Node), p ++ [i] ∈ nodes → rootNode.sub? p = some m →
        i < m.children.length →
          (placed2 p).childrenCount = some m.children.length ∧
          ∃ depth : Option Nat, (placed2 (p ++ [i])).x =
            restrictedX nodeSize depth (placed (p ++ [i])).x (placed2 p) ((i : Nat) : ℤ)) := by
  obtain ⟨placed2, hrun, _, hy, hroot, hcount, hx⟩ :=
    restrictNodeHeightGrowth_facts nodeSize rootNode placed nodes hnodup
      (dropLast_mem_of_take nodes hfirst) hdepth hshared
  refine ⟨placed2, hrun, hy, hroot, ?_⟩
  intro p i m hmem hm hi
  have hp : p ∈ nodes := mem_of_concat_mem nodes hfirst p i hmem
  have hsh : m.fields.children = ChildrenField.shared :=
    hshared (p ++ [i]) hmem (by simp) m (by rw [List.dropLast_concat]; exact hm)
  have hch : m.children = m._children := by
    simp only [Node.children, hsh]
  rw [hch] at hi
  have hget : m._children[i]? = some (m._children.get ⟨i, hi⟩) := by
    simp [List.getElem?_eq_getElem hi]
  have hn : rootNode.sub? (p ++ [i]) = some (m._children.get ⟨i, hi⟩) := by
    rw [Node.sub?_append, hm]
    simp only [Option.some_bind, Node.sub?_single, hget]
  refine ⟨hcount p hp m hm, (m._children.get ⟨i, hi⟩).fields.depth, ?_⟩
  rw [hx p i hmem _ m hn hm, hch,
    findIndex_of_nodup _ m._children 0 i _ (by rw [← hch]; exact hids p hp m hm) hget rfl]
  simp

/-- C22 at a failing input: R(a, b, c, d) with `nodeSize.y` the double that the
literal `100.1` denotes and every node at the origin before. The four
children end at `0 * y - 1.5 * y`, ..., `3 * y - 1.5 * y` as doubles compute
them: c at `880488911523021 / 2 ^ 44` and d at `1320733367284531 / 2 ^ 43`,
and the gap between the two is one unit in the last place short of
`nodeSize.y`. -/
theorem restrictNodeHeightGrowth_spacing_counterexample :
    Num.round (1001 / 10) = .fin exampleInexact ∧
    treeNodes defaultProps exampleFour = [[], [0], [1], [2], [3]] ∧
    (exampleFour.sub? []).map (fun m => m.children.length) = some 4 ∧
    (∃ placed2 : Path → Placement,
      restrictNodeHeightGrowth (treeNodes defaultProps exampleFour)
        { x := .fin 140, y := .fin exampleInexact } exampleFour exampleOrigin = .ok placed2 ∧
      (placed2 [2]).x = .fin (880488911523021 / 2 ^ 44) ∧
      (placed2 [3]).x = .fin (1320733367284531 / 2 ^ 43)) ∧
    (1320733367284531 / 2 ^ 43 - 880488911523021 / 2 ^ 44 : ℚ) ≠ exampleInexact := by
  refine ⟨?_, by decide, by decide, ?_, by norm_num [exampleInexact]⟩
  · have h := Num.round_eq (1001 / 10) 6 7043911292184166 (by norm_num) (by norm_num)
      (by norm_num) (roundHalfEven_of_near _ _ (by norm_num [abs_lt])) (by norm_num [abs_lt])
    rw [h, exampleInexact]
    norm_num
  · obtain ⟨placed2, hrun, _, _, hch⟩ :=
      restrictNodeHeightGrowth_children (treeNodes defaultProps exampleFour)
        { x := .fin 140, y := .fin exampleInexact } exampleFour exampleOrigin
        (by decide) (by decide) (by decide) (by decide) (by decide)
    obtain ⟨hc, _, h2⟩ := hch [] 2 _ (by decide) rfl (by decide)
    obtain ⟨_, _, h3⟩ := hch [] 3 _ (by decide) rfl (by decide)
    have hc4 : (placed2 []).childrenCount = some 4 := hc.trans (by decide)
    -- the doubles 2 * y, 3 * y and 1.5 * y
    have m2 : (Num.fin ((2 : ℤ) : ℚ)).mul (.fin exampleInexact) =
        .fin (7043911292184166 / 2 ^ 45) := by
      show Num.round (((2 : ℤ) : ℚ) * exampleInexact) = _
      have h := Num.round_eq (((2 : ℤ) : ℚ) * exampleInexact) 7 7043911292184166
        (by norm_num [exampleInexact]) (by norm_num [exampleInexact]) (by norm_num)
        (roundHalfEven_of_near _ _ (by norm_num [exampleInexact, abs_lt]))
        (by norm_num [abs_lt])
      rw [h]
      norm_num
    have m3 : (Num.fin ((3 : ℤ) : ℚ)).mul (.fin exampleInexact) =
        .fin (5282933469138124 / 2 ^ 44) := by
      show Num.round (((3 : ℤ) : ℚ) * exampleInexact) = _
      have h := Num.round_eq (((3 : ℤ) : ℚ) * exampleInexact) 8 5282933469138124
        (by norm_num [exampleInexact]) (by norm_num [exampleInexact]) (by norm_num)
        (roundHalfEven_of_tie _ _ (by norm_num [exampleInexact]) (by norm_num))
        (by norm_num [abs_lt])
      rw [h]
      norm_num
    have m15 : (Num.fin 1.5).mul (.fin exampleInexact) = .fin (5282933469138124 / 2 ^ 45) := by
      show Num.round (1.5 * exampleInexact) = _
      have h := Num.round_eq (1.5 * exampleInexact) 7 5282933469138124
        (by norm_num [exampleInexact]) (by norm_num [exampleInexact]) (by norm_num)
        (roundHalfEven_of_tie _ _ (by norm_num [exampleInexact]) (by norm_num))
        (by norm_num [abs_lt])
      rw [h]
      norm_num
    -- the two differences
    have s2 : (Num.fin (7043911292184166 / 2 ^ 45)).sub (.fin (5282933469138124 / 2 ^ 45)) =
        .fin (880488911523021 / 2 ^ 44) := by
      show Num.round (7043911292184166 / 2 ^ 45 + -(5282933469138124 / 2 ^ 45)) = _
      have h := Num.round_eq (7043911292184166 / 2 ^ 45 + -(5282933469138124 / 2 ^ 45)) 5
        7043911292184168 (by norm_num) (by norm_num) (by norm_num)
        (roundHalfEven_of_near _ _ (by norm_num [abs_lt])) (by norm_num [abs_lt])
      rw [h]
      norm_num
    have s3 : (Num.fin (5282933469138124 / 2 ^ 44)).sub (.fin (5282933469138124 / 2 ^ 45)) =
        .fin (1320733367284531 / 2 ^ 43) := by
      show Num.round (5282933469138124 / 2 ^ 44 + -(5282933469138124 / 2 ^ 45)) = _
      have h := Num.round_eq (5282933469138124 / 2 ^ 44 + -(5282933469138124 / 2 ^ 45)) 7
        5282933469138124 (by norm_num) (by norm_num) (by norm_num)
        (roundHalfEven_of_near _ _ (by norm_num [abs_lt])) (by norm_num [abs_lt])
      rw [h]
      norm_num
    refine ⟨placed2, hrun, ?_, ?_⟩
    · rw [show ([2] : Path) = [] ++ [2] from rfl, h2]
      simp only [restrictedX, hc4, Option.some.injEq, OfNat.ofNat_ne_one, false_and, if_false,
        Nat.reduceEqDiff, if_true]
      exact (congrArg (fun a => a.sub ((Num.fin 1.5).mul (.fin exampleInexact))) m2).trans
        (by rw [m15, s2])
    · rw [show ([3] : Path) = [] ++ [3] from rfl, h3]
      simp only [restrictedX, hc4, Option.some.injEq, OfNat.ofNat_ne_one, false_and, if_false,
        Nat.reduceEqDiff, if_true]
      exact (congrArg (fun a => a.sub ((Num.fin 1.5).mul (.fin exampleInexact))) m3).trans
        (by rw [m15, s3])

/-- C22, amended: for every list of references that names no node twice and
names each parent before its children, with the `depth` fields the true
depths, every listed node below the root held in the `children` of its parent
and sibling ids pairwise distinct, `restrictNodeHeightGrowth` returns, and the
`y` of every node and the `x` of the root are as before. When `nodeSize.y` is
an integer of magnitude at most `2 ^ 50`, so that the doubles of the `if`
chain are exact, the listed children of any parent that has 2, 3 or 4 children
are evenly spaced in child order: the `x` of child `i + 1` minus the `x` of
child `i` is exactly `nodeSize.y`. -/
theorem restrictNodeHeightGrowth_spacing (nodes : List Path) (nodeSize : NodeSize)
    (rootNode : Node) (placed : Path → Placement)
    (hnodup : nodes.Nodup)
    (hfirst : ∀ (k : Nat) (h : k < nodes.length), nodes[k] ≠ [] →
      nodes[k].dropLast ∈ nodes.take k)
    (hdepth : ∀ q ∈ nodes, ∀ n ∈ rootNode.sub? q, n.fields.depth = some q.length)
    (hshared : ∀ q ∈ nodes, q ≠ [] → ∀ m ∈ rootNode.sub? q.dropLast,
      m.fields.children = ChildrenField.shared)
    (hids : ∀ q ∈ nodes, ∀ m ∈ rootNode.sub? q,
      (m.children.map (fun elem => elem.fields.id)).Nodup) :
    ∃ placed2 : Path → Placement,
      restrictNodeHeightGrowth nodes nodeSize rootNode placed = .ok placed2 ∧
      (∀ q, (placed2 q).y = (placed q).y) ∧
      (placed2 []).x = (placed []).x ∧
      (∀ n : ℤ, nodeSize.y = .fin n → |n| ≤ 2 ^ 50 →
        ∀ (p : Path) (i : Nat) (m : Node), p ++ [i] ∈ nodes → p ++ [i + 1] ∈ nodes →
          rootNode.sub? p = some m →
          (m.children.length = 2 ∨ m.children.length = 3 ∨ m.children.length = 4) →
          i + 1 < m.children.length →
            ∃ a b : ℚ, (placed2 (p ++ [i + 1])).x = .fin a ∧ (placed2 (p ++ [i])).x = .fin b ∧
              a - b = n) := by
  obtain ⟨placed2, hrun, hy, hroot, hch⟩ :=
    restrictNodeHeightGrowth_children nodes nodeSize rootNode placed hnodup hfirst hdepth
      hshared hids
  refine ⟨placed2, hrun, hy, hroot, ?_⟩
  intro n hn hbound p i m h1 h2 hm hk hi
  obtain ⟨hc, d1, hx1⟩ := hch p i m h1 hm (by omega)
  obtain ⟨_, d2, hx2⟩ := hch p (i + 1) m h2 hm hi
  obtain ⟨c0, _, _, _, hval⟩ :=
    restrictedX_of_int nodeSize n hn hbound (placed2 p) m.children.length hc hk
  refine ⟨_, _, hx2.trans (hval d2 _ (i + 1) hi), hx1.trans (hval d1 _ i (by omega)), ?_⟩
  push_cast
  ring

/-- With the default `nodeSize.y` of 140, the children of P and of Q in the
wide example are 140 apart, and the root stays where it was. -/
theorem restrictNodeHeightGrowth_spacing_witness :
    ∃ placed2 : Path → Placement,
      restrictNodeHeightGrowth (treeNodes defaultProps exampleWide) exampleNodeSize exampleWide
        exampleOrigin = .ok placed2 ∧
      (placed2 []).x = .fin 0 ∧
      (∃ a b : ℚ, (placed2 [1]).x = .fin a ∧ (placed2 [0]).x = .fin b ∧ a - b = 140) ∧
      (∃ a b : ℚ, (placed2 [0, 1]).x = .fin a ∧ (placed2 [0, 0]).x = .fin b ∧ a - b = 140) ∧
      (∃ a b : ℚ, (placed2 [1, 2]).x = .fin a ∧ (placed2 [1, 1]).x = .fin b ∧ a - b = 140) := by
  obtain ⟨placed2, hrun, _, hroot, hsp⟩ :=
    restrictNodeHeightGrowth_spacing (treeNodes defaultProps exampleWide) exampleNodeSize
      exampleWide exampleOrigin (by decide) (by decide) (by decide) (by decide) (by decide)
  have h := hsp 140 rfl (by norm_num)
  exact ⟨placed2, hrun, hroot,
    by simpa using h [] 0 _ (by decide) (by decide) rfl (by decide) (by decide),
    by simpa using h [0] 0 _ (by decide) (by decide) rfl (by decide) (by decide),
    by simpa using h [1] 1 _ (by decide) (by decide) rfl (by decide) (by decide)⟩

/-- C21 at a failing input: in R(P(a, b, c), Q(d, e, f)) with `nodeSize.y`
140 and every node at the origin before, a and d both have child index 0 and
a parent with 3 children, and yet a ends at -210 and d at -70: P is at -70 and
Q at 70, which is `nodeSize.y / 2`. -/
theorem restrictNodeHeightGrowth_three_counterexample :
    (exampleWide.sub? [0]).map (fun m => m.children.length) = some 3 ∧
    (exampleWide.sub? [1]).map (fun m => m.children.length) = some 3 ∧
    (restrictNodeHeightGrowth (treeNodes defaultProps exampleWide) exampleNodeSize exampleWide
      exampleOrigin).toOption.map
        (fun placed => ((placed [0]).x, (placed [0, 0]).x, (placed [1]).x, (placed [1, 0]).x)) =
      some (.fin (-70), .fin (-210), .fin 70, .fin (-70)) := by
  refine ⟨by decide, by decide, ?_⟩
  obtain ⟨placed2, hrun, _, hroot, hch⟩ :=
    restrictNodeHeightGrowth_children (treeNodes defaultProps exampleWide) exampleNodeSize
      exampleWide exampleOrigin (by decide) (by decide) (by decide) (by decide) (by decide)
  obtain ⟨hcR, _, hP⟩ := hch [] 0 _ (by decide) rfl (by decide)
  obtain ⟨_, _, hQ⟩ := hch [] 1 _ (by decide) rfl (by decide)
  obtain ⟨hcP, _, ha⟩ := hch [0] 0 _ (by decide) rfl (by decide)
  obtain ⟨hcQ, _, hd⟩ := hch [1] 0 _ (by decide) rfl (by decide)
  have hR2 : (placed2 []).childrenCount = some 2 := hcR.trans (by decide)
  have hP3 : (placed2 [0]).childrenCount = some 3 := hcP.trans (by decide)
  have hQ3 : (placed2 [1]).childrenCount = some 3 := hcQ.trans (by decide)
  have hR0 : (placed2 []).x = .fin 0 := hroot
  have hy : exampleNodeSize.y = .fin ((140 : ℤ) : ℚ) := by
    simp [exampleNodeSize]
  obtain ⟨cR, hcR2, _, _, hvR⟩ :=
    restrictedX_of_int exampleNodeSize 140 hy (by norm_num) (placed2 []) 2 hR2 (Or.inl rfl)
  have hcRv : cR = -1 := by
    rw [hcR2 rfl, hR0]
    norm_num
  subst hcRv
  have hPx : (placed2 [0]).x = .fin (-70) := by
    rw [show ([0] : Path) = [] ++ [0] from rfl, hP, hvR _ _ 0 (by norm_num)]
    norm_num
  have hQx : (placed2 [1]).x = .fin 70 := by
    rw [show ([1] : Path) = [] ++ [1] from rfl, hQ, hvR _ _ 1 (by norm_num)]
    norm_num
  obtain ⟨cP, _, hcP3, _, hvP⟩ :=
    restrictedX_of_int exampleNodeSize 140 hy (by norm_num) (placed2 [0]) 3 hP3
      (Or.inr (Or.inl rfl))
  have hcPv : cP = -3 := by
    rw [hcP3 rfl, hPx]
    norm_num
  subst hcPv
  obtain ⟨cQ, _, hcQ3, _, hvQ⟩ :=
    restrictedX_of_int exampleNodeSize 140 hy (by norm_num) (placed2 [1]) 3 hQ3
      (Or.inr (Or.inl rfl))
  have hcQv : cQ = -1 := by
    rw [hcQ3 rfl, hQx]
    norm_num
  subst hcQv
  have hax : (placed2 [0, 0]).x = .fin (-210) := by
    rw [show ([0, 0] : Path) = [0] ++ [0] from rfl, ha, hvP _ _ 0 (by norm_num)]
    norm_num
  have hdx : (placed2 [1, 0]).x = .fin (-70) := by
    rw [show ([1, 0] : Path) = [1] ++ [0] from rfl, hd, hvQ _ _ 0 (by norm_num)]
    norm_num
  rw [hrun]
  simp only [Except.toOption, Option.map_some', hPx, hQx, hax, hdx]

/-- C21, amended: the parent's own offset is also used when the parent has 3
children. For a listed child of index `i`, in a list that names no node
twice and each parent before its children, with the `depth` fields and
`children` arrays as d3 leaves them and sibling ids pairwise distinct: when
the parent has 4 children the `x` assigned is the double `i * nodeSize.y -
1.5 * nodeSize.y`, whatever the parent's `x`; when the parent has 3 children
it is the double `i * nodeSize.y - nodeSize.y * 1.5`, plus `nodeSize.y` when
the parent's `x` is (`===`) the double `nodeSize.y / 2` or `nodeSize.y *
1.5`. -/
theorem restrictNodeHeightGrowth_parent_offset (nodes : List Path) (nodeSize : NodeSize)
    (rootNode : Node) (placed : Path → Placement)
    (hnodup : nodes.Nodup)
    (hfirst : ∀ (k : Nat) (h : k < nodes.length), nodes[k] ≠ [] →
      nodes[k].dropLast ∈ nodes.take k)
    (hdepth : ∀ q ∈ nodes, ∀ n ∈ rootNode.sub? q, n.fields.depth = some q.length)
    (hshared : ∀ q ∈ nodes, q ≠ [] → ∀ m ∈ rootNode.sub? q.dropLast,
      m.fields.children = ChildrenField.shared)
    (hids : ∀ q ∈ nodes, ∀ m ∈ rootNode.sub? q,
      (m.children.map (fun elem => elem.fields.id)).Nodup) :
    ∃ placed2 : Path → Placement,
      restrictNodeHeightGrowth nodes nodeSize rootNode placed = .ok placed2 ∧
      (∀ (p : Path) (i : Nat) (m : Node), p ++ [i] ∈ nodes → rootNode.sub? p = some m →
        i < m.children.length →
          (m.children.length = 4 →
            (placed2 (p ++ [i])).x =
              ((Num.fin i).mul nodeSize.y).sub ((Num.fin 1.5).mul nodeSize.y)) ∧
          (m.children.length = 3 →
            (placed2 (p ++ [i])).x =
              if (placed2 p).x.strictEq (nodeSize.y.div 2) = true ∨
                  (placed2 p).x.strictEq (nodeSize.y.mul (.fin 1.5)) = true then
                (((Num.fin i).mul nodeSize.y).sub (nodeSize.y.mul (.fin 1.5))).add nodeSize.y
              else ((Num.fin i).mul nodeSize.y).sub (nodeSize.y.mul (.fin 1.5)))) := by
  obtain ⟨placed2, hrun, _, _, hch⟩ :=
    restrictNodeHeightGrowth_children nodes nodeSize rootNode placed hnodup hfirst hdepth
      hshared hids
  refine ⟨placed2, hrun, ?_⟩
  intro p i m hmem hm hi
  obtain ⟨hc, d, hx⟩ := hch p i m hmem hm hi
  constructor
  · intro h4
    rw [hx, restrictedX, hc, h4]
    simp
  · intro h3
    rw [hx, restrictedX, hc, h3]
    simp only [Option.some.injEq, OfNat.ofNat_ne_one, false_and, if_false, Nat.reduceEqDiff,
      if_true, Int.cast_natCast]
    by_cases h1 : (placed2 p).x.strictEq (nodeSize.y.div 2) = true
    · simp [h1]
    · by_cases h2 : (placed2 p).x.strictEq (nodeSize.y.mul (.fin 1.5)) = true
      · simp [h2]
      · simp [h1, h2]

/-- In the wide example with `nodeSize.y` 140 the last child of P and the last
child of Q, whose parents have 3 children, get the `x` of the 3-children
branch, read at the `x` of P and of Q. -/
theorem restrictNodeHeightGrowth_parent_offset_witness :
    ∃ placed2 : Path → Placement,
      restrictNodeHeightGrowth (treeNodes defaultProps exampleWide) exampleNodeSize exampleWide
        exampleOrigin = .ok placed2 ∧
      (placed2 [0, 2]).x =
        (if (placed2 [0]).x.strictEq ((Num.fin 140).div 2) = true ∨
            (placed2 [0]).x.strictEq ((Num.fin 140).mul (.fin 1.5)) = true then
          (((Num.fin 2).mul (.fin 140)).sub ((Num.fin 140).mul (.fin 1.5))).add (.fin 140)
        else ((Num.fin 2).mul (.fin 140)).sub ((Num.fin 140).mul (.fin 1.5))) ∧
      (placed2 [1, 2]).x =
        (if (placed2 [1]).x.strictEq ((Num.fin 140).div 2) = true ∨
            (placed2 [1]).x.strictEq ((Num.fin 140).mul (.fin 1.5)) = true then
          (((Num.fin 2).mul (.fin 140)).sub ((Num.fin 140).mul (.fin 1.5))).add (.fin 140)
        else ((Num.fin 2).mul (.fin 140)).sub ((Num.fin 140).mul (.fin 1.5))) := by
  obtain ⟨placed2, hrun, h⟩ :=
    restrictNodeHeightGrowth_parent_offset (treeNodes defaultProps exampleWide) exampleNodeSize
      exampleWide exampleOrigin (by decide) (by decide) (by decide) (by decide) (by decide)
  exact ⟨placed2, hrun,
    (h [0] 2 _ (by decide) rfl (by decide)).2 (by decide),
    (h [1] 2 _ (by decide) rfl (by decide)).2 (by decide)⟩

/-! ## The node list of the layout -/

theorem ne_nil_of_mem_treeNodes_children (props : Props) (cs : List Node) (i : Nat) (q : Path)
    (h : q ∈ treeNodes.children props cs i) : ∃ (j : Nat) (r : Path), q = (i + j) :: r := by
  obtain ⟨j, _, r, _, hq, _⟩ := (mem_treeNodes_children props cs i q).mp h
  exact ⟨j, r, hq⟩

mutual
/-- The node list names no node twice. -/
theorem nodup_treeNodes (props : Props) : ∀ n : Node, (treeNodes props n).Nodup
  | .mk f cs => by
    rw [treeNodes, List.nodup_cons]
    constructor
    · intro h
      split at h
      · simp at h
      · obtain ⟨j, r, hq⟩ := ne_nil_of_mem_treeNodes_children props cs 0 [] h
        cases hq
    · split
      · exact List.nodup_nil
      · exact nodup_treeNodes_children props cs 0
/-- The part of the node list below a node names no node twice. -/
theorem nodup_treeNodes_children (props : Props) :
    ∀ (cs : List Node) (i : Nat), (treeNodes.children props cs i).Nodup
  | [], i => by simp [treeNodes.children]
  | c :: cs, i => by
    rw [treeNodes.children, List.nodup_append]
    refine ⟨(nodup_treeNodes props c).map (fun a b hab => (List.cons.inj hab).2),
      nodup_treeNodes_children props cs (i + 1), ?_⟩
    intro q h1 h2
    obtain ⟨r, _, hr⟩ := List.mem_map.mp h1
    obtain ⟨j, r2, hq⟩ := ne_nil_of_mem_treeNodes_children props cs (i + 1) q h2
    rw [← hr] at hq
    have := (List.cons.inj hq).1
    omega
end

mutual
/-- The node list names each parent before its children. -/
theorem treeNodes_parent_first (props : Props) : ∀ (n : Node) (l1 l2 : List Path) (q : Path),
    treeNodes props n = l1 ++ q :: l2 → q ≠ [] → q.dropLast ∈ l1
  | .mk f cs, l1, l2, q, he, hq => by
    rw [treeNodes] at he
    cases l1 with
    | nil =>
      simp only [List.nil_append, List.cons.injEq] at he
      exact absurd he.1.symm hq
    | cons a l1 =>
      simp only [List.cons_append, List.cons.injEq] at he
      obtain ⟨ha, he⟩ := he
      subst ha
      split at he
      · simp at he
      · rcases treeNodes_children_parent_first props cs 0 l1 l2 q he with h | h
        · rw [h]
          exact List.mem_cons_self _ _
        · exact List.mem_cons_of_mem _ h
/-- Below a node, a listed reference either is a child of that node or has its
parent earlier in the list. -/
theorem treeNodes_children_parent_first (props : Props) :
    ∀ (cs : List Node) (i : Nat) (l1 l2 : List Path) (q : Path),
      treeNodes.children props cs i = l1 ++ q :: l2 → q.dropLast = [] ∨ q.dropLast ∈ l1
  | [], i, l1, l2, q, he => by simp [treeNodes.children] at he
  | c :: cs, i, l1, l2, q, he => by
    rw [treeNodes.children] at he
    rcases List.append_eq_append_iff.mp he with ⟨a, h1, h2⟩ | ⟨b, h1, h2⟩
    · -- the block of `c` ends inside `l1`
      cases a with
      | nil =>
        simp only [List.nil_append] at h2
        simp only [List.append_nil] at h1
        rcases treeNodes_children_parent_first props cs (i + 1) [] l2 q h2 with h | h
        · exact Or.inl h
        · simp at h
      | cons x a =>
        have h3 : treeNodes.children props cs (i + 1) = (x :: a) ++ q :: l2 := h2
        rcases treeNodes_children_parent_first props cs (i + 1) (x :: a) l2 q h3 with h | h
        · exact Or.inl h
        · right
          rw [h1]
          exact List.mem_append_right _ h
    · -- `q` lies in the block of `c`
      cases b with
      | nil =>
        simp only [List.append_nil] at h1
        simp only [List.nil_append] at h2
        rcases treeNodes_children_parent_first props cs (i + 1) [] l2 q h2.symm with h | h
        · exact Or.inl h
        · simp at h
      | cons y b =>
        simp only [List.cons_append, List.cons.injEq] at h2
        obtain ⟨hy, hb⟩ := h2
        subst hy
        -- the block is l1 ++ q :: b
        obtain ⟨u, v, hu, hl1, hv⟩ := List.map_eq_append_iff.mp h1
        cases v with
        | nil => simp at hv
        | cons q2 v =>
          simp only [List.map_cons, List.cons.injEq] at hv
          obtain ⟨hq2, _⟩ := hv
          by_cases hne : q2 = []
          · left
            rw [← hq2, hne]
            rfl
          · right
            have := treeNodes_parent_first props c u v q2 hu hne
            rw [← hq2, ← hl1]
            have hd : (i :: q2).dropLast = i :: q2.dropLast := by
              cases q2 with
              | nil => exact absurd rfl hne
              | cons _ _ => rfl
            rw [hd]
            exact List.mem_map_of_mem _ this
end


/-- The position form of "each parent before its children". -/
theorem dropLast_mem_take_of_split (nodes : List Path)
    (hsplit : ∀ (l1 l2 : List Path) (q : Path), nodes = l1 ++ q :: l2 → q ≠ [] →
      q.dropLast ∈ l1)
    (k : Nat) (h : k < nodes.length) (hne : nodes[k] ≠ []) :
    nodes[k].dropLast ∈ nodes.take k := by
  apply hsplit (nodes.take k) (nodes.drop (k + 1)) nodes[k] _ hne
  rw [← List.drop_eq_getElem_cons h, List.take_append_drop]

/-- What the layout pass has written on the nodes that it lists: the true
`depth`, and on the parent of every listed node below the root the `children`
array that holds it. -/
theorem hierarchy_listed (props : Props) : ∀ (q : Path) (d : Nat) (n : Node),
    q ∈ treeNodes props (hierarchy props d n) →
      (∀ m, (hierarchy props d n).sub? q = some m → m.fields.depth = some (d + q.length)) ∧
      (q ≠ [] → ∀ m, (hierarchy props d n).sub? q.dropLast = some m →
        m.fields.children = ChildrenField.shared)
  | [], d, .mk f cs, _ => by
    rw [hierarchy_mk]
    constructor
    · intro m hm
      split at hm <;> simp only [Node.sub?, Option.some.injEq] at hm <;> subst hm <;>
        simp [Node.fields]
    · intro h
      exact absurd rfl h
  | j :: r, d, .mk f cs, h => by
    rw [hierarchy_mk] at h ⊢
    by_cases hc : (getNodeCollapsedState props (.mk f cs) || cs.length == 0) = true
    · exfalso
      rw [if_pos hc, mem_treeNodes_cons] at h
      obtain ⟨hcol, c, hj, _⟩ := h
      have hcol2 : getNodeCollapsedState props (.mk f cs) = false := by
        rw [← hcol]
        simp only [getNodeCollapsedState, Node.fields]
      rw [hcol2, Bool.false_or] at hc
      have hlen : cs.length = 0 := by simpa using hc
      rw [List.length_eq_zero] at hlen
      rw [hlen] at hj
      simp at hj
    · rw [if_neg hc] at h ⊢
      rw [mem_treeNodes_cons] at h
      obtain ⟨_, c2, hj, hr⟩ := h
      rw [List.getElem?_map] at hj
      cases hcj : cs[j]? with
      | none => rw [hcj] at hj; simp at hj
      | some c =>
        rw [hcj] at hj
        simp only [Option.map_some', Option.some.injEq] at hj
        subst hj
        obtain ⟨ih1, ih2⟩ := hierarchy_listed props r (d + 1) c hr
        constructor
        · intro m hm
          simp only [Node.sub?, List.getElem?_map, hcj, Option.map_some'] at hm
          rw [ih1 m hm]
          simp only [List.length_cons]
          congr 1
          omega
        · intro _ m hm
          cases r with
          | nil =>
            simp only [List.dropLast_single, Node.sub?, Option.some.injEq] at hm
            subst hm
            rfl
          | cons k r2 =>
            have hd : (j :: k :: r2).dropLast = j :: (k :: r2).dropLast := rfl
            rw [hd] at hm
            simp only [Node.sub?, List.getElem?_map, hcj, Option.map_some'] at hm
            exact ih2 (by simp) m hm

/-- In the node list of the layout, every child of a listed parent before a
listed child is listed too. -/
theorem treeNodes_prev_sibling (props : Props) (n : Node) (p : Path) (i : Nat)
    (h : p ++ [i + 1] ∈ treeNodes props n) : p ++ [i] ∈ treeNodes props n := by
  rw [mem_treeNodes_append] at h ⊢
  obtain ⟨hp, m, hm, hi⟩ := h
  refine ⟨hp, m, hm, ?_⟩
  cases m with
  | mk f cs =>
    rw [mem_treeNodes_cons] at hi ⊢
    obtain ⟨hcol, c, hc, _⟩ := hi
    have hlt : i < cs.length := by
      have := (List.getElem?_eq_some_iff.mp hc).1
      omega
    exact ⟨hcol, cs.get ⟨i, hlt⟩, by simp [List.getElem?_eq_getElem hlt], mem_treeNodes_nil _ _⟩

/-- The spacing of siblings for the node list that the layout pass itself
hands over: for every tree, whatever is collapsed in it, with sibling ids
pairwise distinct, `restrictNodeHeightGrowth` over `tree.nodes(rootNode)`
returns, and with `nodeSize.y` an integer of magnitude at most `2 ^ 50` the
visible children of a parent that shows 2, 3 or 4 children are `nodeSize.y`
apart in child order. -/
theorem restrictNodeHeightGrowth_after_layout (props : Props) (nodeSize : NodeSize)
    (root : Node) (placed : Path → Placement)
    (hids : ∀ q ∈ treeNodes props (hierarchy props 0 root),
      ∀ m ∈ (hierarchy props 0 root).sub? q,
        (m.children.map (fun elem => elem.fields.id)).Nodup) :
    ∃ placed2 : Path → Placement,
      restrictNodeHeightGrowth (treeNodes props (hierarchy props 0 root)) nodeSize
        (hierarchy props 0 root) placed = .ok placed2 ∧
      (∀ q, (placed2 q).y = (placed q).y) ∧
      (placed2 []).x = (placed []).x ∧
      (∀ n : ℤ, nodeSize.y = .fin n → |n| ≤ 2 ^ 50 →
        ∀ (p : Path) (i : Nat) (m : Node),
          p ++ [i + 1] ∈ treeNodes props (hierarchy props 0 root) →
          (hierarchy props 0 root).sub? p = some m →
          (m.children.length = 2 ∨ m.children.length = 3 ∨ m.children.length = 4) →
          i + 1 < m.children.length →
            ∃ a b : ℚ, (placed2 (p ++ [i + 1])).x = .fin a ∧ (placed2 (p ++ [i])).x = .fin b ∧
              a - b = n) := by
  obtain ⟨placed2, hrun, hy, hroot, hch⟩ :=
    restrictNodeHeightGrowth_children (treeNodes props (hierarchy props 0 root)) nodeSize
      (hierarchy props 0 root) placed (nodup_treeNodes props _)
      (dropLast_mem_take_of_split _ (treeNodes_parent_first props _))
      (fun q hq n hn => by
        have := (hierarchy_listed props q 0 root hq).1 n hn
        simpa using this)
      (fun q hq hne m hm => (hierarchy_listed props q 0 root hq).2 hne m hm)
      hids
  refine ⟨placed2, hrun, hy, hroot, ?_⟩
  intro n hn hbound p i m h2 hm hk hi
  have h1 := treeNodes_prev_sibling props _ p i h2
  obtain ⟨hc, d1, hx1⟩ := hch p i m h1 hm (by omega)
  obtain ⟨_, d2, hx2⟩ := hch p (i + 1) m h2 hm hi
  obtain ⟨c0, _, _, _, hval⟩ :=
    restrictedX_of_int nodeSize n hn hbound (placed2 p) m.children.length hc hk
  refine ⟨_, _, hx2.trans (hval d2 _ (i + 1) hi), hx1.trans (hval d1 _ i (by omega)), ?_⟩
  push_cast
  ring


end Rd3t
